import Mathlib

/-!
# Macchiato bitset: a shallow embedding and its verification

The embedding follows `src/include/macchiato/base.h` and
`src/include/macchiato/bitset.h`; the generator the tests draw from,
`external/xoshiro/include/xoshiro/xoshiro256plusplus.h`, is embedded at the end.

Modelling conventions.

* `WORD` is `std::uint_fast32_t`, which is 8 bytes wide on the 64-bit targets
  the test-suite requires (`REQUIRE(BITS_PER_WORD >= 64)`); a word is a `Nat`
  below `2 ^ 64` and every word operation that can leave that range is reduced
  modulo `2 ^ 64` explicitly.
* `size_t` is 64 bits wide: index arithmetic that the source performs on
  `size_type` is reduced modulo `2 ^ 64` explicitly.
* `std::vector<WORD>` is a `List Nat`, least significant word first.
  `m_data[i]` is `List.getD i 0` for a read and `List.set` for a write, so an
  index outside the vector (undefined behaviour in C++) reads `0` and drops
  the write.
* A member function that can throw returns an `Outcome`: either the state it
  returns normally with, or the exception together with the state of the
  receiver at the moment of the throw.
* The functions that compute results are embedded with `assert` compiled out
  (`NDEBUG`). The source defines no `NDEBUG`, so for `modify_range`, whose
  assertions can fail on calls within the contract, the build that keeps them is
  embedded as well: `Bitset.modify_range_asserting` and the three ranged overloads
  on top of it end in `Asserted.aborted` where an assertion fails. The condition
  of the assertion on the full-word loop alone is
  `Bitset.modify_range_full_word_assert`.
* Element accesses and shift amounts are embedded as traces (`Trace`), one per
  member, next to the functions that compute the results.
-/

namespace Macchiato

/-! ## base.h -/

def SIZE_MOD : Nat := 2 ^ 64

def BITS_PER_BYTE : Nat := 8
def BYTES_PER_WORD : Nat := 8
def BITS_PER_WORD : Nat := BYTES_PER_WORD * BITS_PER_BYTE
def MSB_POS : Nat := BITS_PER_WORD - 1

def WORD_MOD : Nat := 2 ^ BITS_PER_WORD

def ZEROS : Nat := 0

/-- Bitwise complement of a word, `~w`. -/
def wnot (w : Nat) : Nat := (WORD_MOD - 1) ^^^ w

def ONES : Nat := wnot ZEROS

/-- Left shift of a word, `w << s`; the bits shifted out are lost. -/
def shl (w s : Nat) : Nat := (w <<< s) % WORD_MOD

/-- Right shift of a word, `w >> s`. -/
def shr (w s : Nat) : Nat := w >>> s

/-- Auxiliary for `popcount`: the number of one bits among the lowest `fuel` bits. -/
def popcountAux : Nat → Nat → Nat
  | 0, _ => 0
  | fuel + 1, w => w % 2 + popcountAux fuel (w / 2)

/-- The number of one bits of a word, `std::popcount`. -/
def popcount (w : Nat) : Nat := popcountAux BITS_PER_WORD w

def mask_from_trailing_zeros (value : Nat) : Nat := (value + SIZE_MOD - 1) % SIZE_MOD

def binary_mod (MOD value : Nat) : Nat := value &&& mask_from_trailing_zeros MOD

def calc_num_words_needed (num_bits : Nat) : Nat :=
  let n := num_bits / BITS_PER_WORD
  if binary_mod BITS_PER_WORD num_bits ≠ 0 then n + 1 else n

/-! ## bitset.h -/

inductive MixedWidthMode where
  | SAME_SIZE_ONLY
  | UNSIGNED_PROMOTION
  deriving DecidableEq, Repr

deriving instance DecidableEq for Except

/-- The exceptions the bitset throws: `std::out_of_range` and `std::invalid_argument`. -/
inductive Fault where
  | out_of_range
  | invalid_argument
  deriving DecidableEq, Repr

structure Bitset where
  m_data : List Nat
  m_num_bits : Nat
  deriving DecidableEq, Repr

/-- Result of a member function that may throw: the receiver after a normal
return, or the exception and the receiver as it is when the exception leaves. -/
inductive Outcome where
  | returned (s : Bitset)
  | threw (f : Fault) (s : Bitset)
  deriving DecidableEq, Repr

/-- The value of an expression whose result is the local bitset a member call
was applied to: the bitset when the call returns, the exception when it throws. -/
def Outcome.value : Outcome → Except Fault Bitset
  | .returned s => .ok s
  | .threw f _ => .error f

/-- A counted loop `for (k = i; k < i + count; k++) data = body(k, data)`. -/
def for_range (body : Nat → List Nat → List Nat) : Nat → Nat → List Nat → List Nat
  | 0, _, data => data
  | count + 1, i, data => for_range body count (i + 1) (body i data)

/-- The loop body `m_data[i] = g(i, m_data[i])`. -/
def assign_word (g : Nat → Nat → Nat) (i : Nat) (data : List Nat) : List Nat :=
  data.set i (g i (data.getD i 0))

/-- The body of `m_data.back() op= ...`: rewrite the last word. -/
def modify_back (f : Nat → Nat) (data : List Nat) : List Nat :=
  data.set (data.length - 1) (f (data.getD (data.length - 1) 0))

/-- The call `std::vector::resize(n, fill)`. -/
def vec_resize (data : List Nat) (n fill : Nat) : List Nat :=
  data.take n ++ List.replicate (n - data.length) fill

namespace Bitset

/-- The constructor `Bitset()`. -/
def empty : Bitset := ⟨[], 0⟩

def num_words (b : Bitset) : Nat := b.m_data.length
def num_bits (b : Bitset) : Nat := b.m_num_bits
def is_empty (b : Bitset) : Bool := b.num_bits == 0

def is_narrower_than (b other : Bitset) : Bool := decide (b.m_num_bits < other.m_num_bits)

def msw_bit_alignment (b : Bitset) : Nat := binary_mod BITS_PER_WORD b.m_num_bits

def generate_used_bits_in_msw_mask (b : Bitset) : Nat :=
  let align := b.msw_bit_alignment
  if align = 0 then ONES else wnot (shl ONES align)

def zero_unused_bits_in_msw (b : Bitset) : Bitset :=
  if b.is_empty then b
  else { b with m_data := modify_back (fun w => w &&& b.generate_used_bits_in_msw_mask) b.m_data }

/-- The private `init`, run on the freshly constructed (empty) vector. -/
def init (num_bits value : Nat) : Bitset :=
  let num_words := calc_num_words_needed num_bits
  if num_words = 0 then ⟨[], num_bits⟩
  else
    let data := vec_resize [] num_words ZEROS
    zero_unused_bits_in_msw ⟨data.set 0 value, num_bits⟩

/-- The constructor `Bitset(num_bits, value)`. -/
def sized (num_bits : Nat) (value : Nat) : Bitset := init num_bits value

def clear (_b : Bitset) : Bitset := ⟨[], 0⟩

def resize (b : Bitset) (num_bits : Nat) (value : Bool) : Outcome :=
  let old_num_words := b.num_words
  let new_num_words := calc_num_words_needed num_bits
  let data₁ :=
    if new_num_words ≠ old_num_words then
      vec_resize b.m_data new_num_words (if value then ONES else ZEROS)
    else b.m_data
  if value && decide (num_bits ≥ b.m_num_bits) then
    let align := b.msw_bit_alignment
    if align > 0 then
      let idx := (old_num_words + SIZE_MOD - 1) % SIZE_MOD
      if idx < data₁.length then
        .returned (zero_unused_bits_in_msw
          ⟨data₁.set idx (data₁.getD idx 0 ||| shl ONES align), num_bits⟩)
      else .threw .out_of_range ⟨data₁, b.m_num_bits⟩
    else .returned (zero_unused_bits_in_msw ⟨data₁, num_bits⟩)
  else .returned (zero_unused_bits_in_msw ⟨data₁, num_bits⟩)

def push_msb (b : Bitset) (value : Bool) : Outcome :=
  b.resize ((b.m_num_bits + 1) % SIZE_MOD) value

def pop_msb (b : Bitset) : Bitset :=
  let old_num_words := b.num_words
  let num_bits := (b.m_num_bits + SIZE_MOD - 1) % SIZE_MOD
  let new_num_words := calc_num_words_needed num_bits
  if new_num_words < old_num_words then ⟨b.m_data.dropLast, num_bits⟩
  else zero_unused_bits_in_msw ⟨b.m_data, num_bits⟩

def extend_msb_with_word (b : Bitset) (word : Nat) : Bitset :=
  let align := b.msw_bit_alignment
  let data :=
    if align = 0 then b.m_data ++ [word]
    else modify_back (fun w => w ||| shl word align) b.m_data
           ++ [shr word (BITS_PER_WORD - align)]
  ⟨data, (b.m_num_bits + BITS_PER_WORD) % SIZE_MOD⟩

def all (b : Bitset) : Bool :=
  if b.is_empty then false
  else
    match b.m_data.reverse with
    | [] => false
    | msw :: rest =>
      if msw ≠ b.generate_used_bits_in_msw_mask then false
      else rest.all (fun w => w == ONES)

def any (b : Bitset) : Bool := b.m_data.any (fun word => word != ZEROS)

def none (b : Bitset) : Bool := b.m_data.all (fun word => !(word != ZEROS))

def count (b : Bitset) : Nat :=
  b.m_data.foldl (fun num word => (num + popcount word) % SIZE_MOD) 0

def word_index (bit_pos : Nat) : Nat := bit_pos / BITS_PER_WORD
def bit_offset (bit_pos : Nat) : Nat := binary_mod BITS_PER_WORD bit_pos
def one_hot_mask (bit_pos : Nat) : Nat := shl 1 (bit_offset bit_pos)

/-- The overload `set()`. -/
def set (b : Bitset) : Bitset :=
  zero_unused_bits_in_msw { b with m_data := b.m_data.map (fun _ => ONES) }

/-- The overload `reset()`. -/
def reset (b : Bitset) : Bitset :=
  { b with m_data := b.m_data.map (fun _ => ZEROS) }

def inplace_not (b : Bitset) : Bitset :=
  zero_unused_bits_in_msw { b with m_data := b.m_data.map wnot }

/-- The overload `flip()`. -/
def flip (b : Bitset) : Bitset := b.inplace_not

def test (b : Bitset) (n : Nat) : Except Fault Bool :=
  if n ≥ b.m_num_bits then .error .out_of_range
  else
    let mask := one_hot_mask (bit_offset n)
    .ok ((b.m_data.getD (word_index n) 0 &&& mask) != ZEROS)

/-- The overload `set(n)`. -/
def set_bit (b : Bitset) (n : Nat) : Outcome :=
  if n ≥ b.m_num_bits then .threw .out_of_range b
  else
    let mask := one_hot_mask (bit_offset n)
    .returned { b with m_data := assign_word (fun _ w => w ||| mask) (word_index n) b.m_data }

/-- The overload `reset(n)`. -/
def reset_bit (b : Bitset) (n : Nat) : Outcome :=
  if n ≥ b.m_num_bits then .threw .out_of_range b
  else
    let mask := wnot (one_hot_mask (bit_offset n))
    .returned { b with m_data := assign_word (fun _ w => w &&& mask) (word_index n) b.m_data }

/-- The overload `flip(n)`. -/
def flip_bit (b : Bitset) (n : Nat) : Outcome :=
  if n ≥ b.m_num_bits then .threw .out_of_range b
  else
    let mask := one_hot_mask (bit_offset n)
    .returned { b with m_data := assign_word (fun _ w => w ^^^ mask) (word_index n) b.m_data }

/-- The mask both lambdas of the ranged overloads build: ones in `[start, stop_incl]`. -/
def range_mask (start stop_incl : Nat) : Nat :=
  let mask := shl (shr ONES start) start
  shr (shl mask (MSB_POS - stop_incl)) (MSB_POS - stop_incl)

/-- The private `modify_range` with its assertions compiled out (`NDEBUG`);
`part_op` is its parameter `partial`. The loop over the full words runs from
`start_full_word_index` to `stop_full_word_index` inclusive. Where `bit_pos + len`
wraps to 0 that loop leaves the vector in the source (undefined behaviour), which
shows here only as dropped writes. The build that keeps the assertions is
`modify_range_asserting`. -/
def modify_range (b : Bitset) (bit_pos len : Nat) (full : Nat → Nat)
    (part_op : Nat → Nat → Nat → Nat) : Outcome :=
  if bit_pos ≥ b.m_num_bits then .threw .out_of_range b
  else if len = 0 then .returned b
  else
    let start_word_index := word_index bit_pos
    let start_bit_offset := bit_offset bit_pos
    let stop_pos := (min b.m_num_bits ((bit_pos + len) % SIZE_MOD) + SIZE_MOD - 1) % SIZE_MOD
    let stop_word_index := word_index stop_pos
    let stop_bit_offset := bit_offset stop_pos
    if start_word_index = stop_word_index then
      let data :=
        assign_word (fun _ w => part_op w start_bit_offset stop_bit_offset)
          start_word_index b.m_data
      .returned { b with m_data := data }
    else
      let start_full_word_offset := if start_bit_offset = 0 then 0 else 1
      let stop_full_word_offset := if stop_bit_offset = MSB_POS then 0 else 1
      let data₁ :=
        if start_full_word_offset ≠ 0 then
          assign_word (fun _ w => part_op w start_bit_offset MSB_POS) start_word_index b.m_data
        else b.m_data
      let data₂ :=
        if stop_full_word_offset ≠ 0 then
          assign_word (fun _ w => part_op w 0 stop_bit_offset) stop_word_index data₁
        else data₁
      let start_full_word_index := (start_word_index + start_full_word_offset) % SIZE_MOD
      let stop_full_word_index :=
        (stop_word_index + SIZE_MOD - stop_full_word_offset) % SIZE_MOD
      let data₃ :=
        for_range (assign_word (fun _ w => full w))
          (stop_full_word_index + 1 - start_full_word_index) start_full_word_index data₂
      .returned { b with m_data := data₃ }

/-- The overload `set(n, len)`. -/
def set_range (b : Bitset) (n len : Nat) : Outcome :=
  b.modify_range n len (fun _ => ONES) (fun word start stop_incl => word ||| range_mask start stop_incl)

/-- The overload `reset(n, len)`. -/
def reset_range (b : Bitset) (n len : Nat) : Outcome :=
  b.modify_range n len (fun _ => ZEROS)
    (fun word start stop_incl => word &&& wnot (range_mask start stop_incl))

/-- The overload `flip(n, len)`. -/
def flip_range (b : Bitset) (n len : Nat) : Outcome :=
  b.modify_range n len (fun word => word ^^^ ONES)
    (fun word start stop_incl => word ^^^ range_mask start stop_incl)

def apply_boolean_op (mode : MixedWidthMode) (b other : Bitset) (op : Nat → Nat → Nat) :
    Outcome :=
  match mode with
  | .UNSIGNED_PROMOTION =>
    let min_size := min b.num_words other.num_words
    let data₁ :=
      for_range (assign_word (fun i w => op w (other.m_data.getD i 0))) min_size 0 b.m_data
    let data₂ :=
      if b.num_words > other.num_words then
        for_range (assign_word (fun _ w => op w ZEROS)) (b.num_words - min_size) min_size data₁
      else if b.num_words < other.num_words then
        for_range (fun i data => data ++ [op (other.m_data.getD i 0) ZEROS])
          (other.num_words - min_size) min_size data₁
      else data₁
    .returned (zero_unused_bits_in_msw ⟨data₂, max b.m_num_bits other.m_num_bits⟩)
  | .SAME_SIZE_ONLY =>
    if b.num_bits ≠ other.num_bits then .threw .invalid_argument b
    else
      let data :=
        for_range (assign_word (fun i w => op w (other.m_data.getD i 0))) b.num_words 0 b.m_data
      .returned (zero_unused_bits_in_msw { b with m_data := data })

/-- The member `operator&=`. -/
def and_assign (mode : MixedWidthMode) (b other : Bitset) : Outcome :=
  apply_boolean_op mode b other (fun lhs rhs => lhs &&& rhs)

/-- The member `operator|=`. -/
def or_assign (mode : MixedWidthMode) (b other : Bitset) : Outcome :=
  apply_boolean_op mode b other (fun lhs rhs => lhs ||| rhs)

/-- The member `operator^=`. -/
def xor_assign (mode : MixedWidthMode) (b other : Bitset) : Outcome :=
  apply_boolean_op mode b other (fun lhs rhs => lhs ^^^ rhs)

def nand (mode : MixedWidthMode) (b other : Bitset) : Outcome :=
  apply_boolean_op mode b other (fun lhs rhs => wnot (lhs &&& rhs))

def nor (mode : MixedWidthMode) (b other : Bitset) : Outcome :=
  apply_boolean_op mode b other (fun lhs rhs => wnot (lhs ||| rhs))

def xnor (mode : MixedWidthMode) (b other : Bitset) : Outcome :=
  apply_boolean_op mode b other (fun lhs rhs => wnot (lhs ^^^ rhs))

/-- The member `operator~`: a fresh bitset extended by the complement of every word. -/
def complement (b : Bitset) : Bitset :=
  zero_unused_bits_in_msw
    (b.m_data.foldl (fun negated word => negated.extend_msb_with_word (wnot word)) empty)

def inplace_set_difference (b other : Bitset) : Bitset :=
  let stop := min b.num_words other.num_words
  let data :=
    for_range (assign_word (fun i w => w &&& wnot (other.m_data.getD i 0))) stop 0 b.m_data
  { b with m_data := data }

/-- The member `operator!=`. Each `while` loop returns `true` at the first index
whose words differ (are non-zero), which is `List.any` over the loop's indices. -/
def op_ne (mode : MixedWidthMode) (b other : Bitset) : Except Fault Bool :=
  match mode with
  | .UNSIGNED_PROMOTION =>
    if b.is_empty != other.is_empty then .ok true
    else
      let narrow := if b.is_narrower_than other then b else other
      let wide := if b.is_narrower_than other then other else b
      if (List.range narrow.num_words).any
          (fun i => narrow.m_data.getD i 0 != wide.m_data.getD i 0) then .ok true
      else if (List.range' narrow.num_words (wide.num_words - narrow.num_words)).any
          (fun i => wide.m_data.getD i 0 != ZEROS) then .ok true
      else .ok false
  | .SAME_SIZE_ONLY =>
    if b.num_bits ≠ other.num_bits then .error .invalid_argument
    else
      .ok ((List.range b.num_words).any
        (fun i => b.m_data.getD i 0 != other.m_data.getD i 0))

/-- The member `operator==`, `!(*this != other)`. -/
def op_eq (mode : MixedWidthMode) (b other : Bitset) : Except Fault Bool :=
  match b.op_ne mode other with
  | .ok r => .ok (!r)
  | .error f => .error f

/-- The free `operator&`: copy the operand with more words, `&=` the other. -/
def op_and (mode : MixedWidthMode) (lhs rhs : Bitset) : Except Fault Bitset :=
  let wider := if lhs.num_words > rhs.num_words then lhs else rhs
  let narrower := if lhs.num_words > rhs.num_words then rhs else lhs
  (wider.and_assign mode narrower).value

/-- The free `operator|`. -/
def op_or (mode : MixedWidthMode) (lhs rhs : Bitset) : Except Fault Bitset :=
  let wider := if lhs.num_words > rhs.num_words then lhs else rhs
  let narrower := if lhs.num_words > rhs.num_words then rhs else lhs
  (wider.or_assign mode narrower).value

/-- The free `operator^`. -/
def op_xor (mode : MixedWidthMode) (lhs rhs : Bitset) : Except Fault Bitset :=
  let wider := if lhs.num_words > rhs.num_words then lhs else rhs
  let narrower := if lhs.num_words > rhs.num_words then rhs else lhs
  (wider.xor_assign mode narrower).value

/-- The defaulted move constructor `Bitset(Bitset&&)`, as the pair of the new
object and the source afterwards. It moves member by member: the moved-from
vector is empty, the `size_type` member is copied. -/
def move_construct (s : Bitset) : Bitset × Bitset :=
  (⟨s.m_data, s.m_num_bits⟩, ⟨[], s.m_num_bits⟩)

/-- The defaulted move assignment `dest = std::move(s)`, as the pair of `dest` and
the source afterwards; member by member like the move constructor (the vector
implementations leave a moved-from vector empty). -/
def move_assign (_dest s : Bitset) : Bitset × Bitset :=
  (⟨s.m_data, s.m_num_bits⟩, ⟨[], s.m_num_bits⟩)

end Bitset

/-! ## Observations and invariants -/

/-- The state of the receiver after a call, however the call ended. -/
def Outcome.state : Outcome → Bitset
  | .returned s => s
  | .threw _ s => s

/-- Bit `i` of a word sequence: bit `i % BITS_PER_WORD` of word `i / BITS_PER_WORD`. -/
def bit_at (data : List Nat) (i : Nat) : Bool :=
  (data.getD (i / BITS_PER_WORD) 0).testBit (i % BITS_PER_WORD)

/-- Bit `i` of a bitset as `test(i)` reports it, read as 0 at the positions at or
beyond the length, where `test` throws (zero extension). -/
def Bitset.bit_ext (b : Bitset) (i : Nat) : Bool :=
  match b.test i with
  | .ok v => v
  | .error _ => false

/-- The call with outcome `r` returns, with length `n`, `words` words and, at
every `i < n`, the bit `f x y` where `x` and `y` are the zero-extended bits `i`
of `a` and `b`. -/
def returns_bitwise (r : Outcome) (n words : Nat) (f : Bool → Bool → Bool)
    (a b : Bitset) : Prop :=
  ∃ s, r = .returned s ∧ s.num_bits = n ∧ s.num_words = words ∧
    ∀ i, i < n → s.test i = .ok (f (a.bit_ext i) (b.bit_ext i))

/-- Representation typing: every stored word is a `WORD`, the length a `size_type`. -/
def well_typed (b : Bitset) : Prop :=
  (∀ w ∈ b.m_data, w < WORD_MOD) ∧ b.m_num_bits < SIZE_MOD

/-- Storage invariant 1: the number of words is `ceil(num_bits / BITS_PER_WORD)`. -/
def word_count_ok (b : Bitset) : Prop :=
  b.num_words = (b.num_bits + (BITS_PER_WORD - 1)) / BITS_PER_WORD

/-- Storage invariant 2: when the length is not word aligned, the bits of the
most significant word at positions `>= num_bits % BITS_PER_WORD` are zero. -/
def unused_bits_zero (b : Bitset) : Prop :=
  b.num_bits % BITS_PER_WORD ≠ 0 →
    ∀ k, k < BITS_PER_WORD → b.num_bits % BITS_PER_WORD ≤ k →
      (b.m_data.getD (b.num_words - 1) 0).testBit k = false

/-- The storage invariants of a bitset value. -/
structure Inv (b : Bitset) : Prop where
  typed : well_typed b
  count : word_count_ok b
  tail : unused_bits_zero b

instance (b : Bitset) : Decidable (well_typed b) := by
  unfold well_typed; infer_instance

instance (b : Bitset) : Decidable (word_count_ok b) := by
  unfold word_count_ok; infer_instance

instance (b : Bitset) : Decidable (unused_bits_zero b) := by
  unfold unused_bits_zero; infer_instance

instance (b : Bitset) : Decidable (Inv b) :=
  decidable_of_iff (well_typed b ∧ word_count_ok b ∧ unused_bits_zero b)
    ⟨fun h => ⟨h.1, h.2.1, h.2.2⟩, fun h => ⟨h.typed, h.count, h.tail⟩⟩

/-- The number of bits the word storage spans, `num_words() * BITS_PER_WORD`, is
a `size_type`. Only a bitset of at least `2 ^ 64 - 63` bits, whose words would
take up `2 ^ 61` bytes, does not satisfy this. -/
def fits (b : Bitset) : Prop := b.num_words * BITS_PER_WORD < SIZE_MOD

instance (b : Bitset) : Decidable (fits b) := by
  unfold fits; infer_instance

/-- The mutating member calls of a bitset. -/
inductive Call where
  | resize (num_bits : Nat) (value : Bool)
  | push_msb (value : Bool)
  | pop_msb
  | extend_msb_with_word (word : Nat)
  | clear
  | set
  | set_bit (n : Nat)
  | set_range (n len : Nat)
  | reset
  | reset_bit (n : Nat)
  | reset_range (n len : Nat)
  | flip
  | flip_bit (n : Nat)
  | flip_range (n len : Nat)
  | and_assign (other : Bitset)
  | or_assign (other : Bitset)
  | xor_assign (other : Bitset)
  | nand (other : Bitset)
  | nor (other : Bitset)
  | xnor (other : Bitset)
  | inplace_not
  | inplace_set_difference (other : Bitset)

/-- Run a call on the receiver `b` in the given width mode. -/
def Call.run (mode : MixedWidthMode) (b : Bitset) : Call → Outcome
  | .resize num_bits value => b.resize num_bits value
  | .push_msb value => b.push_msb value
  | .pop_msb => .returned b.pop_msb
  | .extend_msb_with_word word => .returned (b.extend_msb_with_word word)
  | .clear => .returned b.clear
  | .set => .returned b.set
  | .set_bit n => b.set_bit n
  | .set_range n len => b.set_range n len
  | .reset => .returned b.reset
  | .reset_bit n => b.reset_bit n
  | .reset_range n len => b.reset_range n len
  | .flip => .returned b.flip
  | .flip_bit n => b.flip_bit n
  | .flip_range n len => b.flip_range n len
  | .and_assign other => b.and_assign mode other
  | .or_assign other => b.or_assign mode other
  | .xor_assign other => b.xor_assign mode other
  | .nand other => b.nand mode other
  | .nor other => b.nor mode other
  | .xnor other => b.xnor mode other
  | .inplace_not => .returned b.inplace_not
  | .inplace_set_difference other => .returned (b.inplace_set_difference other)

/-- The bitset a call takes as its argument, if any. -/
def Call.operand : Call → Option Bitset
  | .and_assign other => some other
  | .or_assign other => some other
  | .xor_assign other => some other
  | .nand other => some other
  | .nor other => some other
  | .xnor other => some other
  | .inplace_set_difference other => some other
  | _ => Option.none

/-- The calls considered on a receiver `b`: arguments are values of their C++
types, `pop_msb` is called on a non-empty bitset only, the `start + len` of a
ranged call does not wrap the index type, and the length that
`extend_msb_with_word` computes is a `size_type`. -/
def Call.admissible (b : Bitset) : Call → Prop
  | .resize num_bits _ => num_bits < SIZE_MOD
  | .pop_msb => 0 < b.num_bits
  | .extend_msb_with_word word => word < WORD_MOD ∧ b.num_bits + BITS_PER_WORD < SIZE_MOD
  | .set_bit n => n < SIZE_MOD
  | .reset_bit n => n < SIZE_MOD
  | .flip_bit n => n < SIZE_MOD
  | .set_range n len => n + len < SIZE_MOD
  | .reset_range n len => n + len < SIZE_MOD
  | .flip_range n len => n + len < SIZE_MOD
  | _ => True

/-- The bitsets a program can build in one width mode: it starts from a
constructor and applies member calls, to receivers and arguments built the same
way; `operator~` is applied to a bitset whose storage bit count is a `size_type`. -/
inductive Reachable (mode : MixedWidthMode) : Bitset → Prop where
  | empty : Reachable mode Bitset.empty
  | sized (num_bits value : Nat) :
      num_bits < SIZE_MOD → value < WORD_MOD → Reachable mode (Bitset.sized num_bits value)
  | call (b : Bitset) (c : Call) :
      Reachable mode b → c.admissible b →
      (∀ other, c.operand = some other → Reachable mode other) →
      Reachable mode (c.run mode b).state
  | complement (b : Bitset) : Reachable mode b → fits b → Reachable mode b.complement

/-! ## Word accesses and shift amounts

The index of every element access and the amount of every shift in `bitset.h`
depends on `m_num_bits` and `m_data.size()` only, never on the stored words. For
each member the trace lists the element accesses `m_data[i]`, each with the size
of the vector it indexes at that moment, and the shift amounts. A loop that can
return early is listed in full. -/

/-- An element access `v[index]` (or `v.at(index)`) to a vector of `size` words. -/
structure Access where
  index : Nat
  size : Nat
  deriving DecidableEq, Repr

structure Trace where
  accesses : List Access
  shifts : List Nat
  deriving DecidableEq, Repr

def Trace.nil : Trace := ⟨[], []⟩

def Trace.append (t u : Trace) : Trace := ⟨t.accesses ++ u.accesses, t.shifts ++ u.shifts⟩

/-- Every access is inside its vector and every shift amount is below the word width. -/
def Trace.safe (t : Trace) : Prop :=
  (∀ a ∈ t.accesses, a.index < a.size) ∧ (∀ k ∈ t.shifts, k < BITS_PER_WORD)

instance (t : Trace) : Decidable t.safe := by
  unfold Trace.safe; infer_instance

/-- The element `v.back()` and `v.pop_back()` touch: index `v.size() - 1`. -/
def back_access (size : Nat) : Access := ⟨(size + SIZE_MOD - 1) % SIZE_MOD, size⟩

/-- The accesses `v[i]` of a loop `for (i = start; i < start + count; i++)` on a
vector of `size` words. -/
def loop_accesses (start count size : Nat) : List Access :=
  (List.range' start count).map (fun i => ⟨i, size⟩)

/-- The result of a call in a build that keeps `assert`: the call finishes with an
outcome, or an assertion is false and the program aborts. -/
inductive Asserted where
  | finished (r : Outcome)
  | aborted
  deriving DecidableEq, Repr

namespace Bitset

/-- The shift of `generate_used_bits_in_msw_mask` for a length of `num_bits`. -/
def generate_used_bits_in_msw_mask_trace (num_bits : Nat) : Trace :=
  let align := binary_mod BITS_PER_WORD num_bits
  if align = 0 then Trace.nil else ⟨[], [align]⟩

/-- The member `zero_unused_bits_in_msw` on a bitset of `num_bits` bits whose vector
holds `size` words. -/
def zero_unused_bits_in_msw_trace (num_bits size : Nat) : Trace :=
  if num_bits = 0 then Trace.nil
  else (generate_used_bits_in_msw_mask_trace num_bits).append ⟨[back_access size], []⟩

/-- The members `test(n)`, `set(n)`, `reset(n)` and `flip(n)`: after the bounds
check each computes `one_hot_mask(bit_offset(n))` and accesses
`m_data[word_index(n)]`. -/
def single_bit_trace (b : Bitset) (n : Nat) : Trace :=
  if n ≥ b.m_num_bits then Trace.nil
  else ⟨[⟨word_index n, b.num_words⟩], [bit_offset (bit_offset n)]⟩

/-- The four shifts of the lambda the ranged overloads pass as `partial`. -/
def part_op_trace (start stop_incl : Nat) : Trace :=
  ⟨[], [start, start, (MSB_POS + SIZE_MOD - stop_incl) % SIZE_MOD,
    (MSB_POS + SIZE_MOD - stop_incl) % SIZE_MOD]⟩

/-- The private `modify_range` as `set(n, len)`, `reset(n, len)` and `flip(n, len)`
call it. -/
def modify_range_trace (b : Bitset) (bit_pos len : Nat) : Trace :=
  if bit_pos ≥ b.m_num_bits then Trace.nil
  else if len = 0 then Trace.nil
  else
    let start_word_index := word_index bit_pos
    let start_bit_offset := bit_offset bit_pos
    let stop_pos := (min b.m_num_bits ((bit_pos + len) % SIZE_MOD) + SIZE_MOD - 1) % SIZE_MOD
    let stop_word_index := word_index stop_pos
    let stop_bit_offset := bit_offset stop_pos
    if start_word_index = stop_word_index then
      (Trace.mk [⟨start_word_index, b.num_words⟩] []).append
        (part_op_trace start_bit_offset stop_bit_offset)
    else
      let start_full_word_offset := if start_bit_offset = 0 then 0 else 1
      let stop_full_word_offset := if stop_bit_offset = MSB_POS then 0 else 1
      let t₁ :=
        if start_full_word_offset ≠ 0 then
          (Trace.mk [⟨start_word_index, b.num_words⟩] []).append
            (part_op_trace start_bit_offset MSB_POS)
        else Trace.nil
      let t₂ :=
        if stop_full_word_offset ≠ 0 then
          (Trace.mk [⟨stop_word_index, b.num_words⟩] []).append
            (part_op_trace 0 stop_bit_offset)
        else Trace.nil
      let start_full_word_index := (start_word_index + start_full_word_offset) % SIZE_MOD
      let stop_full_word_index :=
        (stop_word_index + SIZE_MOD - stop_full_word_offset) % SIZE_MOD
      let t₃ : Trace :=
        ⟨loop_accesses start_full_word_index
          (stop_full_word_index + 1 - start_full_word_index) b.num_words, []⟩
      (t₁.append t₂).append t₃

/-- The private `modify_range` in a build that keeps `assert`: the six assertions
stand where the source has them, and the first one that is false aborts the
program. -/
def modify_range_asserting (b : Bitset) (bit_pos len : Nat) (full : Nat → Nat)
    (part_op : Nat → Nat → Nat → Nat) : Asserted :=
  if bit_pos ≥ b.m_num_bits then .finished (.threw .out_of_range b)
  else if len = 0 then .finished (.returned b)
  else
    let start_word_index := word_index bit_pos
    let start_bit_offset := bit_offset bit_pos
    let stop_pos := (min b.m_num_bits ((bit_pos + len) % SIZE_MOD) + SIZE_MOD - 1) % SIZE_MOD
    let stop_word_index := word_index stop_pos
    let stop_bit_offset := bit_offset stop_pos
    if ¬ bit_pos ≤ stop_pos then .aborted
    else if ¬ stop_pos < b.m_num_bits then .aborted
    else if ¬ stop_word_index < b.m_data.length then .aborted
    else if ¬ stop_bit_offset < BITS_PER_WORD then .aborted
    else if start_word_index = stop_word_index then
      if ¬ start_bit_offset ≤ stop_bit_offset then .aborted
      else
        let data :=
          assign_word (fun _ w => part_op w start_bit_offset stop_bit_offset)
            start_word_index b.m_data
        .finished (.returned { b with m_data := data })
    else
      let start_full_word_offset := if start_bit_offset = 0 then 0 else 1
      let stop_full_word_offset := if stop_bit_offset = MSB_POS then 0 else 1
      let data₁ :=
        if start_full_word_offset ≠ 0 then
          assign_word (fun _ w => part_op w start_bit_offset MSB_POS) start_word_index b.m_data
        else b.m_data
      let data₂ :=
        if stop_full_word_offset ≠ 0 then
          assign_word (fun _ w => part_op w 0 stop_bit_offset) stop_word_index data₁
        else data₁
      let start_full_word_index := (start_word_index + start_full_word_offset) % SIZE_MOD
      let stop_full_word_index :=
        (stop_word_index + SIZE_MOD - stop_full_word_offset) % SIZE_MOD
      if ¬ start_full_word_index ≤ stop_full_word_index then .aborted
      else
        let data₃ :=
          for_range (assign_word (fun _ w => full w))
            (stop_full_word_index + 1 - start_full_word_index) start_full_word_index data₂
        .finished (.returned { b with m_data := data₃ })

/-- The overload `set(n, len)` in a build that keeps `assert`. -/
def set_range_asserting (b : Bitset) (n len : Nat) : Asserted :=
  b.modify_range_asserting n len (fun _ => ONES)
    (fun word start stop_incl => word ||| range_mask start stop_incl)

/-- The overload `reset(n, len)` in a build that keeps `assert`. -/
def reset_range_asserting (b : Bitset) (n len : Nat) : Asserted :=
  b.modify_range_asserting n len (fun _ => ZEROS)
    (fun word start stop_incl => word &&& wnot (range_mask start stop_incl))

/-- The overload `flip(n, len)` in a build that keeps `assert`. -/
def flip_range_asserting (b : Bitset) (n len : Nat) : Asserted :=
  b.modify_range_asserting n len (fun word => word ^^^ ONES)
    (fun word start stop_incl => word ^^^ range_mask start stop_incl)

/-- The value of the condition in `assert(start_full_word_index <= stop_full_word_index)`
when a call of `modify_range` reaches it; no value when the call throws, returns at
`len == 0` or takes the one-word branch. -/
def modify_range_full_word_assert (b : Bitset) (bit_pos len : Nat) : Option Bool :=
  if bit_pos ≥ b.m_num_bits then Option.none
  else if len = 0 then Option.none
  else
    let start_word_index := word_index bit_pos
    let start_bit_offset := bit_offset bit_pos
    let stop_pos := (min b.m_num_bits ((bit_pos + len) % SIZE_MOD) + SIZE_MOD - 1) % SIZE_MOD
    let stop_word_index := word_index stop_pos
    let stop_bit_offset := bit_offset stop_pos
    if start_word_index = stop_word_index then Option.none
    else
      let start_full_word_offset := if start_bit_offset = 0 then 0 else 1
      let stop_full_word_offset := if stop_bit_offset = MSB_POS then 0 else 1
      let start_full_word_index := (start_word_index + start_full_word_offset) % SIZE_MOD
      let stop_full_word_index :=
        (stop_word_index + SIZE_MOD - stop_full_word_offset) % SIZE_MOD
      some (decide (start_full_word_index ≤ stop_full_word_index))

/-- The member `resize`: the access `m_data.at(old_num_words - 1)` with the shift
`ONES << align`, made on the vector after `m_data.resize`, then
`zero_unused_bits_in_msw` on the new length. -/
def resize_trace (b : Bitset) (num_bits : Nat) (value : Bool) : Trace :=
  let old_num_words := b.num_words
  let new_num_words := calc_num_words_needed num_bits
  let size := if new_num_words ≠ old_num_words then new_num_words else old_num_words
  let t₁ :=
    if value && decide (num_bits ≥ b.m_num_bits) then
      let align := b.msw_bit_alignment
      if align > 0 then
        Trace.mk [⟨(old_num_words + SIZE_MOD - 1) % SIZE_MOD, size⟩] [align]
      else Trace.nil
    else Trace.nil
  t₁.append (zero_unused_bits_in_msw_trace num_bits size)

/-- The member `pop_msb`: `m_data.pop_back()` or `zero_unused_bits_in_msw` on the
decremented length. -/
def pop_msb_trace (b : Bitset) : Trace :=
  let old_num_words := b.num_words
  let num_bits := (b.m_num_bits + SIZE_MOD - 1) % SIZE_MOD
  let new_num_words := calc_num_words_needed num_bits
  if new_num_words < old_num_words then ⟨[back_access old_num_words], []⟩
  else zero_unused_bits_in_msw_trace num_bits old_num_words

/-- The member `extend_msb_with_word`: `m_data.back()` and the two shifts when the
length is not word aligned. -/
def extend_msb_with_word_trace (b : Bitset) : Trace :=
  let align := b.msw_bit_alignment
  if align = 0 then Trace.nil
  else ⟨[back_access b.num_words], [align, (BITS_PER_WORD + SIZE_MOD - align) % SIZE_MOD]⟩

/-- The private `apply_boolean_op`, which `&=`, `|=`, `^=`, `nand`, `nor` and `xnor`
call with lambdas that do not shift. -/
def apply_boolean_op_trace (mode : MixedWidthMode) (b other : Bitset) : Trace :=
  match mode with
  | .UNSIGNED_PROMOTION =>
    let min_size := min b.num_words other.num_words
    let common :=
      loop_accesses 0 min_size b.num_words ++ loop_accesses 0 min_size other.num_words
    let rest :=
      if b.num_words > other.num_words then
        loop_accesses min_size (b.num_words - min_size) b.num_words
      else if b.num_words < other.num_words then
        loop_accesses min_size (other.num_words - min_size) other.num_words
      else []
    let size := if b.num_words < other.num_words then other.num_words else b.num_words
    (Trace.mk (common ++ rest) []).append
      (zero_unused_bits_in_msw_trace (max b.m_num_bits other.m_num_bits) size)
  | .SAME_SIZE_ONLY =>
    if b.num_bits ≠ other.num_bits then Trace.nil
    else
      (Trace.mk (loop_accesses 0 b.num_words b.num_words ++
        loop_accesses 0 b.num_words other.num_words) []).append
        (zero_unused_bits_in_msw_trace b.m_num_bits b.num_words)

/-- The member `operator!=`, which `operator==` calls. -/
def op_ne_trace (mode : MixedWidthMode) (b other : Bitset) : Trace :=
  match mode with
  | .UNSIGNED_PROMOTION =>
    if b.is_empty != other.is_empty then Trace.nil
    else
      let narrow := if b.is_narrower_than other then b else other
      let wide := if b.is_narrower_than other then other else b
      ⟨loop_accesses 0 narrow.num_words narrow.num_words ++
        loop_accesses 0 narrow.num_words wide.num_words ++
        loop_accesses narrow.num_words (wide.num_words - narrow.num_words) wide.num_words, []⟩
  | .SAME_SIZE_ONLY =>
    if b.num_bits ≠ other.num_bits then Trace.nil
    else
      ⟨loop_accesses 0 b.num_words b.num_words ++
        loop_accesses 0 b.num_words other.num_words, []⟩

/-- The member `inplace_set_difference`. -/
def inplace_set_difference_trace (b other : Bitset) : Trace :=
  let stop := min b.num_words other.num_words
  ⟨loop_accesses 0 stop b.num_words ++ loop_accesses 0 stop other.num_words, []⟩

end Bitset

/-! ## xoshiro256plusplus.h -/

namespace xoshiro

/-- A `std::uint64_t` is a `Nat` below `2 ^ 64`. -/
def U64_MOD : Nat := 2 ^ 64

/-- The function `std::rotl` on a `std::uint64_t`. -/
def rotl (x s : Nat) : Nat :=
  let r := s % 64
  if r = 0 then x else ((x <<< r) % U64_MOD) ||| (x >>> (64 - r))

/-- The type `std::array<std::uint64_t, 4>`, element `i` being `s i`. -/
structure state_type where
  s0 : Nat
  s1 : Nat
  s2 : Nat
  s3 : Nat
  deriving DecidableEq, Repr

/-- Every element is a `std::uint64_t`. -/
def state_type.typed (s : state_type) : Prop :=
  s.s0 < U64_MOD ∧ s.s1 < U64_MOD ∧ s.s2 < U64_MOD ∧ s.s3 < U64_MOD

instance (s : state_type) : Decidable s.typed := by
  unfold state_type.typed; infer_instance

/-- The state is everywhere zero. -/
def state_type.is_zero (s : state_type) : Bool :=
  !([s.s0, s.s1, s.s2, s.s3].any (fun word => word != 0))

structure Xoshiro256PlusPlus where
  s : state_type
  deriving DecidableEq, Repr

namespace Xoshiro256PlusPlus

/-- The constructor `Xoshiro256PlusPlus(const state_type&)`. -/
def from_state (state : state_type) : Except Fault Xoshiro256PlusPlus :=
  if state.is_zero then .error .invalid_argument else .ok ⟨state⟩

/-- The member `next()`: the value returned and the generator afterwards. -/
def next (g : Xoshiro256PlusPlus) : Nat × Xoshiro256PlusPlus :=
  let result := (rotl ((g.s.s0 + g.s.s3) % U64_MOD) 23 + g.s.s0) % U64_MOD
  let t := (g.s.s1 <<< 17) % U64_MOD
  let s2 := g.s.s2 ^^^ g.s.s0
  let s3 := g.s.s3 ^^^ g.s.s1
  let s1 := g.s.s1 ^^^ s2
  let s0 := g.s.s0 ^^^ s3
  let s2 := s2 ^^^ t
  let s3 := rotl s3 45
  (result, ⟨⟨s0, s1, s2, s3⟩⟩)

/-- The generator after `n` calls of `next()`. -/
def advance : Nat → Xoshiro256PlusPlus → Xoshiro256PlusPlus
  | 0, g => g
  | n + 1, g => advance n g.next.2

end Xoshiro256PlusPlus

end xoshiro

end Macchiato


namespace Macchiato

/-! ## Arithmetic of `base.h` -/

theorem bits_per_word_eq : BITS_PER_WORD = 64 := rfl

theorem msb_pos_eq : MSB_POS = 63 := rfl

theorem word_mod_eq : WORD_MOD = 2 ^ 64 := rfl

theorem size_mod_eq : SIZE_MOD = 2 ^ 64 := rfl

theorem ones_eq : ONES = 2 ^ 64 - 1 := by decide

theorem binary_mod_eq (v : Nat) : binary_mod BITS_PER_WORD v = v % 64 := by
  have h : mask_from_trailing_zeros BITS_PER_WORD = 2 ^ 6 - 1 := by decide
  unfold binary_mod
  rw [h, Nat.and_pow_two_sub_one_eq_mod]

theorem calc_num_words_needed_eq (n : Nat) : calc_num_words_needed n = (n + 63) / 64 := by
  unfold calc_num_words_needed
  simp only [binary_mod_eq]
  rw [bits_per_word_eq]
  split <;> omega

theorem bit_offset_eq (v : Nat) : Bitset.bit_offset v = v % 64 := binary_mod_eq v

theorem word_index_eq (v : Nat) : Bitset.word_index v = v / 64 := rfl

theorem msw_bit_alignment_eq (b : Bitset) : b.msw_bit_alignment = b.m_num_bits % 64 :=
  binary_mod_eq _

/-! ## Bits of word operations -/

theorem ones_lt : ONES < 2 ^ 64 := by decide

theorem testBit_ones (k : Nat) : ONES.testBit k = decide (k < 64) := by
  rw [ones_eq, Nat.testBit_two_pow_sub_one]

theorem testBit_wnot (w k : Nat) (hw : w < 2 ^ 64) :
    (wnot w).testBit k = (decide (k < 64) && !w.testBit k) := by
  unfold wnot
  rw [word_mod_eq, Nat.testBit_xor, Nat.testBit_two_pow_sub_one]
  by_cases hk : k < 64
  · simp [hk]
  · have : w.testBit k = false :=
      Nat.testBit_lt_two_pow (lt_of_lt_of_le hw (Nat.pow_le_pow_right (by decide) (by omega)))
    simp [hk, this]

theorem wnot_lt (w : Nat) (hw : w < 2 ^ 64) : wnot w < 2 ^ 64 := by
  unfold wnot
  exact Nat.xor_lt_two_pow (by decide) hw

theorem testBit_shl (w s k : Nat) :
    (shl w s).testBit k = (decide (k < 64) && (decide (s ≤ k) && w.testBit (k - s))) := by
  unfold shl
  rw [word_mod_eq, Nat.testBit_mod_two_pow, Nat.testBit_shiftLeft]

theorem shl_lt (w s : Nat) : shl w s < 2 ^ 64 := by
  unfold shl
  rw [word_mod_eq]
  exact Nat.mod_lt _ (by decide)

theorem testBit_shr (w s k : Nat) : (shr w s).testBit k = w.testBit (s + k) := by
  unfold shr
  rw [Nat.testBit_shiftRight]

theorem shr_lt (w s : Nat) (hw : w < 2 ^ 64) : shr w s < 2 ^ 64 := by
  unfold shr
  rw [Nat.shiftRight_eq_div_pow]
  exact lt_of_le_of_lt (Nat.div_le_self _ _) hw

theorem testBit_of_lt_word {w k : Nat} (hw : w < 2 ^ 64) (hk : 64 ≤ k) : w.testBit k = false :=
  Nat.testBit_lt_two_pow (lt_of_lt_of_le hw (Nat.pow_le_pow_right (by decide) hk))

theorem testBit_one_hot_mask (n k : Nat) :
    (Bitset.one_hot_mask (Bitset.bit_offset n)).testBit k = decide (k = n % 64) := by
  unfold Bitset.one_hot_mask
  rw [bit_offset_eq, bit_offset_eq, Nat.mod_mod, testBit_shl]
  have hn : n % 64 < 64 := Nat.mod_lt _ (by decide)
  by_cases h : k = n % 64
  · subst h
    simp [hn]
  · by_cases h2 : n % 64 ≤ k
    · have : k - n % 64 ≠ 0 := by omega
      have h3 : Nat.testBit 1 (k - n % 64) = false := by
        cases hb : Nat.testBit 1 (k - n % 64)
        · rfl
        · exact absurd (Nat.testBit_one_eq_true_iff_self_eq_zero.mp hb) this
      simp [h, h3]
    · simp [h, h2]

theorem one_hot_mask_lt (n : Nat) : Bitset.one_hot_mask n < 2 ^ 64 := shl_lt _ _

theorem testBit_range_mask (s e k : Nat) (he : e < 64) :
    (Bitset.range_mask s e).testBit k = (decide (s ≤ k) && decide (k ≤ e)) := by
  unfold Bitset.range_mask
  simp only [testBit_shr, testBit_shl, testBit_ones, msb_pos_eq]
  by_cases h1 : s ≤ k <;> by_cases h2 : k ≤ e
  · have a1 : 63 - e + k < 64 := by omega
    have a2 : 63 - e ≤ 63 - e + k := by omega
    have a3 : 63 - e + k - (63 - e) = k := by omega
    have a4 : k < 64 := by omega
    have a5 : s + (k - s) < 64 := by omega
    simp [h1, h2, a1, a3, a4, a5]
  · have a1 : ¬ (63 - e + k < 64) := by omega
    simp [h2, a1]
  · have a3 : 63 - e + k - (63 - e) = k := by omega
    simp [h1, a3]
  · have a1 : ¬ (63 - e + k < 64) := by omega
    simp [h2, a1]

theorem range_mask_lt (s e : Nat) : Bitset.range_mask s e < 2 ^ 64 := by
  unfold Bitset.range_mask
  exact shr_lt _ _ (shl_lt _ _)

theorem testBit_used_mask (b : Bitset) (k : Nat) :
    b.generate_used_bits_in_msw_mask.testBit k =
      (decide (k < 64) && (decide (b.m_num_bits % 64 = 0) || decide (k < b.m_num_bits % 64))) := by
  unfold Bitset.generate_used_bits_in_msw_mask
  simp only [msw_bit_alignment_eq]
  have hlt : b.m_num_bits % 64 < 64 := Nat.mod_lt _ (by decide)
  split
  · rename_i h
    simp [testBit_ones, h]
  · rename_i h
    rw [testBit_wnot _ _ (shl_lt _ _), testBit_shl, testBit_ones]
    by_cases hk : k < 64
    · by_cases hk2 : k < b.m_num_bits % 64
      · have : ¬ (b.m_num_bits % 64 ≤ k) := by omega
        simp [hk, hk2, this]
      · have h5 : b.m_num_bits % 64 ≤ k := by omega
        have h6 : k - b.m_num_bits % 64 < 64 := by omega
        simp [hk, hk2, h, h5, h6]
    · simp [hk]

theorem used_mask_lt (b : Bitset) : b.generate_used_bits_in_msw_mask < 2 ^ 64 := by
  unfold Bitset.generate_used_bits_in_msw_mask
  dsimp only
  split
  · exact ones_lt
  · exact wnot_lt _ (shl_lt _ _)

end Macchiato


namespace Macchiato

/-! ## Word sequences -/

theorem getD_zero_eq (l : List Nat) (j : Nat) : l.getD j 0 = l[j]?.getD 0 :=
  List.getD_eq_getElem?_getD l j 0

theorem getD_of_le (l : List Nat) (j : Nat) (h : l.length ≤ j) : l.getD j 0 = 0 := by
  rw [getD_zero_eq, List.getElem?_eq_none h]; rfl

theorem getD_mem (l : List Nat) (j : Nat) (h : j < l.length) : l.getD j 0 ∈ l := by
  rw [getD_zero_eq, List.getElem?_eq_getElem h]
  exact List.getElem_mem h

theorem getD_set_eq (l : List Nat) (i j a : Nat) :
    (l.set i a).getD j 0 = if i = j ∧ i < l.length then a else l.getD j 0 := by
  rw [getD_zero_eq, getD_zero_eq, List.getElem?_set]
  by_cases h : i = j
  · subst h
    by_cases h2 : i < l.length
    · simp [h2]
    · have h3 : l.length ≤ i := by omega
      simp [h2, List.getElem?_eq_none h3]
  · simp [h]

theorem list_ext_getD (l₁ l₂ : List Nat) (hlen : l₁.length = l₂.length)
    (h : ∀ j, j < l₁.length → l₁.getD j 0 = l₂.getD j 0) : l₁ = l₂ := by
  apply List.ext_getElem?
  intro j
  by_cases hj : j < l₁.length
  · have h2 : j < l₂.length := by omega
    have := h j hj
    rw [getD_zero_eq, getD_zero_eq, List.getElem?_eq_getElem hj,
      List.getElem?_eq_getElem h2] at this
    rw [List.getElem?_eq_getElem hj, List.getElem?_eq_getElem h2]
    simpa using this
  · rw [List.getElem?_eq_none (by omega), List.getElem?_eq_none (by omega)]

/-- Every word of the sequence is a `WORD`. -/
theorem words_lt_iff (l : List Nat) :
    (∀ w ∈ l, w < WORD_MOD) ↔ ∀ j, l.getD j 0 < 2 ^ 64 := by
  constructor
  · intro h j
    by_cases hj : j < l.length
    · exact h _ (getD_mem l j hj)
    · rw [getD_of_le l j (by omega)]; decide
  · intro h w hw
    obtain ⟨n, hn, rfl⟩ := List.mem_iff_getElem.mp hw
    have := h n
    rw [getD_zero_eq, List.getElem?_eq_getElem hn] at this
    simpa using this

theorem length_assign_word (g : Nat → Nat → Nat) (i : Nat) (d : List Nat) :
    (assign_word g i d).length = d.length := by
  unfold assign_word; rw [List.length_set]

theorem getD_assign_word (g : Nat → Nat → Nat) (i j : Nat) (d : List Nat) :
    (assign_word g i d).getD j 0 =
      if j = i ∧ j < d.length then g j (d.getD j 0) else d.getD j 0 := by
  unfold assign_word
  rw [getD_set_eq]
  by_cases h : i = j
  · subst h; simp
  · have h2 : ¬ j = i := fun e => h e.symm
    simp [h, h2]

theorem length_for_range_assign (g : Nat → Nat → Nat) (c i : Nat) (d : List Nat) :
    (for_range (assign_word g) c i d).length = d.length := by
  induction c generalizing i d with
  | zero => rfl
  | succ c ih => rw [for_range, ih, length_assign_word]

theorem getD_for_range_assign (g : Nat → Nat → Nat) (c i j : Nat) (d : List Nat) :
    (for_range (assign_word g) c i d).getD j 0 =
      if i ≤ j ∧ j < i + c ∧ j < d.length then g j (d.getD j 0) else d.getD j 0 := by
  induction c generalizing i d with
  | zero =>
    have : ¬ (i ≤ j ∧ j < i + 0 ∧ j < d.length) := by omega
    rw [for_range, if_neg this]
  | succ c ih =>
    rw [for_range, ih, length_assign_word, getD_assign_word]
    by_cases h1 : j = i
    · subst h1
      by_cases h2 : j < d.length
      · have a : ¬ (j + 1 ≤ j ∧ j < j + 1 + c ∧ j < d.length) := by omega
        have b : j ≤ j ∧ j < j + (c + 1) ∧ j < d.length := ⟨le_refl _, by omega, h2⟩
        rw [if_neg a, if_pos ⟨rfl, h2⟩, if_pos b]
      · have a : ¬ (j + 1 ≤ j ∧ j < j + 1 + c ∧ j < d.length) := by omega
        have b : ¬ (j ≤ j ∧ j < j + (c + 1) ∧ j < d.length) := by omega
        have c' : ¬ (j = j ∧ j < d.length) := by omega
        rw [if_neg a, if_neg c', if_neg b]
    · have c' : ¬ (j = i ∧ j < d.length) := fun e => h1 e.1
      rw [if_neg c']
      by_cases h3 : i + 1 ≤ j ∧ j < i + 1 + c ∧ j < d.length
      · have b : i ≤ j ∧ j < i + (c + 1) ∧ j < d.length := by omega
        rw [if_pos h3, if_pos b]
      · have b : ¬ (i ≤ j ∧ j < i + (c + 1) ∧ j < d.length) := by omega
        rw [if_neg h3, if_neg b]

theorem length_for_range_push (g : Nat → Nat) (c i : Nat) (d : List Nat) :
    (for_range (fun k data => data ++ [g k]) c i d).length = d.length + c := by
  induction c generalizing i d with
  | zero => rfl
  | succ c ih => rw [for_range, ih, List.length_append]; simp; omega

theorem getD_for_range_push (g : Nat → Nat) (c i j : Nat) (d : List Nat) :
    (for_range (fun k data => data ++ [g k]) c i d).getD j 0 =
      if j < d.length then d.getD j 0
      else if j < d.length + c then g (i + (j - d.length)) else 0 := by
  induction c generalizing i d with
  | zero =>
    rw [for_range]
    by_cases h : j < d.length
    · rw [if_pos h]
    · rw [if_neg h, if_neg (by omega), getD_of_le _ _ (by omega)]
  | succ c ih =>
    rw [for_range, ih, List.length_append, List.length_singleton]
    by_cases h : j < d.length
    · rw [if_pos (by omega), if_pos h, List.getD_append _ _ _ _ h]
    · rw [if_neg h]
      by_cases h2 : j = d.length
      · subst h2
        rw [if_pos (by omega), if_pos (by omega), getD_zero_eq,
          List.getElem?_append_right (le_refl _)]
        simp
      · rw [if_neg (by omega)]
        by_cases h3 : j < d.length + (c + 1)
        · rw [if_pos (by omega), if_pos h3]
          congr 1; omega
        · rw [if_neg (by omega), if_neg h3]

theorem length_modify_back (f : Nat → Nat) (d : List Nat) :
    (modify_back f d).length = d.length := by
  unfold modify_back; rw [List.length_set]

theorem getD_modify_back (f : Nat → Nat) (d : List Nat) (j : Nat) :
    (modify_back f d).getD j 0 =
      if j + 1 = d.length then f (d.getD j 0) else d.getD j 0 := by
  unfold modify_back
  rw [getD_set_eq]
  by_cases h : j + 1 = d.length
  · have h2 : d.length - 1 = j ∧ d.length - 1 < d.length := by omega
    have h3 : d.length - 1 = j := h2.1
    rw [if_pos h2, if_pos h, h3]
  · have h2 : ¬ (d.length - 1 = j ∧ d.length - 1 < d.length) := by omega
    rw [if_neg h2, if_neg h]

theorem length_vec_resize (d : List Nat) (n fill : Nat) : (vec_resize d n fill).length = n := by
  unfold vec_resize
  rw [List.length_append, List.length_take, List.length_replicate]
  omega

theorem getD_vec_resize (d : List Nat) (n fill j : Nat) :
    (vec_resize d n fill).getD j 0 =
      if j < n then (if j < d.length then d.getD j 0 else fill) else 0 := by
  unfold vec_resize
  rw [getD_zero_eq, getD_zero_eq, List.getElem?_append, List.length_take,
    List.getElem?_take, List.getElem?_replicate]
  by_cases h1 : j < n
  · by_cases h2 : j < d.length
    · have : j < min n d.length := by omega
      simp [h1, h2, this]
    · have : ¬ j < min n d.length := by omega
      have h3 : j - min n d.length < n - d.length := by omega
      simp [h1, h2, this, h3]
  · have : ¬ j < min n d.length := by omega
    have h3 : ¬ j - min n d.length < n - d.length := by omega
    simp [h1, this, h3]

theorem getD_map_word (f : Nat → Nat) (d : List Nat) (j : Nat) :
    (d.map f).getD j 0 = if j < d.length then f (d.getD j 0) else 0 := by
  rw [getD_zero_eq, getD_zero_eq, List.getElem?_map]
  by_cases h : j < d.length
  · simp [h, List.getElem?_eq_getElem h]
  · simp [h, List.getElem?_eq_none (Nat.le_of_not_lt h)]

theorem getD_dropLast (d : List Nat) (j : Nat) :
    d.dropLast.getD j 0 = if j + 1 < d.length then d.getD j 0 else 0 := by
  rw [getD_zero_eq, getD_zero_eq, List.getElem?_dropLast]
  by_cases h : j + 1 < d.length
  · have : j < d.length - 1 := by omega
    simp [h, this]
  · have : ¬ j < d.length - 1 := by omega
    simp [h, this]

theorem getD_append_single (d : List Nat) (w j : Nat) :
    (d ++ [w]).getD j 0 =
      if j < d.length then d.getD j 0 else if j = d.length then w else 0 := by
  rw [getD_zero_eq, getD_zero_eq, List.getElem?_append]
  by_cases h : j < d.length
  · simp [h]
  · by_cases h2 : j = d.length
    · subst h2; simp
    · have : j - d.length ≠ 0 := by omega
      obtain ⟨m, hm⟩ := Nat.exists_eq_succ_of_ne_zero this
      simp [h, h2, hm]

/-! ## Bits of a word sequence -/

theorem bit_at_eq (d : List Nat) (i : Nat) : bit_at d i = (d.getD (i / 64) 0).testBit (i % 64) :=
  rfl

theorem bit_at_of_le (d : List Nat) (i : Nat) (h : d.length * 64 ≤ i) : bit_at d i = false := by
  rw [bit_at_eq, getD_of_le _ _ (by omega)]
  simp

/-- Two words below `2 ^ 64` that agree on their low 64 bits are equal. -/
theorem word_ext {a b : Nat} (ha : a < 2 ^ 64) (hb : b < 2 ^ 64)
    (h : ∀ k, k < 64 → a.testBit k = b.testBit k) : a = b := by
  apply Nat.eq_of_testBit_eq
  intro k
  by_cases hk : k < 64
  · exact h k hk
  · rw [testBit_of_lt_word ha (by omega), testBit_of_lt_word hb (by omega)]

/-- Typed word sequences of the same length with the same bits are equal. -/
theorem data_ext (d₁ d₂ : List Nat) (h₁ : ∀ j, d₁.getD j 0 < 2 ^ 64)
    (h₂ : ∀ j, d₂.getD j 0 < 2 ^ 64) (hlen : d₁.length = d₂.length)
    (h : ∀ i, bit_at d₁ i = bit_at d₂ i) : d₁ = d₂ := by
  apply list_ext_getD _ _ hlen
  intro j _
  apply word_ext (h₁ j) (h₂ j)
  intro k hk
  have := h (j * 64 + k)
  rw [bit_at_eq, bit_at_eq] at this
  have e1 : (j * 64 + k) / 64 = j := by omega
  have e2 : (j * 64 + k) % 64 = k := by omega
  rwa [e1, e2] at this

end Macchiato


namespace Macchiato

/-! ## The storage invariants, bit by bit -/

theorem Inv.words {b : Bitset} (h : Inv b) : ∀ j, b.m_data.getD j 0 < 2 ^ 64 :=
  (words_lt_iff _).mp h.typed.1

theorem Inv.bits_lt {b : Bitset} (h : Inv b) : b.m_num_bits < 2 ^ 64 := h.typed.2

theorem Inv.length_eq {b : Bitset} (h : Inv b) : b.m_data.length = (b.m_num_bits + 63) / 64 :=
  h.count

/-- Under the invariants every bit at a position `>= num_bits` reads zero. -/
theorem Inv.bit_zero {b : Bitset} (h : Inv b) (i : Nat) (hi : b.m_num_bits ≤ i) :
    bit_at b.m_data i = false := by
  have hlen := h.length_eq
  by_cases hl : b.m_data.length * 64 ≤ i
  · exact bit_at_of_le _ _ hl
  · have hmod : b.m_num_bits % 64 ≠ 0 := by omega
    have hidx : i / 64 = b.m_data.length - 1 := by omega
    rw [bit_at_eq, hidx]
    exact h.tail hmod (i % 64) (Nat.mod_lt _ (by decide)) (by
      show b.m_num_bits % 64 ≤ i % 64
      omega)

/-- The invariants follow from their bit-level form. -/
theorem inv_of_bits (d : List Nat) (n : Nat) (hw : ∀ j, d.getD j 0 < 2 ^ 64)
    (hn : n < 2 ^ 64) (hlen : d.length = (n + 63) / 64)
    (hz : ∀ i, n ≤ i → bit_at d i = false) : Inv ⟨d, n⟩ := by
  refine ⟨⟨(words_lt_iff _).mpr hw, hn⟩, hlen, ?_⟩
  intro hmod k hk hle
  have hmod' : n % 64 ≠ 0 := hmod
  have hk' : k < 64 := hk
  have hle' : n % 64 ≤ k := hle
  have := hz ((d.length - 1) * 64 + k) (by omega)
  rw [bit_at_eq] at this
  have e1 : ((d.length - 1) * 64 + k) / 64 = d.length - 1 := by omega
  have e2 : ((d.length - 1) * 64 + k) % 64 = k := by omega
  rw [e1, e2] at this
  exact this

/-! ## `zero_unused_bits_in_msw` -/

theorem is_empty_iff (b : Bitset) : b.is_empty = true ↔ b.m_num_bits = 0 := by
  unfold Bitset.is_empty Bitset.num_bits
  simp

theorem zu_num_bits (b : Bitset) : b.zero_unused_bits_in_msw.m_num_bits = b.m_num_bits := by
  unfold Bitset.zero_unused_bits_in_msw
  split <;> rfl

theorem zu_length (b : Bitset) : b.zero_unused_bits_in_msw.m_data.length = b.m_data.length := by
  unfold Bitset.zero_unused_bits_in_msw
  split
  · rfl
  · dsimp only
    exact length_modify_back _ _

theorem zu_getD (b : Bitset) (j : Nat) :
    b.zero_unused_bits_in_msw.m_data.getD j 0 =
      if b.m_num_bits ≠ 0 ∧ j + 1 = b.m_data.length then
        b.m_data.getD j 0 &&& b.generate_used_bits_in_msw_mask
      else b.m_data.getD j 0 := by
  unfold Bitset.zero_unused_bits_in_msw
  by_cases h : b.m_num_bits = 0
  · rw [if_pos ((is_empty_iff b).mpr h), if_neg (fun e => e.1 h)]
  · have he : ¬ (b.is_empty = true) := fun e => h ((is_empty_iff b).mp e)
    rw [if_neg he]
    dsimp only
    rw [getD_modify_back]
    by_cases h2 : j + 1 = b.m_data.length
    · rw [if_pos h2, if_pos ⟨h, h2⟩]
    · rw [if_neg h2, if_neg (fun e => h2 e.2)]

theorem zu_words (b : Bitset) (hw : ∀ j, b.m_data.getD j 0 < 2 ^ 64) (j : Nat) :
    b.zero_unused_bits_in_msw.m_data.getD j 0 < 2 ^ 64 := by
  rw [zu_getD]
  split
  · exact Nat.and_lt_two_pow _ (used_mask_lt b)
  · exact hw j

theorem zu_bit (b : Bitset) (hlen : b.m_data.length = (b.m_num_bits + 63) / 64) (i : Nat) :
    bit_at b.zero_unused_bits_in_msw.m_data i =
      (bit_at b.m_data i && decide (i < b.m_num_bits)) := by
  rw [bit_at_eq, bit_at_eq, zu_getD]
  have hm : i % 64 < 64 := Nat.mod_lt _ (by decide)
  by_cases hi : i < b.m_num_bits
  · split
    · rename_i h
      rw [Nat.testBit_and, testBit_used_mask]
      have : b.m_num_bits % 64 = 0 ∨ i % 64 < b.m_num_bits % 64 := by omega
      rcases this with h0 | h1
      · simp [hm, h0, hi]
      · simp [hm, h1, hi]
    · simp [hi]
  · by_cases hl : b.m_data.length * 64 ≤ i
    · have h1 : b.m_data.getD (i / 64) 0 = 0 := getD_of_le _ _ (by omega)
      rw [h1]
      split <;> simp [hi]
    · have h2 : b.m_num_bits ≠ 0 ∧ i / 64 + 1 = b.m_data.length := by omega
      rw [if_pos h2, Nat.testBit_and, testBit_used_mask]
      have h3 : ¬ b.m_num_bits % 64 = 0 := by omega
      have h4 : ¬ i % 64 < b.m_num_bits % 64 := by omega
      simp [h3, h4, hi]

theorem inv_zero_unused (d : List Nat) (n : Nat) (hw : ∀ j, d.getD j 0 < 2 ^ 64)
    (hn : n < 2 ^ 64) (hlen : d.length = (n + 63) / 64) :
    Inv (Bitset.zero_unused_bits_in_msw ⟨d, n⟩) := by
  have e : Bitset.zero_unused_bits_in_msw ⟨d, n⟩ =
      ⟨(Bitset.zero_unused_bits_in_msw ⟨d, n⟩).m_data, n⟩ := by
    have := zu_num_bits ⟨d, n⟩
    cases h : Bitset.zero_unused_bits_in_msw ⟨d, n⟩
    rw [h] at this
    simp only at this
    simp [this]
  rw [e]
  apply inv_of_bits
  · exact zu_words ⟨d, n⟩ hw
  · exact hn
  · rw [zu_length]; exact hlen
  · intro i hi
    rw [zu_bit ⟨d, n⟩ hlen]
    have : ¬ i < n := by omega
    simp [this]

/-- On a bitset that satisfies the invariants, masking the unused bits changes nothing. -/
theorem zu_of_inv (b : Bitset) (h : Inv b) : b.zero_unused_bits_in_msw = b := by
  have hn := zu_num_bits b
  have hd : b.zero_unused_bits_in_msw.m_data = b.m_data := by
    apply data_ext
    · exact zu_words b h.words
    · exact h.words
    · exact zu_length b
    · intro i
      rw [zu_bit b h.length_eq]
      by_cases hi : i < b.m_num_bits
      · simp [hi]
      · simp [hi, h.bit_zero i (by omega)]
  cases hb : b.zero_unused_bits_in_msw
  rw [hb] at hn hd
  cases b
  simp only at hn hd
  simp [hn, hd]

end Macchiato


namespace Macchiato

/-! ## Construction and growth preserve the invariants -/

theorem inv_empty : Inv Bitset.empty := by decide

theorem inv_nil_zero : Inv ⟨[], 0⟩ := inv_empty

theorem getD_nil (j : Nat) : ([] : List Nat).getD j 0 = 0 := rfl

theorem inv_sized (n v : Nat) (hn : n < 2 ^ 64) (hv : v < 2 ^ 64) : Inv (Bitset.sized n v) := by
  unfold Bitset.sized Bitset.init
  simp only [calc_num_words_needed_eq]
  split
  · rename_i h
    apply inv_of_bits
    · intro j; rw [getD_nil]; decide
    · exact hn
    · simp only [List.length_nil]; omega
    · intro i _; exact bit_at_of_le _ _ (by simp)
  · apply inv_zero_unused
    · intro j
      rw [getD_set_eq]
      split
      · exact hv
      · rw [getD_vec_resize]
        split
        · split
          · rw [getD_nil]; decide
          · decide
        · decide
    · exact hn
    · rw [List.length_set, length_vec_resize]

theorem inv_clear (b : Bitset) : Inv b.clear := inv_empty

theorem resize_inv (b : Bitset) (h : Inv b) (n : Nat) (hn : n < 2 ^ 64) (v : Bool) :
    ∃ b', b.resize n v = .returned b' ∧ Inv b' := by
  have hlen := h.length_eq
  have hnb := h.bits_lt
  unfold Bitset.resize
  simp only [calc_num_words_needed_eq, Bitset.num_words, msw_bit_alignment_eq]
  have hfill : (if v = true then ONES else ZEROS) < 2 ^ 64 := by
    split
    · exact ones_lt
    · decide
  have key : ∀ d₁ : List Nat,
      d₁ = (if (n + 63) / 64 ≠ b.m_data.length then
            vec_resize b.m_data ((n + 63) / 64) (if v = true then ONES else ZEROS)
          else b.m_data) →
      (∀ j, d₁.getD j 0 < 2 ^ 64) ∧ d₁.length = (n + 63) / 64 := by
    intro d₁ hd
    subst hd
    split
    · refine ⟨?_, length_vec_resize _ _ _⟩
      intro j
      rw [getD_vec_resize]
      split
      · split
        · exact h.words j
        · exact hfill
      · decide
    · rename_i hne
      refine ⟨h.words, ?_⟩
      exact (not_not.mp hne).symm
  generalize hd : (if (n + 63) / 64 ≠ b.m_data.length then
            vec_resize b.m_data ((n + 63) / 64) (if v = true then ONES else ZEROS)
          else b.m_data) = d₁
  obtain ⟨hw₁, hl₁⟩ := key d₁ hd.symm
  split
  · rename_i hc
    split
    · rename_i hal
      have hidx : (b.m_data.length + SIZE_MOD - 1) % SIZE_MOD = b.m_data.length - 1 := by
        rw [size_mod_eq]
        have : 0 < b.m_data.length := by omega
        omega
      rw [hidx]
      have hge : b.m_num_bits ≤ n := by
        simp only [Bool.and_eq_true, decide_eq_true_eq] at hc
        exact hc.2
      have hlt : b.m_data.length - 1 < d₁.length := by omega
      rw [if_pos hlt]
      refine ⟨_, rfl, ?_⟩
      apply inv_zero_unused _ _ _ hn
      · rw [List.length_set]; exact hl₁
      · intro j
        rw [getD_set_eq]
        split
        · exact Nat.or_lt_two_pow (hw₁ _) (shl_lt _ _)
        · exact hw₁ j
    · exact ⟨_, rfl, inv_zero_unused _ _ hw₁ hn hl₁⟩
  · exact ⟨_, rfl, inv_zero_unused _ _ hw₁ hn hl₁⟩

theorem push_msb_inv (b : Bitset) (h : Inv b) (v : Bool) :
    ∃ b', b.push_msb v = .returned b' ∧ Inv b' := by
  unfold Bitset.push_msb
  exact resize_inv b h _ (by rw [size_mod_eq]; exact Nat.mod_lt _ (by decide)) v

theorem pop_msb_inv (b : Bitset) (h : Inv b) (hpos : 0 < b.m_num_bits) : Inv b.pop_msb := by
  have hlen := h.length_eq
  have hnb := h.bits_lt
  unfold Bitset.pop_msb
  simp only [calc_num_words_needed_eq, Bitset.num_words]
  have hdec : (b.m_num_bits + SIZE_MOD - 1) % SIZE_MOD = b.m_num_bits - 1 := by
    rw [size_mod_eq]; omega
  rw [hdec]
  split
  · rename_i hlt
    apply inv_of_bits
    · intro j
      rw [getD_dropLast]
      split
      · exact h.words j
      · decide
    · omega
    · rw [List.length_dropLast]; omega
    · intro i hi
      rw [bit_at_eq, getD_dropLast]
      split
      · rename_i h2
        exact absurd h2 (by omega)
      · simp
  · rename_i hge
    apply inv_zero_unused _ _ h.words (by omega)
    omega

/-- The bits of a bitset after `extend_msb_with_word`. -/
theorem extend_bit (b : Bitset) (h : Inv b) (w : Nat) (hw : w < 2 ^ 64) (i : Nat) :
    bit_at (b.extend_msb_with_word w).m_data i =
      if i < b.m_num_bits then bit_at b.m_data i
      else (decide (i < b.m_num_bits + 64) && w.testBit (i - b.m_num_bits)) := by
  have hlen := h.length_eq
  unfold Bitset.extend_msb_with_word
  simp only [msw_bit_alignment_eq, bits_per_word_eq]
  have hm : i % 64 < 64 := Nat.mod_lt _ (by decide)
  by_cases hal : b.m_num_bits % 64 = 0
  · rw [if_pos hal, bit_at_eq, getD_append_single]
    by_cases h1 : i / 64 < b.m_data.length
    · have hi : i < b.m_num_bits := by omega
      rw [if_pos h1, if_pos hi, bit_at_eq]
    · have hi : ¬ i < b.m_num_bits := by omega
      rw [if_neg h1, if_neg hi]
      by_cases h2 : i / 64 = b.m_data.length
      · rw [if_pos h2]
        have e : i - b.m_num_bits = i % 64 := by omega
        have e2 : i < b.m_num_bits + 64 := by omega
        simp [e, e2]
      · rw [if_neg h2]
        have e2 : ¬ i < b.m_num_bits + 64 := by omega
        simp [e2]
  · rw [if_neg hal, bit_at_eq, getD_append_single, length_modify_back, getD_modify_back]
    have hzero := h.bit_zero
    by_cases h1 : i / 64 < b.m_data.length
    · rw [if_pos h1]
      by_cases h2 : i / 64 + 1 = b.m_data.length
      · rw [if_pos h2, Nat.testBit_or, testBit_shl]
        by_cases hi : i < b.m_num_bits
        · rw [if_pos hi, bit_at_eq]
          have : ¬ b.m_num_bits % 64 ≤ i % 64 := by omega
          simp [this]
        · rw [if_neg hi]
          have hz := hzero i (by omega)
          rw [bit_at_eq] at hz
          rw [hz]
          have e1 : b.m_num_bits % 64 ≤ i % 64 := by omega
          have e2 : i % 64 - b.m_num_bits % 64 = i - b.m_num_bits := by omega
          have e3 : i < b.m_num_bits + 64 := by omega
          simp [hm, e1, e2, e3]
      · have hi : i < b.m_num_bits := by omega
        rw [if_neg h2, if_pos hi, bit_at_eq]
    · have hi : ¬ i < b.m_num_bits := by omega
      rw [if_neg h1, if_neg hi]
      by_cases h2 : i / 64 = b.m_data.length
      · rw [if_pos h2, testBit_shr]
        by_cases hi : i < b.m_num_bits + 64
        · have e : 64 - b.m_num_bits % 64 + i % 64 = i - b.m_num_bits := by omega
          simp [hi, e]
        · have e : 64 ≤ 64 - b.m_num_bits % 64 + i % 64 := by omega
          simp [hi, testBit_of_lt_word hw e]
      · rw [if_neg h2]
        have e2 : ¬ i < b.m_num_bits + 64 := by omega
        simp [e2]

theorem extend_length (b : Bitset) (w : Nat) :
    (b.extend_msb_with_word w).m_data.length = b.m_data.length + 1 := by
  unfold Bitset.extend_msb_with_word
  dsimp only
  split
  · simp
  · simp [length_modify_back]

theorem extend_num_bits (b : Bitset) (w : Nat) :
    (b.extend_msb_with_word w).m_num_bits = (b.m_num_bits + 64) % 2 ^ 64 := rfl

theorem extend_words (b : Bitset) (h : Inv b) (w : Nat) (hw : w < 2 ^ 64) (j : Nat) :
    (b.extend_msb_with_word w).m_data.getD j 0 < 2 ^ 64 := by
  unfold Bitset.extend_msb_with_word
  dsimp only
  split
  · rw [getD_append_single]
    split
    · exact h.words j
    · split
      · exact hw
      · decide
  · rw [getD_append_single, getD_modify_back]
    split
    · split
      · exact Nat.or_lt_two_pow (h.words j) (shl_lt _ _)
      · exact h.words j
    · split
      · exact shr_lt _ _ hw
      · decide

theorem extend_inv (b : Bitset) (h : Inv b) (w : Nat) (hw : w < 2 ^ 64)
    (hfit : b.m_num_bits + 64 < 2 ^ 64) : Inv (b.extend_msb_with_word w) := by
  have e : b.extend_msb_with_word w =
      ⟨(b.extend_msb_with_word w).m_data, b.m_num_bits + 64⟩ := by
    have := extend_num_bits b w
    rw [Nat.mod_eq_of_lt hfit] at this
    cases hb : b.extend_msb_with_word w
    rw [hb] at this
    simp only at this
    simp [this]
  rw [e]
  apply inv_of_bits
  · exact extend_words b h w hw
  · exact hfit
  · rw [extend_length, h.length_eq]; omega
  · intro i hi
    rw [extend_bit b h w hw, if_neg (by omega)]
    have : ¬ i < b.m_num_bits + 64 := by omega
    simp [this]

/-! ## Whole-bitset mutators preserve the invariants -/

theorem set_inv (b : Bitset) (h : Inv b) : Inv b.set := by
  unfold Bitset.set
  apply inv_zero_unused _ _ _ h.bits_lt
  · rw [List.length_map]; exact h.length_eq
  · intro j
    rw [getD_map_word]
    split
    · exact ones_lt
    · decide

theorem reset_inv (b : Bitset) (h : Inv b) : Inv b.reset := by
  unfold Bitset.reset
  apply inv_of_bits _ _ _ h.bits_lt
  · rw [List.length_map]; exact h.length_eq
  · intro i _
    rw [bit_at_eq, getD_map_word]
    split <;> simp [ZEROS]
  · intro j
    rw [getD_map_word]
    split <;> decide

theorem inplace_not_inv (b : Bitset) (h : Inv b) : Inv b.inplace_not := by
  unfold Bitset.inplace_not
  apply inv_zero_unused _ _ _ h.bits_lt
  · rw [List.length_map]; exact h.length_eq
  · intro j
    rw [getD_map_word]
    split
    · exact wnot_lt _ (h.words j)
    · decide

theorem flip_inv (b : Bitset) (h : Inv b) : Inv b.flip := inplace_not_inv b h

end Macchiato


namespace Macchiato

/-! ## Single-bit mutators -/

/-- Rewriting one bit position of one word rewrites one bit of the sequence. -/
theorem bit_at_assign_one (g : Nat → Nat) (F : Bool → Bool) (n : Nat) (d : List Nat)
    (hn : n / 64 < d.length)
    (hg : ∀ w k, k < 64 → (g w).testBit k = if k = n % 64 then F (w.testBit k) else w.testBit k)
    (i : Nat) :
    bit_at (assign_word (fun _ w => g w) (Bitset.word_index n) d) i =
      if i = n then F (bit_at d i) else bit_at d i := by
  rw [bit_at_eq, bit_at_eq, getD_assign_word, word_index_eq]
  have hm : i % 64 < 64 := Nat.mod_lt _ (by decide)
  by_cases h1 : i / 64 = n / 64
  · have h2 : i / 64 = n / 64 ∧ i / 64 < d.length := ⟨h1, by omega⟩
    rw [if_pos h2, hg _ _ hm]
    by_cases h3 : i = n
    · subst h3; rw [if_pos rfl, if_pos rfl]
    · have h4 : ¬ i % 64 = n % 64 := by omega
      rw [if_neg h4, if_neg h3]
  · have h2 : ¬ (i / 64 = n / 64 ∧ i / 64 < d.length) := fun e => h1 e.1
    have h3 : ¬ i = n := fun e => h1 (by rw [e])
    rw [if_neg h2, if_neg h3]

theorem set_bit_word (n w k : Nat) (_hk : k < 64) :
    (w ||| Bitset.one_hot_mask (Bitset.bit_offset n)).testBit k =
      if k = n % 64 then (fun _ => true) (w.testBit k) else w.testBit k := by
  rw [Nat.testBit_or, testBit_one_hot_mask]
  split <;> simp [*]

theorem reset_bit_word (n w k : Nat) (hk : k < 64) :
    (w &&& wnot (Bitset.one_hot_mask (Bitset.bit_offset n))).testBit k =
      if k = n % 64 then (fun _ => false) (w.testBit k) else w.testBit k := by
  rw [Nat.testBit_and, testBit_wnot _ _ (one_hot_mask_lt _), testBit_one_hot_mask]
  split <;> simp [*]

theorem flip_bit_word (n w k : Nat) (_hk : k < 64) :
    (w ^^^ Bitset.one_hot_mask (Bitset.bit_offset n)).testBit k =
      if k = n % 64 then (fun x => !x) (w.testBit k) else w.testBit k := by
  rw [Nat.testBit_xor, testBit_one_hot_mask]
  split <;> simp [*]

/-- Rewriting a word of a typed sequence by a typed word keeps the sequence typed. -/
theorem words_assign (g : Nat → Nat → Nat) (i : Nat) (d : List Nat)
    (hd : ∀ j, d.getD j 0 < 2 ^ 64) (hg : ∀ k w, w < 2 ^ 64 → g k w < 2 ^ 64) (j : Nat) :
    (assign_word g i d).getD j 0 < 2 ^ 64 := by
  rw [getD_assign_word]
  split
  · exact hg _ _ (hd j)
  · exact hd j

theorem words_for_range_assign (g : Nat → Nat → Nat) (c i : Nat) (d : List Nat)
    (hd : ∀ j, d.getD j 0 < 2 ^ 64) (hg : ∀ k w, w < 2 ^ 64 → g k w < 2 ^ 64) (j : Nat) :
    (for_range (assign_word g) c i d).getD j 0 < 2 ^ 64 := by
  rw [getD_for_range_assign]
  split
  · exact hg _ _ (hd j)
  · exact hd j

/-- Common shape of the single-bit mutators on an index in range. -/
theorem inv_assign_one (b : Bitset) (h : Inv b) (g : Nat → Nat) (F : Bool → Bool) (n : Nat)
    (hn : n < b.m_num_bits) (hlt : ∀ w, w < 2 ^ 64 → g w < 2 ^ 64)
    (hg : ∀ w k, k < 64 → (g w).testBit k = if k = n % 64 then F (w.testBit k) else w.testBit k) :
    Inv ⟨assign_word (fun _ w => g w) (Bitset.word_index n) b.m_data, b.m_num_bits⟩ := by
  have hlen := h.length_eq
  apply inv_of_bits _ _ _ h.bits_lt
  · rw [length_assign_word]; exact hlen
  · intro i hi
    rw [bit_at_assign_one g F n _ (by omega) hg, if_neg (by omega)]
    exact h.bit_zero i hi
  · exact words_assign _ _ _ h.words (fun _ w hw => hlt w hw)

theorem set_bit_inv (b : Bitset) (h : Inv b) (n : Nat) : Inv (b.set_bit n).state := by
  unfold Bitset.set_bit
  split
  · exact h
  · rename_i hn
    exact inv_assign_one b h _ (fun _ => true) n (by omega)
      (fun w hw => Nat.or_lt_two_pow hw (one_hot_mask_lt _)) (set_bit_word n)

theorem reset_bit_inv (b : Bitset) (h : Inv b) (n : Nat) : Inv (b.reset_bit n).state := by
  unfold Bitset.reset_bit
  split
  · exact h
  · rename_i hn
    exact inv_assign_one b h _ (fun _ => false) n (by omega)
      (fun w _ => Nat.and_lt_two_pow _ (wnot_lt _ (one_hot_mask_lt _))) (reset_bit_word n)

theorem flip_bit_inv (b : Bitset) (h : Inv b) (n : Nat) : Inv (b.flip_bit n).state := by
  unfold Bitset.flip_bit
  split
  · exact h
  · rename_i hn
    exact inv_assign_one b h _ (fun x => !x) n (by omega)
      (fun w hw => Nat.xor_lt_two_pow hw (one_hot_mask_lt _)) (flip_bit_word n)

/-! ## Boolean combination -/

theorem apply_boolean_op_inv (mode : MixedWidthMode) (b other : Bitset) (h : Inv b)
    (ho : Inv other) (op : Nat → Nat → Nat)
    (hop : ∀ x y, x < 2 ^ 64 → y < 2 ^ 64 → op x y < 2 ^ 64) :
    Inv (Bitset.apply_boolean_op mode b other op).state := by
  have hlen := h.length_eq
  have holen := ho.length_eq
  have hz : ZEROS < 2 ^ 64 := by decide
  cases mode with
  | UNSIGNED_PROMOTION =>
    unfold Bitset.apply_boolean_op
    simp only [Bitset.num_words, Outcome.state]
    have hw₁ : ∀ j, (for_range (assign_word (fun i w => op w (other.m_data.getD i 0)))
        (min b.m_data.length other.m_data.length) 0 b.m_data).getD j 0 < 2 ^ 64 :=
      words_for_range_assign _ _ _ _ h.words (fun k w hw => hop _ _ hw (ho.words k))
    have hl₁ := length_for_range_assign (fun i w => op w (other.m_data.getD i 0))
        (min b.m_data.length other.m_data.length) 0 b.m_data
    apply inv_zero_unused
    · intro j
      split
      · exact words_for_range_assign _ _ _ _ hw₁ (fun _ w hw => hop _ _ hw hz) j
      · split
        · rw [getD_for_range_push (fun i => op (other.m_data.getD i 0) ZEROS)]
          split
          · exact hw₁ j
          · split
            · exact hop _ _ (ho.words _) hz
            · decide
        · exact hw₁ j
    · have := h.bits_lt
      have := ho.bits_lt
      omega
    · split
      · rw [length_for_range_assign, hl₁]; omega
      · split
        · rw [length_for_range_push (fun i => op (other.m_data.getD i 0) ZEROS), hl₁]
          omega
        · rw [hl₁]; omega
  | SAME_SIZE_ONLY =>
    unfold Bitset.apply_boolean_op
    simp only [Bitset.num_words, Bitset.num_bits]
    split
    · exact h
    · simp only [Outcome.state]
      apply inv_zero_unused _ _ _ h.bits_lt
      · rw [length_for_range_assign]; exact hlen
      · exact words_for_range_assign _ _ _ _ h.words (fun k w hw => hop _ _ hw (ho.words k))

theorem and_word_lt (x y : Nat) (hx : x < 2 ^ 64) (_hy : y < 2 ^ 64) : x &&& y < 2 ^ 64 :=
  lt_of_le_of_lt Nat.and_le_left hx

theorem and_assign_inv (mode : MixedWidthMode) (b other : Bitset) (h : Inv b) (ho : Inv other) :
    Inv (b.and_assign mode other).state :=
  apply_boolean_op_inv mode b other h ho _ and_word_lt

theorem or_assign_inv (mode : MixedWidthMode) (b other : Bitset) (h : Inv b) (ho : Inv other) :
    Inv (b.or_assign mode other).state :=
  apply_boolean_op_inv mode b other h ho _ (fun _ _ hx hy => Nat.or_lt_two_pow hx hy)

theorem xor_assign_inv (mode : MixedWidthMode) (b other : Bitset) (h : Inv b) (ho : Inv other) :
    Inv (b.xor_assign mode other).state :=
  apply_boolean_op_inv mode b other h ho _ (fun _ _ hx hy => Nat.xor_lt_two_pow hx hy)

theorem nand_inv (mode : MixedWidthMode) (b other : Bitset) (h : Inv b) (ho : Inv other) :
    Inv (b.nand mode other).state :=
  apply_boolean_op_inv mode b other h ho _
    (fun x y hx hy => wnot_lt _ (and_word_lt x y hx hy))

theorem nor_inv (mode : MixedWidthMode) (b other : Bitset) (h : Inv b) (ho : Inv other) :
    Inv (b.nor mode other).state :=
  apply_boolean_op_inv mode b other h ho _
    (fun _ _ hx hy => wnot_lt _ (Nat.or_lt_two_pow hx hy))

theorem xnor_inv (mode : MixedWidthMode) (b other : Bitset) (h : Inv b) (ho : Inv other) :
    Inv (b.xnor mode other).state :=
  apply_boolean_op_inv mode b other h ho _
    (fun _ _ hx hy => wnot_lt _ (Nat.xor_lt_two_pow hx hy))

theorem inplace_set_difference_inv (b other : Bitset) (h : Inv b) :
    Inv (b.inplace_set_difference other) := by
  unfold Bitset.inplace_set_difference
  apply inv_of_bits _ _ _ h.bits_lt
  · rw [length_for_range_assign]; exact h.length_eq
  · intro i hi
    have hz := h.bit_zero i hi
    rw [bit_at_eq] at hz
    rw [bit_at_eq, getD_for_range_assign]
    split
    · rw [Nat.testBit_and, hz]; rfl
    · exact hz
  · exact words_for_range_assign _ _ _ _ h.words
      (fun _ w hw => lt_of_le_of_lt Nat.and_le_left hw)

/-! ## `operator~` -/

/-- Extending a word-aligned bitset word by word appends the words. -/
theorem foldl_extend_aligned (f : Nat → Nat) (l acc : List Nat)
    (hfit : (acc.length + l.length) * 64 < 2 ^ 64) :
    l.foldl (fun (negated : Bitset) word => negated.extend_msb_with_word (f word))
        (⟨acc, acc.length * 64⟩ : Bitset) =
      (⟨acc ++ l.map f, (acc.length + l.length) * 64⟩ : Bitset) := by
  induction l generalizing acc with
  | nil => simp
  | cons w ws ih =>
    rw [List.foldl_cons]
    have hl : (w :: ws).length = ws.length + 1 := rfl
    rw [hl] at hfit
    have hl2 : (acc ++ [f w]).length = acc.length + 1 := by simp
    have hstep : (⟨acc, acc.length * 64⟩ : Bitset).extend_msb_with_word (f w) =
        (⟨acc ++ [f w], (acc ++ [f w]).length * 64⟩ : Bitset) := by
      unfold Bitset.extend_msb_with_word
      simp only [msw_bit_alignment_eq, bits_per_word_eq, size_mod_eq]
      have h0 : acc.length * 64 % 64 = 0 := by omega
      rw [if_pos h0, hl2]
      have : (acc.length * 64 + 64) % 2 ^ 64 = (acc.length + 1) * 64 := by omega
      rw [this]
    rw [hstep, ih _ (by rw [hl2]; omega), hl2, hl]
    have e1 : acc ++ [f w] ++ List.map f ws = acc ++ List.map f (w :: ws) := by simp
    have e2 : (acc.length + 1 + ws.length) * 64 = (acc.length + (ws.length + 1)) * 64 := by
      omega
    rw [e1, e2]

/-- The result of `operator~`: the complemented words, at a word-aligned length. -/
theorem complement_eq (b : Bitset) (h : Inv b) (hfit : fits b) :
    b.complement = ⟨b.m_data.map wnot, b.m_data.length * 64⟩ := by
  unfold Bitset.complement
  have hfit' : b.m_data.length * 64 < 2 ^ 64 := hfit
  have e := foldl_extend_aligned wnot b.m_data [] (by simpa using hfit')
  simp only [List.length_nil, Nat.zero_mul, Nat.zero_add, List.nil_append] at e
  have e' : Bitset.empty = ⟨[], 0⟩ := rfl
  rw [e', e]
  apply zu_of_inv
  apply inv_of_bits
  · intro j
    rw [getD_map_word]
    split
    · exact wnot_lt _ (h.words j)
    · decide
  · exact hfit'
  · rw [List.length_map]; omega
  · intro i hi
    exact bit_at_of_le _ _ (by rw [List.length_map]; exact hi)

theorem complement_inv (b : Bitset) (h : Inv b) (hfit : fits b) : Inv b.complement := by
  rw [complement_eq b h hfit]
  apply inv_of_bits
  · intro j
    rw [getD_map_word]
    split
    · exact wnot_lt _ (h.words j)
    · decide
  · exact hfit
  · rw [List.length_map]; omega
  · intro i hi
    exact bit_at_of_le _ _ (by rw [List.length_map]; exact hi)

end Macchiato


namespace Macchiato

/-! ## `modify_range` -/

set_option maxHeartbeats 1000000 in
/-- The effect of `modify_range` on a call that passes the bounds check with a
non-zero length whose `start + len` does not wrap: the bits of the clamped
range are rewritten by `F`, every other bit is kept. -/
theorem modify_range_spec (b : Bitset) (h : Inv b) (full : Nat → Nat)
    (part_op : Nat → Nat → Nat → Nat) (F : Bool → Bool)
    (hfull_lt : ∀ w, w < 2 ^ 64 → full w < 2 ^ 64)
    (hpart_lt : ∀ w s e, w < 2 ^ 64 → part_op w s e < 2 ^ 64)
    (hfull : ∀ w k, k < 64 → (full w).testBit k = F (w.testBit k))
    (hpart : ∀ w s e k, e < 64 → k < 64 →
      (part_op w s e).testBit k = if s ≤ k ∧ k ≤ e then F (w.testBit k) else w.testBit k)
    (start len : Nat) (hs : start < b.m_num_bits) (hl : 0 < len) (hwrap : start + len < 2 ^ 64) :
    ∃ d, b.modify_range start len full part_op = .returned ⟨d, b.m_num_bits⟩ ∧
      d.length = b.m_data.length ∧ (∀ j, d.getD j 0 < 2 ^ 64) ∧
      ∀ i, bit_at d i =
        if start ≤ i ∧ i < min (start + len) b.m_num_bits then F (bit_at b.m_data i)
        else bit_at b.m_data i := by
  have hlen := h.length_eq
  have hnb := h.bits_lt
  have hw := h.words
  unfold Bitset.modify_range
  rw [if_neg (by omega : ¬ start ≥ b.m_num_bits), if_neg (by omega : ¬ len = 0)]
  simp only [word_index_eq, bit_offset_eq, size_mod_eq, msb_pos_eq]
  have hstop : (min b.m_num_bits ((start + len) % 2 ^ 64) + 2 ^ 64 - 1) % 2 ^ 64 =
      min (start + len) b.m_num_bits - 1 := by
    rw [Nat.mod_eq_of_lt hwrap, Nat.min_comm]
    have : 0 < min (start + len) b.m_num_bits := by omega
    omega
  rw [hstop]
  have hrange : ∀ i, (start ≤ i ∧ i < min (start + len) b.m_num_bits) ↔
      (start ≤ i ∧ i ≤ min (start + len) b.m_num_bits - 1) := by
    intro i; omega
  simp only [hrange]
  have h1 : start ≤ min (start + len) b.m_num_bits - 1 := by omega
  have h2 : min (start + len) b.m_num_bits - 1 < b.m_num_bits := by omega
  generalize min (start + len) b.m_num_bits - 1 = stop at h1 h2 ⊢
  have hso : start % 64 < 64 := Nat.mod_lt _ (by decide)
  have heo : stop % 64 < 64 := Nat.mod_lt _ (by decide)
  by_cases hsame : start / 64 = stop / 64
  · rw [if_pos hsame]
    refine ⟨_, rfl, length_assign_word _ _ _,
      words_assign _ _ _ hw (fun _ w hw' => hpart_lt w _ _ hw'), ?_⟩
    intro i
    have hm : i % 64 < 64 := Nat.mod_lt _ (by decide)
    rw [bit_at_eq, bit_at_eq, getD_assign_word]
    by_cases c1 : i / 64 = start / 64 ∧ i / 64 < b.m_data.length
    · rw [if_pos c1, hpart _ _ _ _ heo hm]
      by_cases c2 : start % 64 ≤ i % 64 ∧ i % 64 ≤ stop % 64
      · rw [if_pos c2, if_pos (by omega)]
      · rw [if_neg c2, if_neg (by omega)]
    · rw [if_neg c1, if_neg (by omega)]
  · rw [if_neg hsame]
    have hlt : start / 64 < stop / 64 := by omega
    have m1 : start / 64 % 2 ^ 64 = start / 64 := by omega
    have m2 : (start / 64 + 1) % 2 ^ 64 = start / 64 + 1 := by omega
    have m3 : (stop / 64 + 2 ^ 64) % 2 ^ 64 = stop / 64 := by omega
    have m4 : (stop / 64 + 2 ^ 64 - 1) % 2 ^ 64 = stop / 64 - 1 := by omega
    have hp63 : ∀ w s k, k < 64 → (part_op w s 63).testBit k =
        if s ≤ k ∧ k ≤ 63 then F (w.testBit k) else w.testBit k :=
      fun w s k hk => hpart w s 63 k (by decide) hk
    have hpe : ∀ w s k, k < 64 → (part_op w s (stop % 64)).testBit k =
        if s ≤ k ∧ k ≤ stop % 64 then F (w.testBit k) else w.testBit k :=
      fun w s k hk => hpart w s (stop % 64) k heo hk
    have hfw : ∀ k w, w < 2 ^ 64 → (fun (_ : Nat) w => full w) k w < 2 ^ 64 :=
      fun _ w hw' => hfull_lt w hw'
    by_cases s0 : start % 64 = 0 <;> by_cases e63 : stop % 64 = 63
    · simp only [s0, e63, if_true, if_false, ne_eq, not_true_eq_false, not_false_eq_true,
        one_ne_zero, Nat.add_zero, Nat.sub_zero, m1, m2, m3, m4]
      refine ⟨_, rfl, length_for_range_assign _ _ _ _,
        words_for_range_assign _ _ _ _ hw hfw, ?_⟩
      intro i
      have hm : i % 64 < 64 := Nat.mod_lt _ (by decide)
      simp only [bit_at_eq, getD_for_range_assign, getD_assign_word, length_assign_word]
      split_ifs <;> (try simp only [hfull _ _ hm, hp63 _ _ _ hm, hpe _ _ _ hm]) <;>
        first | rfl | omega
    · simp only [s0, e63, if_true, if_false, ne_eq, not_true_eq_false, not_false_eq_true,
        one_ne_zero, Nat.add_zero, Nat.sub_zero, m1, m2, m3, m4]
      refine ⟨_, rfl, ?_, words_for_range_assign _ _ _ _
        (words_assign _ _ _ hw (fun _ w hw' => hpart_lt w _ _ hw')) hfw, ?_⟩
      · rw [length_for_range_assign, length_assign_word]
      intro i
      have hm : i % 64 < 64 := Nat.mod_lt _ (by decide)
      simp only [bit_at_eq, getD_for_range_assign, getD_assign_word, length_assign_word]
      split_ifs <;> (try simp only [hfull _ _ hm, hp63 _ _ _ hm, hpe _ _ _ hm]) <;>
        first | rfl | omega | (split_ifs <;> first | rfl | omega)
    · simp only [s0, e63, if_true, if_false, ne_eq, not_true_eq_false, not_false_eq_true,
        one_ne_zero, Nat.add_zero, Nat.sub_zero, m1, m2, m3, m4]
      refine ⟨_, rfl, ?_, words_for_range_assign _ _ _ _
        (words_assign _ _ _ hw (fun _ w hw' => hpart_lt w _ _ hw')) hfw, ?_⟩
      · rw [length_for_range_assign, length_assign_word]
      intro i
      have hm : i % 64 < 64 := Nat.mod_lt _ (by decide)
      simp only [bit_at_eq, getD_for_range_assign, getD_assign_word, length_assign_word]
      split_ifs <;> (try simp only [hfull _ _ hm, hp63 _ _ _ hm, hpe _ _ _ hm]) <;>
        first | rfl | omega | (split_ifs <;> first | rfl | omega)
    · simp only [s0, e63, if_true, if_false, ne_eq, not_true_eq_false, not_false_eq_true,
        one_ne_zero, Nat.add_zero, Nat.sub_zero, m1, m2, m3, m4]
      refine ⟨_, rfl, ?_, words_for_range_assign _ _ _ _
        (words_assign _ _ _ (words_assign _ _ _ hw (fun _ w hw' => hpart_lt w _ _ hw'))
          (fun _ w hw' => hpart_lt w _ _ hw')) hfw, ?_⟩
      · rw [length_for_range_assign, length_assign_word, length_assign_word]
      intro i
      have hm : i % 64 < 64 := Nat.mod_lt _ (by decide)
      simp only [bit_at_eq, getD_for_range_assign, getD_assign_word, length_assign_word]
      split_ifs <;> (try simp only [hfull _ _ hm, hp63 _ _ _ hm, hpe _ _ _ hm]) <;>
        first | rfl | omega | (split_ifs <;> first | rfl | omega)

/-- A ranged call that passes the bounds check returns with the length unchanged;
with a zero length it returns the receiver as it is. -/
theorem modify_range_zero (b : Bitset) (full : Nat → Nat) (part_op : Nat → Nat → Nat → Nat)
    (start : Nat) (hs : start < b.m_num_bits) :
    b.modify_range start 0 full part_op = .returned b := by
  unfold Bitset.modify_range
  rw [if_neg (by omega : ¬ start ≥ b.m_num_bits), if_pos rfl]

theorem modify_range_oob (b : Bitset) (full : Nat → Nat) (part_op : Nat → Nat → Nat → Nat)
    (start len : Nat) (hs : b.m_num_bits ≤ start) :
    b.modify_range start len full part_op = .threw .out_of_range b := by
  unfold Bitset.modify_range
  rw [if_pos hs]

theorem modify_range_in_bounds (b : Bitset) (full : Nat → Nat)
    (part_op : Nat → Nat → Nat → Nat) (start len : Nat) (hs : start < b.m_num_bits) :
    ∃ d, b.modify_range start len full part_op = .returned ⟨d, b.m_num_bits⟩ := by
  unfold Bitset.modify_range
  rw [if_neg (by omega : ¬ start ≥ b.m_num_bits)]
  dsimp only
  split
  · exact ⟨b.m_data, rfl⟩
  · split
    · exact ⟨_, rfl⟩
    · exact ⟨_, rfl⟩

theorem modify_range_inv (b : Bitset) (h : Inv b) (full : Nat → Nat)
    (part_op : Nat → Nat → Nat → Nat) (F : Bool → Bool)
    (hfull_lt : ∀ w, w < 2 ^ 64 → full w < 2 ^ 64)
    (hpart_lt : ∀ w s e, w < 2 ^ 64 → part_op w s e < 2 ^ 64)
    (hfull : ∀ w k, k < 64 → (full w).testBit k = F (w.testBit k))
    (hpart : ∀ w s e k, e < 64 → k < 64 →
      (part_op w s e).testBit k = if s ≤ k ∧ k ≤ e then F (w.testBit k) else w.testBit k)
    (start len : Nat) (hwrap : start + len < 2 ^ 64) :
    Inv (b.modify_range start len full part_op).state := by
  by_cases hs : start < b.m_num_bits
  · by_cases hl : len = 0
    · subst hl
      rw [modify_range_zero b full part_op start hs]
      exact h
    · obtain ⟨d, hd, hlen, hw, hbit⟩ := modify_range_spec b h full part_op F hfull_lt hpart_lt
        hfull hpart start len hs (by omega) hwrap
      rw [hd]
      apply inv_of_bits _ _ hw h.bits_lt
      · rw [hlen]; exact h.length_eq
      · intro i hi
        rw [hbit, if_neg (by omega)]
        exact h.bit_zero i hi
  · rw [modify_range_oob b full part_op start len (by omega)]
    exact h

/-! ### The three ranged overloads -/

theorem set_full_bit (w k : Nat) (hk : k < 64) :
    ((fun (_ : Nat) => ONES) w).testBit k = (fun _ => true) (w.testBit k) := by
  simp [testBit_ones, hk]

theorem set_part_bit (w s e k : Nat) (he : e < 64) (_hk : k < 64) :
    (w ||| Bitset.range_mask s e).testBit k =
      if s ≤ k ∧ k ≤ e then (fun _ => true) (w.testBit k) else w.testBit k := by
  rw [Nat.testBit_or, testBit_range_mask s e k he]
  by_cases h : s ≤ k ∧ k ≤ e
  · rw [if_pos h]; simp [h.1, h.2]
  · rw [if_neg h]
    by_cases h1 : s ≤ k
    · have : ¬ k ≤ e := fun h2 => h ⟨h1, h2⟩
      simp [this]
    · simp [h1]

theorem reset_full_bit (w k : Nat) (_hk : k < 64) :
    ((fun (_ : Nat) => ZEROS) w).testBit k = (fun _ => false) (w.testBit k) := by
  simp [ZEROS]

theorem reset_part_bit (w s e k : Nat) (he : e < 64) (hk : k < 64) :
    (w &&& wnot (Bitset.range_mask s e)).testBit k =
      if s ≤ k ∧ k ≤ e then (fun _ => false) (w.testBit k) else w.testBit k := by
  rw [Nat.testBit_and, testBit_wnot _ _ (range_mask_lt s e), testBit_range_mask s e k he]
  by_cases h : s ≤ k ∧ k ≤ e
  · rw [if_pos h]; simp [h.1, h.2]
  · rw [if_neg h]
    by_cases h1 : s ≤ k
    · have : ¬ k ≤ e := fun h2 => h ⟨h1, h2⟩
      simp [this, hk]
    · simp [h1, hk]

theorem flip_full_bit (w k : Nat) (hk : k < 64) :
    (w ^^^ ONES).testBit k = (fun x => !x) (w.testBit k) := by
  rw [Nat.testBit_xor, testBit_ones]
  simp [hk]

theorem flip_part_bit (w s e k : Nat) (he : e < 64) (_hk : k < 64) :
    (w ^^^ Bitset.range_mask s e).testBit k =
      if s ≤ k ∧ k ≤ e then (fun x => !x) (w.testBit k) else w.testBit k := by
  rw [Nat.testBit_xor, testBit_range_mask s e k he]
  by_cases h : s ≤ k ∧ k ≤ e
  · rw [if_pos h]; simp [h.1, h.2]
  · rw [if_neg h]
    by_cases h1 : s ≤ k
    · have : ¬ k ≤ e := fun h2 => h ⟨h1, h2⟩
      simp [this]
    · simp [h1]

theorem set_range_spec (b : Bitset) (h : Inv b) (start len : Nat) (hs : start < b.m_num_bits)
    (hl : 0 < len) (hwrap : start + len < 2 ^ 64) :
    ∃ d, b.set_range start len = .returned ⟨d, b.m_num_bits⟩ ∧
      d.length = b.m_data.length ∧ (∀ j, d.getD j 0 < 2 ^ 64) ∧
      ∀ i, bit_at d i =
        if start ≤ i ∧ i < min (start + len) b.m_num_bits then true else bit_at b.m_data i :=
  modify_range_spec b h _ _ (fun _ => true) (fun _ _ => ones_lt)
    (fun _ _ _ hw => Nat.or_lt_two_pow hw (range_mask_lt _ _))
    set_full_bit set_part_bit start len hs hl hwrap

theorem reset_range_spec (b : Bitset) (h : Inv b) (start len : Nat) (hs : start < b.m_num_bits)
    (hl : 0 < len) (hwrap : start + len < 2 ^ 64) :
    ∃ d, b.reset_range start len = .returned ⟨d, b.m_num_bits⟩ ∧
      d.length = b.m_data.length ∧ (∀ j, d.getD j 0 < 2 ^ 64) ∧
      ∀ i, bit_at d i =
        if start ≤ i ∧ i < min (start + len) b.m_num_bits then false else bit_at b.m_data i :=
  modify_range_spec b h _ _ (fun _ => false) (fun _ _ => by decide)
    (fun _ _ _ hw => lt_of_le_of_lt Nat.and_le_left hw)
    reset_full_bit reset_part_bit start len hs hl hwrap

theorem flip_range_spec (b : Bitset) (h : Inv b) (start len : Nat) (hs : start < b.m_num_bits)
    (hl : 0 < len) (hwrap : start + len < 2 ^ 64) :
    ∃ d, b.flip_range start len = .returned ⟨d, b.m_num_bits⟩ ∧
      d.length = b.m_data.length ∧ (∀ j, d.getD j 0 < 2 ^ 64) ∧
      ∀ i, bit_at d i =
        if start ≤ i ∧ i < min (start + len) b.m_num_bits then !(bit_at b.m_data i)
        else bit_at b.m_data i :=
  modify_range_spec b h _ _ (fun x => !x) (fun _ hw => Nat.xor_lt_two_pow hw ones_lt)
    (fun _ _ _ hw => Nat.xor_lt_two_pow hw (range_mask_lt _ _))
    flip_full_bit flip_part_bit start len hs hl hwrap

theorem set_range_inv (b : Bitset) (h : Inv b) (start len : Nat) (hwrap : start + len < 2 ^ 64) :
    Inv (b.set_range start len).state :=
  modify_range_inv b h _ _ (fun _ => true) (fun _ _ => ones_lt)
    (fun _ _ _ hw => Nat.or_lt_two_pow hw (range_mask_lt _ _))
    set_full_bit set_part_bit start len hwrap

theorem reset_range_inv (b : Bitset) (h : Inv b) (start len : Nat)
    (hwrap : start + len < 2 ^ 64) : Inv (b.reset_range start len).state :=
  modify_range_inv b h _ _ (fun _ => false) (fun _ _ => by decide)
    (fun _ _ _ hw => lt_of_le_of_lt Nat.and_le_left hw)
    reset_full_bit reset_part_bit start len hwrap

theorem flip_range_inv (b : Bitset) (h : Inv b) (start len : Nat)
    (hwrap : start + len < 2 ^ 64) : Inv (b.flip_range start len).state :=
  modify_range_inv b h _ _ (fun x => !x) (fun _ hw => Nat.xor_lt_two_pow hw ones_lt)
    (fun _ _ _ hw => Nat.xor_lt_two_pow hw (range_mask_lt _ _))
    flip_full_bit flip_part_bit start len hwrap

end Macchiato


namespace Macchiato

/-! ## Every reachable bitset satisfies the storage invariants -/

theorem call_inv (mode : MixedWidthMode) (b : Bitset) (c : Call) (h : Inv b)
    (hadm : c.admissible b) (hop : ∀ other, c.operand = some other → Inv other) :
    Inv (c.run mode b).state := by
  cases c with
  | resize n v =>
    obtain ⟨b', hb', hi⟩ := resize_inv b h n hadm v
    show Inv (b.resize n v).state
    rw [hb']; exact hi
  | push_msb v =>
    obtain ⟨b', hb', hi⟩ := push_msb_inv b h v
    show Inv (b.push_msb v).state
    rw [hb']; exact hi
  | pop_msb => exact pop_msb_inv b h hadm
  | extend_msb_with_word w => exact extend_inv b h w hadm.1 hadm.2
  | clear => exact inv_clear b
  | set => exact set_inv b h
  | set_bit n => exact set_bit_inv b h n
  | set_range n len => exact set_range_inv b h n len hadm
  | reset => exact reset_inv b h
  | reset_bit n => exact reset_bit_inv b h n
  | reset_range n len => exact reset_range_inv b h n len hadm
  | flip => exact flip_inv b h
  | flip_bit n => exact flip_bit_inv b h n
  | flip_range n len => exact flip_range_inv b h n len hadm
  | and_assign other => exact and_assign_inv mode b other h (hop other rfl)
  | or_assign other => exact or_assign_inv mode b other h (hop other rfl)
  | xor_assign other => exact xor_assign_inv mode b other h (hop other rfl)
  | nand other => exact nand_inv mode b other h (hop other rfl)
  | nor other => exact nor_inv mode b other h (hop other rfl)
  | xnor other => exact xnor_inv mode b other h (hop other rfl)
  | inplace_not => exact inplace_not_inv b h
  | inplace_set_difference other => exact inplace_set_difference_inv b other h

theorem reachable_inv (mode : MixedWidthMode) (b : Bitset) (hr : Reachable mode b) : Inv b := by
  induction hr with
  | empty => exact inv_empty
  | sized n v hn hv => exact inv_sized n v hn hv
  | call b c _ hadm _ ih ihop => exact call_inv mode b c ih hadm ihop
  | complement b _ hfit ih => exact complement_inv b ih hfit

/-- C1. Unused-tail invariant: every bitset built from `Bitset()` or
`Bitset(num_bits, value)` by any sequence of `resize`, `push_msb`, `pop_msb` (on a
non-empty bitset), `extend_msb_with_word`, `clear`, whole, single-bit and ranged
`set`/`reset`/`flip` (ranged calls with `start + len` not wrapping), the six
in-place boolean operations in either width mode, `operator~`, `inplace_not` and
`inplace_set_difference` has, whenever its length is not word aligned, every bit
of its last word at a position `>= num_bits() % BITS_PER_WORD` equal to zero.
The length that `extend_msb_with_word` or `operator~` computes is a `size_type`. -/
theorem unused_tail_invariant (mode : MixedWidthMode) (b : Bitset) (hr : Reachable mode b) :
    b.num_bits % BITS_PER_WORD ≠ 0 →
      ∀ k, k < BITS_PER_WORD → b.num_bits % BITS_PER_WORD ≤ k →
        (b.m_data.getD (b.num_words - 1) 0).testBit k = false :=
  (reachable_inv mode b hr).tail

theorem unused_tail_invariant_witness :
    Reachable .UNSIGNED_PROMOTION
        ((Call.nand (Bitset.sized 70 ONES)).run .UNSIGNED_PROMOTION (Bitset.sized 7 5)).state ∧
      (((Call.nand (Bitset.sized 70 ONES)).run .UNSIGNED_PROMOTION
          (Bitset.sized 7 5)).state.num_bits % BITS_PER_WORD ≠ 0 →
        ∀ k, k < BITS_PER_WORD →
          ((Call.nand (Bitset.sized 70 ONES)).run .UNSIGNED_PROMOTION
            (Bitset.sized 7 5)).state.num_bits % BITS_PER_WORD ≤ k →
          ((((Call.nand (Bitset.sized 70 ONES)).run .UNSIGNED_PROMOTION
            (Bitset.sized 7 5)).state.m_data.getD
              (((Call.nand (Bitset.sized 70 ONES)).run .UNSIGNED_PROMOTION
                (Bitset.sized 7 5)).state.num_words - 1) 0).testBit k = false)) :=
  have hr : Reachable .UNSIGNED_PROMOTION
      ((Call.nand (Bitset.sized 70 ONES)).run .UNSIGNED_PROMOTION (Bitset.sized 7 5)).state :=
    Reachable.call _ _ (Reachable.sized 7 5 (by decide) (by decide)) trivial
      (fun other ho => by
        cases ho
        exact Reachable.sized 70 ONES (by decide) (by decide))
  ⟨hr, unused_tail_invariant _ _ hr⟩

/-- C2. Word-count invariant: every bitset built by the constructors and any
sequence of the mutating calls (and `operator~`) has `num_words()` equal to
`ceil(num_bits() / BITS_PER_WORD)`, and an empty bitset has no words. The length
that `extend_msb_with_word` or `operator~` computes is a `size_type`. -/
theorem word_count_invariant (mode : MixedWidthMode) (b : Bitset) (hr : Reachable mode b) :
    b.num_words = (b.num_bits + (BITS_PER_WORD - 1)) / BITS_PER_WORD ∧
      (b.num_bits = 0 → b.num_words = 0) := by
  have h := (reachable_inv mode b hr).count
  refine ⟨h, fun h0 => ?_⟩
  unfold word_count_ok at h
  rw [h, h0]
  decide

theorem word_count_invariant_witness :
    Reachable .SAME_SIZE_ONLY
        ((Call.extend_msb_with_word 9).run .SAME_SIZE_ONLY (Bitset.sized 3 5).complement).state ∧
      (((Call.extend_msb_with_word 9).run .SAME_SIZE_ONLY
          (Bitset.sized 3 5).complement).state.num_words =
        (((Call.extend_msb_with_word 9).run .SAME_SIZE_ONLY
          (Bitset.sized 3 5).complement).state.num_bits + (BITS_PER_WORD - 1)) / BITS_PER_WORD ∧
       (((Call.extend_msb_with_word 9).run .SAME_SIZE_ONLY
          (Bitset.sized 3 5).complement).state.num_bits = 0 →
        ((Call.extend_msb_with_word 9).run .SAME_SIZE_ONLY
          (Bitset.sized 3 5).complement).state.num_words = 0)) :=
  have hr : Reachable .SAME_SIZE_ONLY
      ((Call.extend_msb_with_word 9).run .SAME_SIZE_ONLY (Bitset.sized 3 5).complement).state :=
    Reachable.call _ _
      (Reachable.complement _ (Reachable.sized 3 5 (by decide) (by decide)) (by decide))
      (show 9 < WORD_MOD ∧ (Bitset.sized 3 5).complement.num_bits + BITS_PER_WORD < SIZE_MOD
        by decide)
      (fun other ho => by cases ho)
  ⟨hr, word_count_invariant _ _ hr⟩

end Macchiato


namespace Macchiato

/-! ## `test` and the aggregate queries -/

theorem and_one_hot_ne_zero (w n : Nat) :
    ((w &&& Bitset.one_hot_mask (Bitset.bit_offset n)) != ZEROS) = w.testBit (n % 64) := by
  cases hb : w.testBit (n % 64)
  · have : w &&& Bitset.one_hot_mask (Bitset.bit_offset n) = 0 := by
      apply Nat.eq_of_testBit_eq
      intro k
      rw [Nat.testBit_and, testBit_one_hot_mask, Nat.zero_testBit]
      by_cases hk : k = n % 64
      · subst hk; simp [hb]
      · simp [hk]
    rw [this]; rfl
  · have : (w &&& Bitset.one_hot_mask (Bitset.bit_offset n)).testBit (n % 64) = true := by
      rw [Nat.testBit_and, testBit_one_hot_mask, hb]; simp
    have hne : w &&& Bitset.one_hot_mask (Bitset.bit_offset n) ≠ 0 := by
      intro h0
      rw [h0, Nat.zero_testBit] at this
      exact absurd this (by decide)
    simpa [ZEROS] using hne

theorem test_eq (b : Bitset) (n : Nat) :
    b.test n = if n ≥ b.m_num_bits then .error .out_of_range else .ok (bit_at b.m_data n) := by
  unfold Bitset.test
  split
  · rfl
  · simp only [and_one_hot_ne_zero, word_index_eq]
    rfl

theorem test_of_lt (b : Bitset) (n : Nat) (hn : n < b.m_num_bits) :
    b.test n = .ok (bit_at b.m_data n) := by
  rw [test_eq, if_neg (by omega)]

theorem test_ok_true_iff (b : Bitset) (n : Nat) (hn : n < b.m_num_bits) :
    b.test n = .ok true ↔ bit_at b.m_data n = true := by
  rw [test_of_lt b n hn]
  constructor
  · intro h; injection h
  · intro h; rw [h]

theorem popcountAux_eq (fuel w : Nat) :
    popcountAux fuel w = (List.range fuel).countP (fun k => w.testBit k) := by
  induction fuel generalizing w with
  | zero => rfl
  | succ f ih =>
    rw [popcountAux, ih, List.range_succ_eq_map, List.countP_cons, List.countP_map,
      Nat.testBit_zero]
    have e : ((fun k => w.testBit k) ∘ Nat.succ) = fun k => (w / 2).testBit k := by
      funext k
      exact Nat.testBit_succ w k
    rw [e]
    have h2 : w % 2 = 0 ∨ w % 2 = 1 := by omega
    rcases h2 with h2 | h2
    · simp [h2]
    · simp [h2]; omega

theorem popcount_eq (w : Nat) :
    popcount w = (List.range 64).countP (fun k => w.testBit k) :=
  popcountAux_eq 64 w

/-- The sum of the population counts is the number of one bits in the storage. -/
theorem count_eq_storage_bits (d : List Nat) :
    d.foldl (fun num word => num + popcount word) 0 =
      (List.range (d.length * 64)).countP (fun i => bit_at d i) := by
  induction d using List.reverseRecOn with
  | nil => rfl
  | append_singleton d w ih =>
    rw [List.foldl_append, List.foldl_cons, List.foldl_nil, ih, List.length_append,
      List.length_singleton, Nat.add_mul, Nat.one_mul, List.range_add, List.countP_append,
      List.countP_map, popcount_eq]
    congr 1
    · apply List.countP_congr
      intro i hi
      have hi' : i < d.length * 64 := List.mem_range.mp hi
      rw [bit_at_eq, bit_at_eq, getD_append_single, if_pos (by omega)]
    · apply List.countP_congr
      intro k hk
      have hk' : k < 64 := List.mem_range.mp hk
      show w.testBit k = true ↔ bit_at (d ++ [w]) (d.length * 64 + k) = true
      rw [bit_at_eq, getD_append_single, if_neg (by omega), if_pos (by omega)]
      have : (d.length * 64 + k) % 64 = k := by omega
      rw [this]

theorem foldl_count_mod (l : List Nat) (acc : Nat) :
    l.foldl (fun num word => (num + popcount word) % SIZE_MOD) (acc % SIZE_MOD) =
      l.foldl (fun num word => num + popcount word) acc % SIZE_MOD := by
  induction l generalizing acc with
  | nil => rfl
  | cons w ws ih =>
    rw [List.foldl_cons, List.foldl_cons, Nat.mod_add_mod, ih]

/-- Under the invariants `count()` counts exactly the one bits below `num_bits()`. -/
theorem count_eq_bits (b : Bitset) (h : Inv b) :
    b.count = (List.range b.m_num_bits).countP (fun i => bit_at b.m_data i) := by
  unfold Bitset.count
  have hmod := foldl_count_mod b.m_data 0
  rw [Nat.zero_mod] at hmod
  rw [hmod]
  have hle : (List.range b.m_num_bits).countP (fun i => bit_at b.m_data i) < SIZE_MOD :=
    lt_of_le_of_lt (List.countP_le_length _)
      (by rw [List.length_range]; exact h.bits_lt)
  suffices hs : b.m_data.foldl (fun num word => num + popcount word) 0 =
      (List.range b.m_num_bits).countP (fun i => bit_at b.m_data i) by
    rw [hs, Nat.mod_eq_of_lt hle]
  rw [count_eq_storage_bits]
  have hlen := h.length_eq
  have hsplit : b.m_data.length * 64 =
      b.m_num_bits + (b.m_data.length * 64 - b.m_num_bits) := by omega
  rw [hsplit, List.range_add, List.countP_append, List.countP_map]
  have hz : List.countP ((fun i => bit_at b.m_data i) ∘ fun x => b.m_num_bits + x)
      (List.range (b.m_data.length * 64 - b.m_num_bits)) = 0 := by
    rw [List.countP_eq_zero]
    intro a _
    show ¬ bit_at b.m_data (b.m_num_bits + a) = true
    rw [h.bit_zero _ (by omega)]
    decide
  rw [hz, Nat.add_zero]

/-- C3. For every bitset satisfying the storage invariants, `count()` equals the
number of indices `i` in `[0, num_bits())` for which `test(i)` returns true. -/
theorem count_eq_tested_bits (b : Bitset) (h : Inv b) :
    b.count = ((List.range b.num_bits).filter (fun i => b.test i = .ok true)).length := by
  rw [count_eq_bits b h, ← List.countP_eq_length_filter]
  apply List.countP_congr
  intro i hi
  have hi' : i < b.m_num_bits := List.mem_range.mp hi
  rw [decide_eq_true_iff]
  exact (test_ok_true_iff b i hi').symm

theorem count_eq_tested_bits_witness :
    Inv (Bitset.sized 70 5) ∧
      (Bitset.sized 70 5).count =
        ((List.range (Bitset.sized 70 5).num_bits).filter
          (fun i => (Bitset.sized 70 5).test i = .ok true)).length :=
  ⟨by decide, count_eq_tested_bits (Bitset.sized 70 5) (by decide)⟩

end Macchiato


namespace Macchiato

theorem forall_mem_iff_getD (l : List Nat) (P : Nat → Prop) :
    (∀ x ∈ l, P x) ↔ ∀ j, j < l.length → P (l.getD j 0) := by
  constructor
  · intro h j hj
    exact h _ (getD_mem l j hj)
  · intro h x hx
    obtain ⟨n, hn, rfl⟩ := List.mem_iff_getElem.mp hx
    have := h n hn
    rw [getD_zero_eq, List.getElem?_eq_getElem hn] at this
    simpa using this

theorem count_eq_num_bits_iff (b : Bitset) (h : Inv b) :
    b.count = b.m_num_bits ↔ ∀ i, i < b.m_num_bits → bit_at b.m_data i = true := by
  rw [count_eq_bits b h]
  have hl : (List.range b.m_num_bits).length = b.m_num_bits := List.length_range _
  constructor
  · intro hc i hi
    have hc' : (List.range b.m_num_bits).countP (fun i => bit_at b.m_data i) =
        (List.range b.m_num_bits).length := by rw [hc, hl]
    exact List.countP_eq_length.mp hc' i (List.mem_range.mpr hi)
  · intro hb
    have := List.countP_eq_length.mpr (fun i hi => hb i (List.mem_range.mp hi))
    rw [this, hl]

theorem count_eq_zero_iff (b : Bitset) (h : Inv b) :
    b.count = 0 ↔ ∀ i, bit_at b.m_data i = false := by
  rw [count_eq_bits b h, List.countP_eq_zero]
  constructor
  · intro hc i
    by_cases hi : i < b.m_num_bits
    · have := hc i (List.mem_range.mpr hi)
      simpa using this
    · exact h.bit_zero i (by omega)
  · intro hb i _
    rw [hb i]
    decide

theorem none_iff_words (b : Bitset) : b.none = true ↔ ∀ j, b.m_data.getD j 0 = 0 := by
  unfold Bitset.none
  rw [List.all_eq_true]
  constructor
  · intro hn j
    by_cases hj : j < b.m_data.length
    · have := hn _ (getD_mem _ j hj)
      simpa [ZEROS] using this
    · exact getD_of_le _ _ (by omega)
  · intro hw x hx
    have := (forall_mem_iff_getD b.m_data (fun x => x = 0)).mpr (fun j _ => hw j) x hx
    simp [ZEROS, this]

theorem words_zero_iff_bits (b : Bitset) (h : Inv b) :
    (∀ j, b.m_data.getD j 0 = 0) ↔ ∀ i, bit_at b.m_data i = false := by
  constructor
  · intro hw i
    rw [bit_at_eq, hw]
    simp
  · intro hb j
    apply word_ext (h.words j) (by decide)
    intro k hk
    have := hb (j * 64 + k)
    rw [bit_at_eq] at this
    have e1 : (j * 64 + k) / 64 = j := by omega
    have e2 : (j * 64 + k) % 64 = k := by omega
    rw [e1, e2] at this
    rw [this]
    simp

theorem all_iff_words (b : Bitset) :
    b.all = true ↔ b.m_num_bits ≠ 0 ∧ b.m_data ≠ [] ∧
      b.m_data.getD (b.m_data.length - 1) 0 = b.generate_used_bits_in_msw_mask ∧
      ∀ j, j + 1 < b.m_data.length → b.m_data.getD j 0 = ONES := by
  unfold Bitset.all
  by_cases h0 : b.m_num_bits = 0
  · rw [if_pos ((is_empty_iff b).mpr h0)]
    simp [h0]
  · have he : ¬ (b.is_empty = true) := fun e => h0 ((is_empty_iff b).mp e)
    rw [if_neg he]
    cases hrev : b.m_data.reverse with
    | nil =>
      have : b.m_data = [] := by simpa using hrev
      simp [this]
    | cons msw rest =>
      have hd : b.m_data = rest.reverse ++ [msw] := List.reverse_eq_cons_iff.mp hrev
      have hlen : b.m_data.length = rest.reverse.length + 1 := by rw [hd]; simp
      have hlast : b.m_data.getD (b.m_data.length - 1) 0 = msw := by
        rw [hlen, hd, getD_append_single]
        simp
      have hrest : (rest.all (fun w => w == ONES) = true) ↔
          ∀ j, j + 1 < b.m_data.length → b.m_data.getD j 0 = ONES := by
        rw [List.all_eq_true]
        have e1 : (∀ x ∈ rest, (x == ONES) = true) ↔ ∀ x ∈ rest.reverse, x = ONES := by
          simp
        rw [e1, forall_mem_iff_getD rest.reverse (fun x => x = ONES)]
        constructor
        · intro hh j hj
          have hj' : j < rest.reverse.length := by omega
          rw [hd, getD_append_single, if_pos hj']
          exact hh j hj'
        · intro hh j hj
          have := hh j (by omega)
          rw [hd, getD_append_single, if_pos hj] at this
          exact this
      have hne : b.m_data ≠ [] := by rw [hd]; simp
      dsimp only
      rw [hlast]
      by_cases hm : msw = b.generate_used_bits_in_msw_mask
      · rw [if_neg (not_not.mpr hm), hrest]
        exact ⟨fun hh => ⟨h0, hne, hm, hh⟩, fun hh => hh.2.2.2⟩
      · rw [if_pos hm]
        constructor
        · intro hf; exact absurd hf (by decide)
        · intro hh; exact absurd hh.2.2.1 hm

theorem all_iff_bits (b : Bitset) (h : Inv b) :
    b.all = true ↔ b.m_num_bits ≠ 0 ∧ ∀ i, i < b.m_num_bits → bit_at b.m_data i = true := by
  have hlen := h.length_eq
  rw [all_iff_words]
  constructor
  · rintro ⟨h0, _, hlast, hrest⟩
    refine ⟨h0, fun i hi => ?_⟩
    rw [bit_at_eq]
    have hm : i % 64 < 64 := Nat.mod_lt _ (by decide)
    by_cases hw : i / 64 + 1 < b.m_data.length
    · rw [hrest _ hw, testBit_ones]
      simp [hm]
    · have e : i / 64 = b.m_data.length - 1 := by omega
      rw [e, hlast, testBit_used_mask]
      have : b.m_num_bits % 64 = 0 ∨ i % 64 < b.m_num_bits % 64 := by omega
      rcases this with h1 | h1 <;> simp [hm, h1]
  · rintro ⟨h0, hb⟩
    have hpos : 0 < b.m_data.length := by omega
    refine ⟨h0, fun e => by rw [e] at hpos; exact absurd hpos (by decide), ?_, ?_⟩
    · apply word_ext (h.words _) (used_mask_lt b)
      intro k hk
      rw [testBit_used_mask]
      by_cases hin : b.m_num_bits % 64 = 0 ∨ k < b.m_num_bits % 64
      · have := hb ((b.m_data.length - 1) * 64 + k) (by omega)
        rw [bit_at_eq] at this
        have e1 : ((b.m_data.length - 1) * 64 + k) / 64 = b.m_data.length - 1 := by omega
        have e2 : ((b.m_data.length - 1) * 64 + k) % 64 = k := by omega
        rw [e1, e2] at this
        rw [this]
        rcases hin with h1 | h1 <;> simp [hk, h1]
      · have := h.bit_zero ((b.m_data.length - 1) * 64 + k) (by omega)
        rw [bit_at_eq] at this
        have e1 : ((b.m_data.length - 1) * 64 + k) / 64 = b.m_data.length - 1 := by omega
        have e2 : ((b.m_data.length - 1) * 64 + k) % 64 = k := by omega
        rw [e1, e2] at this
        rw [this]
        have h1 : ¬ b.m_num_bits % 64 = 0 := fun e => hin (Or.inl e)
        have h2 : ¬ k < b.m_num_bits % 64 := fun e => hin (Or.inr e)
        simp [h1, h2]
    · intro j hj
      apply word_ext (h.words _) ones_lt
      intro k hk
      have := hb (j * 64 + k) (by omega)
      rw [bit_at_eq] at this
      have e1 : (j * 64 + k) / 64 = j := by omega
      have e2 : (j * 64 + k) % 64 = k := by omega
      rw [e1, e2] at this
      rw [this, testBit_ones]
      simp [hk]

/-- C4. For every bitset satisfying the storage invariants: `all()` is true iff
`num_bits() > 0` and `count() == num_bits()`; `none()` is true iff `count() == 0`;
`any()` is true iff `none()` is false; and `all()` is false on an empty bitset. -/
theorem aggregate_queries (b : Bitset) (h : Inv b) :
    (b.all = true ↔ (0 < b.num_bits ∧ b.count = b.num_bits)) ∧
      (b.none = true ↔ b.count = 0) ∧
      (b.any = true ↔ b.none = false) ∧
      (b.num_bits = 0 → b.all = false) := by
  refine ⟨?_, ?_, ?_, ?_⟩
  · show b.all = true ↔ (0 < b.m_num_bits ∧ b.count = b.m_num_bits)
    rw [all_iff_bits b h, count_eq_num_bits_iff b h]
    constructor
    · rintro ⟨h0, hb⟩; exact ⟨by omega, hb⟩
    · rintro ⟨h0, hb⟩; exact ⟨by omega, hb⟩
  · rw [none_iff_words, words_zero_iff_bits b h, count_eq_zero_iff b h]
  · unfold Bitset.none Bitset.any
    induction b.m_data with
    | nil => simp
    | cons w ws ih =>
      rw [List.any_cons, List.all_cons]
      cases hw : (w != ZEROS) <;> simp [ih]
  · intro h0
    have h0' : b.m_num_bits = 0 := h0
    cases hall : b.all
    · rfl
    · exact absurd h0' ((all_iff_bits b h).mp hall).1

theorem aggregate_queries_witness :
    Inv (Bitset.sized 70 5).set ∧
      (((Bitset.sized 70 5).set.all = true ↔
          (0 < (Bitset.sized 70 5).set.num_bits ∧
            (Bitset.sized 70 5).set.count = (Bitset.sized 70 5).set.num_bits)) ∧
        ((Bitset.sized 70 5).set.none = true ↔ (Bitset.sized 70 5).set.count = 0) ∧
        ((Bitset.sized 70 5).set.any = true ↔ (Bitset.sized 70 5).set.none = false) ∧
        ((Bitset.sized 70 5).set.num_bits = 0 → (Bitset.sized 70 5).set.all = false)) :=
  ⟨by decide, aggregate_queries (Bitset.sized 70 5).set (by decide)⟩

end Macchiato


namespace Macchiato

/-! ## Ranged and single-bit mutators: the contract -/

/-- Ranged `set` and `reset` with assertions compiled out (`NDEBUG`): for a bitset
satisfying the invariants, a start below `num_bits()` and a length with
`start + len` not wrapping, `set(start, len)` returns with every bit of
`[start, min(start + len, num_bits()))` equal to 1 and `reset(start, len)` with
every such bit equal to 0; the length, the number of words and every other bit
are unchanged. The range may lie in one word or span several. In a build that
keeps the assertions the call aborts on some of these ranges
(`modify_range_asserting_spec`). -/
theorem ranged_set_reset (b : Bitset) (h : Inv b) (start len : Nat)
    (hs : start < b.num_bits) (hwrap : start + len < SIZE_MOD) :
    (∃ b', b.set_range start len = .returned b' ∧
      b'.num_bits = b.num_bits ∧ b'.num_words = b.num_words ∧
      (∀ i, start ≤ i → i < min (start + len) b.num_bits → b'.test i = .ok true) ∧
      (∀ i, i < b.num_bits → ¬ (start ≤ i ∧ i < min (start + len) b.num_bits) →
        b'.test i = b.test i)) ∧
    (∃ b', b.reset_range start len = .returned b' ∧
      b'.num_bits = b.num_bits ∧ b'.num_words = b.num_words ∧
      (∀ i, start ≤ i → i < min (start + len) b.num_bits → b'.test i = .ok false) ∧
      (∀ i, i < b.num_bits → ¬ (start ≤ i ∧ i < min (start + len) b.num_bits) →
        b'.test i = b.test i)) := by
  have hs' : start < b.m_num_bits := hs
  by_cases hl : len = 0
  · subst hl
    refine ⟨⟨b, modify_range_zero b _ _ start hs', rfl, rfl, ?_, fun _ _ _ => rfl⟩,
      ⟨b, modify_range_zero b _ _ start hs', rfl, rfl, ?_, fun _ _ _ => rfl⟩⟩ <;>
    · intro i h1 h2
      exact absurd h2 (by omega)
  · constructor
    · obtain ⟨d, hd, hlen, _, hbit⟩ := set_range_spec b h start len hs' (by omega) hwrap
      refine ⟨_, hd, rfl, hlen, ?_, ?_⟩
      · intro i h1 h2
        have hi : i < b.m_num_bits := lt_of_lt_of_le h2 (Nat.min_le_right _ _)
        rw [test_of_lt ⟨d, b.m_num_bits⟩ i hi]
        show Except.ok (bit_at d i) = Except.ok true
        rw [hbit, if_pos ⟨h1, h2⟩]
      · intro i hi hout
        rw [test_of_lt ⟨d, b.m_num_bits⟩ i hi, test_of_lt b i hi]
        show Except.ok (bit_at d i) = Except.ok (bit_at b.m_data i)
        rw [hbit, if_neg (show ¬ (start ≤ i ∧ i < min (start + len) b.m_num_bits) from hout)]
    · obtain ⟨d, hd, hlen, _, hbit⟩ := reset_range_spec b h start len hs' (by omega) hwrap
      refine ⟨_, hd, rfl, hlen, ?_, ?_⟩
      · intro i h1 h2
        have hi : i < b.m_num_bits := lt_of_lt_of_le h2 (Nat.min_le_right _ _)
        rw [test_of_lt ⟨d, b.m_num_bits⟩ i hi]
        show Except.ok (bit_at d i) = Except.ok false
        rw [hbit, if_pos ⟨h1, h2⟩]
      · intro i hi hout
        rw [test_of_lt ⟨d, b.m_num_bits⟩ i hi, test_of_lt b i hi]
        show Except.ok (bit_at d i) = Except.ok (bit_at b.m_data i)
        rw [hbit, if_neg (show ¬ (start ≤ i ∧ i < min (start + len) b.m_num_bits) from hout)]

theorem ranged_set_reset_witness :
    Inv (Bitset.sized 130 5) ∧
    (∃ b', (Bitset.sized 130 5).set_range 4 64 = .returned b' ∧
      b'.num_bits = (Bitset.sized 130 5).num_bits ∧
      b'.num_words = (Bitset.sized 130 5).num_words ∧
      (∀ i, 4 ≤ i → i < min (4 + 64) (Bitset.sized 130 5).num_bits → b'.test i = .ok true) ∧
      (∀ i, i < (Bitset.sized 130 5).num_bits →
        ¬ (4 ≤ i ∧ i < min (4 + 64) (Bitset.sized 130 5).num_bits) →
        b'.test i = (Bitset.sized 130 5).test i)) ∧
    (∃ b', (Bitset.sized 130 5).reset_range 4 64 = .returned b' ∧
      b'.num_bits = (Bitset.sized 130 5).num_bits ∧
      b'.num_words = (Bitset.sized 130 5).num_words ∧
      (∀ i, 4 ≤ i → i < min (4 + 64) (Bitset.sized 130 5).num_bits → b'.test i = .ok false) ∧
      (∀ i, i < (Bitset.sized 130 5).num_bits →
        ¬ (4 ≤ i ∧ i < min (4 + 64) (Bitset.sized 130 5).num_bits) →
        b'.test i = (Bitset.sized 130 5).test i)) :=
  ⟨by decide, ranged_set_reset (Bitset.sized 130 5) (by decide) 4 64 (by decide) (by decide)⟩

/-- Ranged `flip` with assertions compiled out (`NDEBUG`) toggles each bit of the
clamped range exactly once: for a bitset satisfying the invariants, a start below
`num_bits()` and a length with `start + len` not wrapping, `flip(start, len)`
returns with every bit of `[start, min(start + len, num_bits()))` negated and
every other bit, the length and the number of words unchanged. A word processed
twice would have its bits restored, so no boundary word is processed both by the
partial and the full step. In a build that keeps the assertions the call aborts
on some of these ranges (`modify_range_asserting_spec`). -/
theorem ranged_flip (b : Bitset) (h : Inv b) (start len : Nat)
    (hs : start < b.num_bits) (hwrap : start + len < SIZE_MOD) :
    ∃ b', b.flip_range start len = .returned b' ∧
      b'.num_bits = b.num_bits ∧ b'.num_words = b.num_words ∧
      (∀ i, start ≤ i → i < min (start + len) b.num_bits →
        ∃ v, b.test i = .ok v ∧ b'.test i = .ok (!v)) ∧
      (∀ i, i < b.num_bits → ¬ (start ≤ i ∧ i < min (start + len) b.num_bits) →
        b'.test i = b.test i) := by
  have hs' : start < b.m_num_bits := hs
  by_cases hl : len = 0
  · subst hl
    refine ⟨b, modify_range_zero b _ _ start hs', rfl, rfl, ?_, fun _ _ _ => rfl⟩
    intro i h1 h2
    exact absurd h2 (by omega)
  · obtain ⟨d, hd, hlen, _, hbit⟩ := flip_range_spec b h start len hs' (by omega) hwrap
    refine ⟨_, hd, rfl, hlen, ?_, ?_⟩
    · intro i h1 h2
      have hi : i < b.m_num_bits := lt_of_lt_of_le h2 (Nat.min_le_right _ _)
      refine ⟨bit_at b.m_data i, test_of_lt b i hi, ?_⟩
      rw [test_of_lt ⟨d, b.m_num_bits⟩ i hi]
      show Except.ok (bit_at d i) = Except.ok (!bit_at b.m_data i)
      rw [hbit, if_pos ⟨h1, h2⟩]
    · intro i hi hout
      rw [test_of_lt ⟨d, b.m_num_bits⟩ i hi, test_of_lt b i hi]
      show Except.ok (bit_at d i) = Except.ok (bit_at b.m_data i)
      rw [hbit, if_neg (show ¬ (start ≤ i ∧ i < min (start + len) b.m_num_bits) from hout)]

theorem ranged_flip_witness :
    Inv (Bitset.sized 130 5) ∧
    ∃ b', (Bitset.sized 130 5).flip_range 8 67 = .returned b' ∧
      b'.num_bits = (Bitset.sized 130 5).num_bits ∧
      b'.num_words = (Bitset.sized 130 5).num_words ∧
      (∀ i, 8 ≤ i → i < min (8 + 67) (Bitset.sized 130 5).num_bits →
        ∃ v, (Bitset.sized 130 5).test i = .ok v ∧ b'.test i = .ok (!v)) ∧
      (∀ i, i < (Bitset.sized 130 5).num_bits →
        ¬ (8 ≤ i ∧ i < min (8 + 67) (Bitset.sized 130 5).num_bits) →
        b'.test i = (Bitset.sized 130 5).test i) :=
  ⟨by decide, ranged_flip (Bitset.sized 130 5) (by decide) 8 67 (by decide) (by decide)⟩

/-- C7, evaluated at a failing input. On a 10-bit bitset `set(5, SIZE_MAX)`,
`reset(5, SIZE_MAX)` and `flip(5, SIZE_MAX)` return without changing a bit, because
`bit_pos + len` wraps to 4 before it is clamped, whereas the calls with the
length `num_bits() - 5` rewrite bits 5 to 9. -/
theorem overlong_length_wraps :
    (Bitset.sized 10 0).set_range 5 (SIZE_MOD - 1) = .returned ⟨[0], 10⟩ ∧
    (Bitset.sized 10 0).set_range 5 (10 - 5) = .returned ⟨[992], 10⟩ ∧
    (Bitset.sized 10 1023).reset_range 5 (SIZE_MOD - 1) = .returned ⟨[1023], 10⟩ ∧
    (Bitset.sized 10 1023).reset_range 5 (10 - 5) = .returned ⟨[31], 10⟩ ∧
    (Bitset.sized 10 0).flip_range 5 (SIZE_MOD - 1) = .returned ⟨[0], 10⟩ ∧
    (Bitset.sized 10 0).flip_range 5 (10 - 5) = .returned ⟨[992], 10⟩ := by
  decide

/-- An over-long length whose `start + len` does not wrap is clamped. -/
theorem modify_range_clamped (b : Bitset) (full : Nat → Nat)
    (part_op : Nat → Nat → Nat → Nat) (n huge : Nat) (hn : n < b.m_num_bits)
    (hh : b.m_num_bits - n < huge) (hwrap : n + huge < SIZE_MOD) :
    b.modify_range n huge full part_op = b.modify_range n (b.m_num_bits - n) full part_op := by
  have h1 : (n + huge) % SIZE_MOD = n + huge := Nat.mod_eq_of_lt hwrap
  have h2 : (n + (b.m_num_bits - n)) % SIZE_MOD = b.m_num_bits :=
    by rw [Nat.mod_eq_of_lt (by omega)]; omega
  have h3 : min b.m_num_bits (n + huge) = b.m_num_bits := by omega
  unfold Bitset.modify_range
  simp only [if_neg (show ¬ n ≥ b.m_num_bits by omega), if_neg (show ¬ huge = 0 by omega),
    if_neg (show ¬ b.m_num_bits - n = 0 by omega), h1, h2, h3, Nat.min_self]

theorem modify_range_threw_iff (b : Bitset) (full : Nat → Nat)
    (part_op : Nat → Nat → Nat → Nat) (start len : Nat) :
    (b.modify_range start len full part_op = .threw .out_of_range b ↔ b.m_num_bits ≤ start) ∧
    (∀ f s, b.modify_range start len full part_op = .threw f s → f = .out_of_range ∧ s = b) := by
  by_cases hs : b.m_num_bits ≤ start
  · rw [modify_range_oob b full part_op start len hs]
    refine ⟨⟨fun _ => hs, fun _ => rfl⟩, ?_⟩
    intro f s he
    injection he with h1 h2
    exact ⟨h1.symm, h2.symm⟩
  · obtain ⟨d, hd⟩ := modify_range_in_bounds b full part_op start len (by omega)
    rw [hd]
    refine ⟨⟨fun he => (by cases he), fun h2 => absurd h2 hs⟩, ?_⟩
    intro f s he
    cases he

/-- C8. A ranged `set`/`reset`/`flip(start, len)` throws `std::out_of_range` if and
only if `start >= num_bits()`, whatever `len` is (zero included) and also on the
empty bitset; it throws nothing else, and when it throws the receiver is
unchanged. -/
theorem ranged_out_of_range (b : Bitset) (start len : Nat) :
    ((b.set_range start len = .threw .out_of_range b ↔ b.num_bits ≤ start) ∧
      (∀ f s, b.set_range start len = .threw f s → f = .out_of_range ∧ s = b)) ∧
    ((b.reset_range start len = .threw .out_of_range b ↔ b.num_bits ≤ start) ∧
      (∀ f s, b.reset_range start len = .threw f s → f = .out_of_range ∧ s = b)) ∧
    ((b.flip_range start len = .threw .out_of_range b ↔ b.num_bits ≤ start) ∧
      (∀ f s, b.flip_range start len = .threw f s → f = .out_of_range ∧ s = b)) :=
  ⟨modify_range_threw_iff b _ _ start len, modify_range_threw_iff b _ _ start len,
    modify_range_threw_iff b _ _ start len⟩

/-- C9. For every bitset and every `n < num_bits()`, `set(n, 0)`, `reset(n, 0)` and
`flip(n, 0)` return and leave every word and the length unchanged. -/
theorem ranged_zero_length (b : Bitset) (n : Nat) (hn : n < b.num_bits) :
    b.set_range n 0 = .returned b ∧ b.reset_range n 0 = .returned b ∧
      b.flip_range n 0 = .returned b :=
  ⟨modify_range_zero b _ _ n hn, modify_range_zero b _ _ n hn, modify_range_zero b _ _ n hn⟩

theorem ranged_zero_length_witness :
    2 < (Bitset.sized 130 5).num_bits ∧
      (Bitset.sized 130 5).set_range 2 0 = .returned (Bitset.sized 130 5) ∧
      (Bitset.sized 130 5).reset_range 2 0 = .returned (Bitset.sized 130 5) ∧
      (Bitset.sized 130 5).flip_range 2 0 = .returned (Bitset.sized 130 5) :=
  ⟨by decide, ranged_zero_length (Bitset.sized 130 5) 2 (by decide)⟩

/-- C10. Single-bit `test(i)`, `set(i)`, `reset(i)` and `flip(i)` throw
`std::out_of_range` if and only if `i >= num_bits()`; they throw nothing else, and
a mutator that throws leaves the receiver unchanged (`test` is a query and has no
receiver state to change). -/
theorem single_bit_out_of_range (b : Bitset) (i : Nat) :
    ((b.test i = .error .out_of_range ↔ b.num_bits ≤ i) ∧
      (∀ f, b.test i = .error f → f = .out_of_range)) ∧
    ((b.set_bit i = .threw .out_of_range b ↔ b.num_bits ≤ i) ∧
      (∀ f s, b.set_bit i = .threw f s → f = .out_of_range ∧ s = b)) ∧
    ((b.reset_bit i = .threw .out_of_range b ↔ b.num_bits ≤ i) ∧
      (∀ f s, b.reset_bit i = .threw f s → f = .out_of_range ∧ s = b)) ∧
    ((b.flip_bit i = .threw .out_of_range b ↔ b.num_bits ≤ i) ∧
      (∀ f s, b.flip_bit i = .threw f s → f = .out_of_range ∧ s = b)) := by
  refine ⟨?_, ?_, ?_, ?_⟩
  · rw [test_eq]
    by_cases hi : b.m_num_bits ≤ i
    · rw [if_pos hi]
      exact ⟨⟨fun _ => hi, fun _ => rfl⟩, fun f he => by injection he with h1; exact h1.symm⟩
    · rw [if_neg hi]
      exact ⟨⟨fun he => (by cases he), fun h2 => absurd h2 hi⟩, fun f he => by cases he⟩
  · unfold Bitset.set_bit
    by_cases hi : b.m_num_bits ≤ i
    · rw [if_pos hi]
      exact ⟨⟨fun _ => hi, fun _ => rfl⟩, fun f s he => by
        injection he with h1 h2; exact ⟨h1.symm, h2.symm⟩⟩
    · rw [if_neg hi]
      exact ⟨⟨fun he => (by cases he), fun h2 => absurd h2 hi⟩, fun f s he => by cases he⟩
  · unfold Bitset.reset_bit
    by_cases hi : b.m_num_bits ≤ i
    · rw [if_pos hi]
      exact ⟨⟨fun _ => hi, fun _ => rfl⟩, fun f s he => by
        injection he with h1 h2; exact ⟨h1.symm, h2.symm⟩⟩
    · rw [if_neg hi]
      exact ⟨⟨fun he => (by cases he), fun h2 => absurd h2 hi⟩, fun f s he => by cases he⟩
  · unfold Bitset.flip_bit
    by_cases hi : b.m_num_bits ≤ i
    · rw [if_pos hi]
      exact ⟨⟨fun _ => hi, fun _ => rfl⟩, fun f s he => by
        injection he with h1 h2; exact ⟨h1.symm, h2.symm⟩⟩
    · rw [if_neg hi]
      exact ⟨⟨fun he => (by cases he), fun h2 => absurd h2 hi⟩, fun f s he => by cases he⟩

end Macchiato


namespace Macchiato

/-! ## The ranged mutators in a build that keeps the assertions -/

theorem finished_of_assert (c : Prop) [Decidable c] (x r : Outcome)
    (h : (if c then Asserted.aborted else Asserted.finished x) = Asserted.finished r) :
    r = x := by
  by_cases hc : c
  · rw [if_pos hc] at h; cases h
  · rw [if_neg hc] at h
    exact (Asserted.finished.inj h).symm

/-- Whenever the asserting `modify_range` finishes, it finishes with the outcome of
the function without assertions. -/
theorem modify_range_asserting_finished (b : Bitset) (full : Nat → Nat)
    (part_op : Nat → Nat → Nat → Nat) (n len : Nat) (r : Outcome)
    (h : b.modify_range_asserting n len full part_op = .finished r) :
    r = b.modify_range n len full part_op := by
  unfold Bitset.modify_range_asserting at h
  unfold Bitset.modify_range
  simp only [word_index_eq, bit_offset_eq, msb_pos_eq, size_mod_eq, bits_per_word_eq] at h ⊢
  generalize (min b.m_num_bits ((n + len) % 2 ^ 64) + 2 ^ 64 - 1) % 2 ^ 64 = stop at h ⊢
  by_cases c1 : n ≥ b.m_num_bits
  · rw [if_pos c1] at h ⊢
    exact (Asserted.finished.inj h).symm
  rw [if_neg c1] at h ⊢
  by_cases c2 : len = 0
  · rw [if_pos c2] at h ⊢
    exact (Asserted.finished.inj h).symm
  rw [if_neg c2] at h ⊢
  by_cases a1 : ¬ n ≤ stop
  · rw [if_pos a1] at h; cases h
  rw [if_neg a1] at h
  by_cases a2 : ¬ stop < b.m_num_bits
  · rw [if_pos a2] at h; cases h
  rw [if_neg a2] at h
  by_cases a3 : ¬ stop / 64 < b.m_data.length
  · rw [if_pos a3] at h; cases h
  rw [if_neg a3] at h
  by_cases a4 : ¬ stop % 64 < 64
  · rw [if_pos a4] at h; cases h
  rw [if_neg a4] at h
  by_cases c3 : n / 64 = stop / 64
  · rw [if_pos c3] at h ⊢
    by_cases a5 : ¬ n % 64 ≤ stop % 64
    · rw [if_pos a5] at h; cases h
    · rw [if_neg a5] at h
      exact (Asserted.finished.inj h).symm
  · rw [if_neg c3] at h ⊢
    exact finished_of_assert _ _ _ h

/-- Within the contract of the ranged mutators (invariants, start below the
length, `start + len` not wrapping) the only assertion of `modify_range` that can
fail is the one on the full-word loop: the call aborts exactly when the range
starts inside a word and ends inside the very next word, and otherwise finishes
with the outcome of the function without assertions. -/
theorem modify_range_asserting_spec (b : Bitset) (h : Inv b) (full : Nat → Nat)
    (part_op : Nat → Nat → Nat → Nat) (n len : Nat)
    (hn : n < b.m_num_bits) (hlen : 0 < len) (hw : n + len < 2 ^ 64) :
    b.modify_range_asserting n len full part_op =
      if n % 64 ≠ 0 ∧ (min b.m_num_bits (n + len) - 1) % 64 ≠ 63 ∧
          (min b.m_num_bits (n + len) - 1) / 64 = n / 64 + 1 then .aborted
      else .finished (b.modify_range n len full part_op) := by
  have hnb := h.bits_lt
  have hlen' := h.length_eq
  have hstop : (min b.m_num_bits ((n + len) % 2 ^ 64) + 2 ^ 64 - 1) % 2 ^ 64 =
      min b.m_num_bits (n + len) - 1 := by
    rw [Nat.mod_eq_of_lt hw]
    have : 0 < min b.m_num_bits (n + len) := by omega
    omega
  unfold Bitset.modify_range_asserting Bitset.modify_range
  simp only [word_index_eq, bit_offset_eq, msb_pos_eq, size_mod_eq, bits_per_word_eq, hstop,
    if_neg (show ¬ n ≥ b.m_num_bits by omega), if_neg (show ¬ len = 0 by omega)]
  generalize hs : min b.m_num_bits (n + len) - 1 = stop
  have hs1 : n ≤ stop := by omega
  have hs2 : stop < b.m_num_bits := by omega
  have hs3 : stop / 64 < b.m_data.length := by omega
  have hs4 : stop % 64 < 64 := Nat.mod_lt _ (by decide)
  have hle : n / 64 ≤ stop / 64 := Nat.div_le_div_right hs1
  rw [if_neg (show ¬ ¬ n ≤ stop from fun e => e hs1),
    if_neg (show ¬ ¬ stop < b.m_num_bits from fun e => e hs2),
    if_neg (show ¬ ¬ stop / 64 < b.m_data.length from fun e => e hs3),
    if_neg (show ¬ ¬ stop % 64 < 64 from fun e => e hs4)]
  by_cases hword : n / 64 = stop / 64
  · have hoff : n % 64 ≤ stop % 64 := by omega
    have hshape : ¬ (n % 64 ≠ 0 ∧ stop % 64 ≠ 63 ∧ stop / 64 = n / 64 + 1) := by omega
    simp only [if_pos hword, if_neg hshape, if_neg (show ¬ ¬ n % 64 ≤ stop % 64 from
      fun e => e hoff)]
  · simp only [if_neg hword]
    by_cases hshape : n % 64 ≠ 0 ∧ stop % 64 ≠ 63 ∧ stop / 64 = n / 64 + 1
    · have c1 : ¬ n % 64 = 0 := hshape.1
      have c2 : ¬ stop % 64 = 63 := hshape.2.1
      rw [if_pos hshape]
      simp only [if_neg c1, if_neg c2]
      rw [if_pos (show ¬ (n / 64 + 1) % 2 ^ 64 ≤ (stop / 64 + 2 ^ 64 - 1) % 2 ^ 64 by omega)]
    · rw [if_neg hshape]
      by_cases c1 : n % 64 = 0 <;> by_cases c2 : stop % 64 = 63
      · simp only [if_pos c1, if_pos c2]
        rw [if_neg (show ¬ ¬ (n / 64 + 0) % 2 ^ 64 ≤ (stop / 64 + 2 ^ 64 - 0) % 2 ^ 64 by
          omega)]
      · simp only [if_pos c1, if_neg c2]
        rw [if_neg (show ¬ ¬ (n / 64 + 0) % 2 ^ 64 ≤ (stop / 64 + 2 ^ 64 - 1) % 2 ^ 64 by
          omega)]
      · simp only [if_neg c1, if_pos c2]
        rw [if_neg (show ¬ ¬ (n / 64 + 1) % 2 ^ 64 ≤ (stop / 64 + 2 ^ 64 - 0) % 2 ^ 64 by
          omega)]
      · simp only [if_neg c1, if_neg c2]
        rw [if_neg (show ¬ ¬ (n / 64 + 1) % 2 ^ 64 ≤ (stop / 64 + 2 ^ 64 - 1) % 2 ^ 64 by
          omega)]

/-- C5 (the code diverges). The source defines no `NDEBUG`. On the 130-bit bitset
of the test `Modify range`, which satisfies the invariants, `set(4, BITS_PER_WORD)`
and, after `set()`, `reset(4, BITS_PER_WORD)` are calls the claim covers (start
below the length, no wrap, a range spanning two words), and both abort on
`assert(start_full_word_index <= stop_full_word_index)` instead of returning.
Only with assertions compiled out do they return with the words the test
expects. -/
theorem ranged_set_reset_aborts :
    Inv (Bitset.sized 130 ZEROS) ∧ Inv (Bitset.sized 130 ZEROS).set ∧
    4 < (Bitset.sized 130 ZEROS).num_bits ∧ 4 + BITS_PER_WORD < SIZE_MOD ∧
    (Bitset.sized 130 ZEROS).set_range_asserting 4 BITS_PER_WORD = .aborted ∧
    (Bitset.sized 130 ZEROS).set.reset_range_asserting 4 BITS_PER_WORD = .aborted ∧
    (Bitset.sized 130 ZEROS).set_range 4 BITS_PER_WORD =
      .returned ⟨[ONES - 15, 15, 0], 130⟩ ∧
    (Bitset.sized 130 ZEROS).set.reset_range 4 BITS_PER_WORD =
      .returned ⟨[15, ONES - 15, 3], 130⟩ := by
  decide

/-- C6 (the code diverges). The source defines no `NDEBUG`. On the all-zero 130-bit
bitset of the test `Modify range`, `flip(8, BITS_PER_WORD + 3)`, which starts
inside word 0 and ends inside word 1 with no full word between, aborts on
`assert(start_full_word_index <= stop_full_word_index)` instead of returning with
the range toggled; `flip(1, 2 * BITS_PER_WORD)` on the all-ones bitset, which has
a full word between, finishes. Only with assertions compiled out does the first
call return with the words the test expects. -/
theorem ranged_flip_aborts :
    Inv (Bitset.sized 130 ZEROS) ∧
    8 < (Bitset.sized 130 ZEROS).num_bits ∧ 8 + (BITS_PER_WORD + 3) < SIZE_MOD ∧
    (Bitset.sized 130 ZEROS).flip_range_asserting 8 (BITS_PER_WORD + 3) = .aborted ∧
    (Bitset.sized 130 ZEROS).flip_range 8 (BITS_PER_WORD + 3) =
      .returned ⟨[ONES - 255, 2047, 0], 130⟩ ∧
    (Bitset.sized 130 ZEROS).set.flip_range_asserting 1 (2 * BITS_PER_WORD) =
      .finished (.returned ⟨[1, 0, 2], 130⟩) := by
  decide

end Macchiato


namespace Macchiato

/-! ## Single-bit mutators: exactly one bit -/

/-- Common shape of `set(n)`, `reset(n)` and `flip(n)` on an index in range. -/
theorem assign_one_spec (b : Bitset) (hlen : b.m_data.length = (b.m_num_bits + 63) / 64)
    (g : Nat → Nat) (F : Bool → Bool) (n : Nat) (hn : n < b.m_num_bits)
    (hg : ∀ w k, k < 64 → (g w).testBit k = if k = n % 64 then F (w.testBit k) else w.testBit k) :
    (Bitset.test ⟨assign_word (fun _ w => g w) (Bitset.word_index n) b.m_data, b.m_num_bits⟩ n =
        .ok (F (bit_at b.m_data n))) ∧
    (∀ j, j ≠ n →
      Bitset.test ⟨assign_word (fun _ w => g w) (Bitset.word_index n) b.m_data, b.m_num_bits⟩ j =
        b.test j) ∧
    (∀ w, w ≠ n / BITS_PER_WORD →
      (assign_word (fun _ w => g w) (Bitset.word_index n) b.m_data).getD w 0 =
        b.m_data.getD w 0) := by
  have hw : n / 64 < b.m_data.length := by omega
  refine ⟨?_, ?_, ?_⟩
  · rw [test_eq, if_neg (show ¬ n ≥ b.m_num_bits by omega)]
    show Except.ok (bit_at (assign_word (fun _ w => g w) (Bitset.word_index n) b.m_data) n) = _
    rw [bit_at_assign_one g F n _ hw hg, if_pos rfl]
  · intro j hj
    rw [test_eq, test_eq]
    show (if j ≥ b.m_num_bits then Except.error Fault.out_of_range
      else Except.ok (bit_at (assign_word (fun _ w => g w) (Bitset.word_index n) b.m_data) j)) = _
    rw [bit_at_assign_one g F n _ hw hg, if_neg hj]
  · intro w hne
    have hne' : ¬ (w = n / 64 ∧ w < b.m_data.length) := fun e => hne e.1
    rw [getD_assign_word, word_index_eq, if_neg hne']

/-- C11. Single-bit mutation touches exactly one bit: for a bitset with
`ceil(num_bits() / BITS_PER_WORD)` words (storage invariant 1, without which word
`i / BITS_PER_WORD` need not exist) and `i < num_bits()`, `set(i)`, `reset(i)` and
`flip(i)` return; afterwards `test(i)` is true, false, and the negation of its old
value respectively; `test(j)` for every `j != i`, every word other than word
`i / BITS_PER_WORD`, the number of words and `num_bits()` are unchanged. -/
theorem single_bit_mutation (b : Bitset) (h : word_count_ok b) (i : Nat)
    (hi : i < b.num_bits) :
    (∃ s, b.set_bit i = .returned s ∧ s.num_bits = b.num_bits ∧ s.num_words = b.num_words ∧
      s.test i = .ok true ∧ (∀ j, j ≠ i → s.test j = b.test j) ∧
      (∀ w, w ≠ i / BITS_PER_WORD → s.m_data.getD w 0 = b.m_data.getD w 0)) ∧
    (∃ s, b.reset_bit i = .returned s ∧ s.num_bits = b.num_bits ∧ s.num_words = b.num_words ∧
      s.test i = .ok false ∧ (∀ j, j ≠ i → s.test j = b.test j) ∧
      (∀ w, w ≠ i / BITS_PER_WORD → s.m_data.getD w 0 = b.m_data.getD w 0)) ∧
    (∃ s, b.flip_bit i = .returned s ∧ s.num_bits = b.num_bits ∧ s.num_words = b.num_words ∧
      (∃ v, b.test i = .ok v ∧ s.test i = .ok (!v)) ∧ (∀ j, j ≠ i → s.test j = b.test j) ∧
      (∀ w, w ≠ i / BITS_PER_WORD → s.m_data.getD w 0 = b.m_data.getD w 0)) := by
  have hi' : i < b.m_num_bits := hi
  have hge : ¬ i ≥ b.m_num_bits := by omega
  refine ⟨?_, ?_, ?_⟩
  · obtain ⟨h1, h2, h3⟩ := assign_one_spec b h _ (fun _ => true) i hi' (set_bit_word i)
    refine ⟨⟨assign_word (fun _ w => w ||| Bitset.one_hot_mask (Bitset.bit_offset i))
      (Bitset.word_index i) b.m_data, b.m_num_bits⟩, ?_, rfl,
      (by unfold Bitset.num_words; dsimp only; exact length_assign_word _ _ _),
      h1, h2, h3⟩
    unfold Bitset.set_bit
    rw [if_neg hge]
  · obtain ⟨h1, h2, h3⟩ := assign_one_spec b h _ (fun _ => false) i hi' (reset_bit_word i)
    refine ⟨⟨assign_word (fun _ w => w &&& wnot (Bitset.one_hot_mask (Bitset.bit_offset i)))
      (Bitset.word_index i) b.m_data, b.m_num_bits⟩, ?_, rfl,
      (by unfold Bitset.num_words; dsimp only; exact length_assign_word _ _ _),
      h1, h2, h3⟩
    unfold Bitset.reset_bit
    rw [if_neg hge]
  · obtain ⟨h1, h2, h3⟩ := assign_one_spec b h _ (fun x => !x) i hi' (flip_bit_word i)
    refine ⟨⟨assign_word (fun _ w => w ^^^ Bitset.one_hot_mask (Bitset.bit_offset i))
      (Bitset.word_index i) b.m_data, b.m_num_bits⟩, ?_, rfl,
      (by unfold Bitset.num_words; dsimp only; exact length_assign_word _ _ _),
      ⟨bit_at b.m_data i, test_of_lt b i hi', h1⟩, h2, h3⟩
    unfold Bitset.flip_bit
    rw [if_neg hge]

theorem single_bit_mutation_witness :
    word_count_ok (Bitset.sized 68 ONES) ∧ 67 < (Bitset.sized 68 ONES).num_bits ∧
    ((∃ s, (Bitset.sized 68 ONES).set_bit 67 = .returned s ∧
        s.num_bits = (Bitset.sized 68 ONES).num_bits ∧
        s.num_words = (Bitset.sized 68 ONES).num_words ∧
        s.test 67 = .ok true ∧ (∀ j, j ≠ 67 → s.test j = (Bitset.sized 68 ONES).test j) ∧
        (∀ w, w ≠ 67 / BITS_PER_WORD →
          s.m_data.getD w 0 = (Bitset.sized 68 ONES).m_data.getD w 0)) ∧
      (∃ s, (Bitset.sized 68 ONES).reset_bit 67 = .returned s ∧
        s.num_bits = (Bitset.sized 68 ONES).num_bits ∧
        s.num_words = (Bitset.sized 68 ONES).num_words ∧
        s.test 67 = .ok false ∧ (∀ j, j ≠ 67 → s.test j = (Bitset.sized 68 ONES).test j) ∧
        (∀ w, w ≠ 67 / BITS_PER_WORD →
          s.m_data.getD w 0 = (Bitset.sized 68 ONES).m_data.getD w 0)) ∧
      (∃ s, (Bitset.sized 68 ONES).flip_bit 67 = .returned s ∧
        s.num_bits = (Bitset.sized 68 ONES).num_bits ∧
        s.num_words = (Bitset.sized 68 ONES).num_words ∧
        (∃ v, (Bitset.sized 68 ONES).test 67 = .ok v ∧ s.test 67 = .ok (!v)) ∧
        (∀ j, j ≠ 67 → s.test j = (Bitset.sized 68 ONES).test j) ∧
        (∀ w, w ≠ 67 / BITS_PER_WORD →
          s.m_data.getD w 0 = (Bitset.sized 68 ONES).m_data.getD w 0))) :=
  ⟨by decide, by decide, single_bit_mutation (Bitset.sized 68 ONES) (by decide) 67 (by decide)⟩

/-! ## Strict width policy: mismatching lengths -/

theorem apply_boolean_op_mismatch (a b : Bitset) (op : Nat → Nat → Nat)
    (h : a.num_bits ≠ b.num_bits) :
    Bitset.apply_boolean_op .SAME_SIZE_ONLY a b op = .threw .invalid_argument a := by
  unfold Bitset.apply_boolean_op
  simp only
  rw [if_pos h]

/-- C12. Under the strict width policy, for operands of different lengths each of
`==`, `!=`, `&=`, `|=`, `^=`, `nand`, `nor`, `xnor` and the value-returning `&`, `|`,
`^` throws `std::invalid_argument` (WidthMismatch), and a mutator that throws
leaves the receiver with exactly its previous words and length. -/
theorem strict_width_mismatch (a b : Bitset) (h : a.num_bits ≠ b.num_bits) :
    a.op_eq .SAME_SIZE_ONLY b = .error .invalid_argument ∧
    a.op_ne .SAME_SIZE_ONLY b = .error .invalid_argument ∧
    a.and_assign .SAME_SIZE_ONLY b = .threw .invalid_argument a ∧
    a.or_assign .SAME_SIZE_ONLY b = .threw .invalid_argument a ∧
    a.xor_assign .SAME_SIZE_ONLY b = .threw .invalid_argument a ∧
    a.nand .SAME_SIZE_ONLY b = .threw .invalid_argument a ∧
    a.nor .SAME_SIZE_ONLY b = .threw .invalid_argument a ∧
    a.xnor .SAME_SIZE_ONLY b = .threw .invalid_argument a ∧
    Bitset.op_and .SAME_SIZE_ONLY a b = .error .invalid_argument ∧
    Bitset.op_or .SAME_SIZE_ONLY a b = .error .invalid_argument ∧
    Bitset.op_xor .SAME_SIZE_ONLY a b = .error .invalid_argument := by
  have hne : a.op_ne .SAME_SIZE_ONLY b = .error .invalid_argument := by
    unfold Bitset.op_ne
    simp only
    rw [if_pos h]
  have hsym : b.num_bits ≠ a.num_bits := fun e => h e.symm
  refine ⟨?_, hne, apply_boolean_op_mismatch a b _ h, apply_boolean_op_mismatch a b _ h,
    apply_boolean_op_mismatch a b _ h, apply_boolean_op_mismatch a b _ h,
    apply_boolean_op_mismatch a b _ h, apply_boolean_op_mismatch a b _ h, ?_, ?_, ?_⟩
  · unfold Bitset.op_eq
    rw [hne]
  · unfold Bitset.op_and Bitset.and_assign
    dsimp only
    split
    · rw [apply_boolean_op_mismatch a b _ h]; rfl
    · rw [apply_boolean_op_mismatch b a _ hsym]; rfl
  · unfold Bitset.op_or Bitset.or_assign
    dsimp only
    split
    · rw [apply_boolean_op_mismatch a b _ h]; rfl
    · rw [apply_boolean_op_mismatch b a _ hsym]; rfl
  · unfold Bitset.op_xor Bitset.xor_assign
    dsimp only
    split
    · rw [apply_boolean_op_mismatch a b _ h]; rfl
    · rw [apply_boolean_op_mismatch b a _ hsym]; rfl

theorem strict_width_mismatch_witness :
    (Bitset.sized 2 0).num_bits ≠ (Bitset.sized 1 0).num_bits ∧
    ((Bitset.sized 2 0).op_eq .SAME_SIZE_ONLY (Bitset.sized 1 0) = .error .invalid_argument ∧
    (Bitset.sized 2 0).op_ne .SAME_SIZE_ONLY (Bitset.sized 1 0) = .error .invalid_argument ∧
    (Bitset.sized 2 0).and_assign .SAME_SIZE_ONLY (Bitset.sized 1 0) =
      .threw .invalid_argument (Bitset.sized 2 0) ∧
    (Bitset.sized 2 0).or_assign .SAME_SIZE_ONLY (Bitset.sized 1 0) =
      .threw .invalid_argument (Bitset.sized 2 0) ∧
    (Bitset.sized 2 0).xor_assign .SAME_SIZE_ONLY (Bitset.sized 1 0) =
      .threw .invalid_argument (Bitset.sized 2 0) ∧
    (Bitset.sized 2 0).nand .SAME_SIZE_ONLY (Bitset.sized 1 0) =
      .threw .invalid_argument (Bitset.sized 2 0) ∧
    (Bitset.sized 2 0).nor .SAME_SIZE_ONLY (Bitset.sized 1 0) =
      .threw .invalid_argument (Bitset.sized 2 0) ∧
    (Bitset.sized 2 0).xnor .SAME_SIZE_ONLY (Bitset.sized 1 0) =
      .threw .invalid_argument (Bitset.sized 2 0) ∧
    Bitset.op_and .SAME_SIZE_ONLY (Bitset.sized 2 0) (Bitset.sized 1 0) =
      .error .invalid_argument ∧
    Bitset.op_or .SAME_SIZE_ONLY (Bitset.sized 2 0) (Bitset.sized 1 0) =
      .error .invalid_argument ∧
    Bitset.op_xor .SAME_SIZE_ONLY (Bitset.sized 2 0) (Bitset.sized 1 0) =
      .error .invalid_argument) :=
  ⟨by decide, strict_width_mismatch (Bitset.sized 2 0) (Bitset.sized 1 0) (by decide)⟩

end Macchiato


namespace Macchiato

/-! ## Boolean combination, bit by bit -/

theorem bit_ext_eq (b : Bitset) (h : Inv b) (i : Nat) : b.bit_ext i = bit_at b.m_data i := by
  unfold Bitset.bit_ext
  rw [test_eq]
  by_cases hge : i ≥ b.m_num_bits
  · rw [if_pos hge]
    exact (h.bit_zero i hge).symm
  · rw [if_neg hge]

theorem bit_at_of_word_le (d : List Nat) (i : Nat) (h : d.length ≤ i / 64) :
    bit_at d i = false := bit_at_of_le d i (by omega)

/-- The words the promotion branch of `apply_boolean_op` leaves before the unused
bits of the last word are masked. -/
theorem promoted_words (a o : Bitset) (op : Nat → Nat → Nat) :
    ∃ D, Bitset.apply_boolean_op .UNSIGNED_PROMOTION a o op =
        .returned (Bitset.zero_unused_bits_in_msw ⟨D, max a.m_num_bits o.m_num_bits⟩) ∧
      D.length = max a.m_data.length o.m_data.length ∧
      ∀ j, D.getD j 0 =
        if j < min a.m_data.length o.m_data.length then
          op (a.m_data.getD j 0) (o.m_data.getD j 0)
        else if j < a.m_data.length then op (a.m_data.getD j 0) ZEROS
        else if j < o.m_data.length then op (o.m_data.getD j 0) ZEROS
        else 0 := by
  unfold Bitset.apply_boolean_op
  simp only [Bitset.num_words]
  refine ⟨_, rfl, ?_, ?_⟩
  · split
    · rw [length_for_range_assign, length_for_range_assign]; omega
    · split
      · rw [length_for_range_push (fun i => op (o.m_data.getD i 0) ZEROS),
          length_for_range_assign]
        omega
      · rw [length_for_range_assign]; omega
  · intro j
    split
    · rename_i hgt
      rw [getD_for_range_assign, length_for_range_assign, getD_for_range_assign]
      split_ifs <;> first | rfl | omega | (rw [getD_of_le _ _ (by omega)])
    · split
      · rename_i hle hlt
        rw [getD_for_range_push (fun i => op (o.m_data.getD i 0) ZEROS),
          length_for_range_assign, getD_for_range_assign]
        have e : min a.m_data.length o.m_data.length + (j - a.m_data.length) =
            j - a.m_data.length + a.m_data.length := by omega
        split_ifs <;> first | rfl | omega | (rw [getD_of_le _ _ (by omega)]) |
          (rw [e, Nat.sub_add_cancel (by omega)])
      · rename_i hle hge
        rw [getD_for_range_assign]
        split_ifs <;> first | rfl | omega | (rw [getD_of_le _ _ (by omega)])

/-- The bits of `a` after a promoted boolean combination with `o`. -/
theorem promoted_spec (a o : Bitset) (ha : Inv a) (ho : Inv o) (op : Nat → Nat → Nat)
    (F : Bool → Bool → Bool)
    (hop : ∀ x y, x < 2 ^ 64 → y < 2 ^ 64 → op x y < 2 ^ 64)
    (hF : ∀ x y k, x < 2 ^ 64 → y < 2 ^ 64 → k < 64 →
      (op x y).testBit k = F (x.testBit k) (y.testBit k))
    (hcomm : ∀ x, F x false = F false x) :
    ∃ s, Bitset.apply_boolean_op .UNSIGNED_PROMOTION a o op = .returned s ∧
      s.m_num_bits = max a.m_num_bits o.m_num_bits ∧
      s.m_data.length = max a.m_data.length o.m_data.length ∧ Inv s ∧
      ∀ i, bit_at s.m_data i =
        (decide (i < max a.m_num_bits o.m_num_bits) &&
          F (bit_at a.m_data i) (bit_at o.m_data i)) := by
  obtain ⟨D, hD, hlen, hget⟩ := promoted_words a o op
  have hinv := apply_boolean_op_inv .UNSIGNED_PROMOTION a o ha ho op hop
  rw [hD] at hinv
  have halen := ha.length_eq
  have holen := ho.length_eq
  have hz : ZEROS < 2 ^ 64 := by decide
  have hDlen : D.length = (max a.m_num_bits o.m_num_bits + 63) / 64 := by omega
  refine ⟨_, hD, zu_num_bits _, ?_, hinv, ?_⟩
  · rw [zu_length]; exact hlen
  · intro i
    rw [zu_bit _ hDlen]
    show (bit_at D i && decide (i < max a.m_num_bits o.m_num_bits)) = _
    by_cases hi : i < max a.m_num_bits o.m_num_bits
    · have hm : i % 64 < 64 := Nat.mod_lt _ (by decide)
      have hzb : ∀ k, ZEROS.testBit k = false := fun k => by simp [ZEROS]
      rw [bit_at_eq, hget]
      simp only [hi, decide_True, Bool.and_true, Bool.true_and]
      by_cases c1 : i / 64 < min a.m_data.length o.m_data.length
      · rw [if_pos c1, hF _ _ _ (ha.words _) (ho.words _) hm, bit_at_eq, bit_at_eq]
      · rw [if_neg c1]
        by_cases c2 : i / 64 < a.m_data.length
        · rw [if_pos c2, hF _ _ _ (ha.words _) hz hm, hzb,
            bit_at_of_word_le o.m_data i (by omega), bit_at_eq]
        · rw [if_neg c2, if_pos (show i / 64 < o.m_data.length by omega),
            hF _ _ _ (ho.words _) hz hm, hzb, bit_at_of_word_le a.m_data i (by omega), hcomm,
            bit_at_eq]
    · simp [hi]

/-- The bits of `a` after a strict boolean combination with `o` of the same length. -/
theorem strict_spec (a o : Bitset) (ha : Inv a) (ho : Inv o)
    (hn : a.m_num_bits = o.m_num_bits) (op : Nat → Nat → Nat) (F : Bool → Bool → Bool)
    (hop : ∀ x y, x < 2 ^ 64 → y < 2 ^ 64 → op x y < 2 ^ 64)
    (hF : ∀ x y k, x < 2 ^ 64 → y < 2 ^ 64 → k < 64 →
      (op x y).testBit k = F (x.testBit k) (y.testBit k)) :
    ∃ s, Bitset.apply_boolean_op .SAME_SIZE_ONLY a o op = .returned s ∧
      s.m_num_bits = a.m_num_bits ∧ s.m_data.length = a.m_data.length ∧ Inv s ∧
      ∀ i, bit_at s.m_data i =
        (decide (i < a.m_num_bits) && F (bit_at a.m_data i) (bit_at o.m_data i)) := by
  have hinv := apply_boolean_op_inv .SAME_SIZE_ONLY a o ha ho op hop
  have halen := ha.length_eq
  have hs : Bitset.apply_boolean_op .SAME_SIZE_ONLY a o op =
      .returned (Bitset.zero_unused_bits_in_msw
        ⟨for_range (assign_word (fun i w => op w (o.m_data.getD i 0))) a.m_data.length 0
          a.m_data, a.m_num_bits⟩) := by
    unfold Bitset.apply_boolean_op
    simp only [Bitset.num_words, Bitset.num_bits]
    rw [if_neg (not_not.mpr hn)]
  rw [hs] at hinv
  refine ⟨_, hs, zu_num_bits _, ?_, hinv, ?_⟩
  · rw [zu_length]; exact length_for_range_assign _ _ _ _
  · intro i
    rw [zu_bit _ (by rw [length_for_range_assign]; exact halen)]
    show (bit_at (for_range _ a.m_data.length 0 a.m_data) i && decide (i < a.m_num_bits)) = _
    by_cases hi : i < a.m_num_bits
    · have hm : i % 64 < 64 := Nat.mod_lt _ (by decide)
      rw [bit_at_eq, getD_for_range_assign,
        if_pos (show 0 ≤ i / 64 ∧ i / 64 < 0 + a.m_data.length ∧ i / 64 < a.m_data.length by
          omega),
        hF _ _ _ (ha.words _) (ho.words _) hm, bit_at_eq, bit_at_eq]
      simp [hi]
    · simp [hi]

/-! ### The six word operations -/

theorem and_bit (x y k : Nat) (_ : x < 2 ^ 64) (_ : y < 2 ^ 64) (_ : k < 64) :
    (x &&& y).testBit k = (fun p q => p && q) (x.testBit k) (y.testBit k) :=
  Nat.testBit_and x y k

theorem or_bit (x y k : Nat) (_ : x < 2 ^ 64) (_ : y < 2 ^ 64) (_ : k < 64) :
    (x ||| y).testBit k = (fun p q => p || q) (x.testBit k) (y.testBit k) :=
  Nat.testBit_or x y k

theorem xor_bit (x y k : Nat) (_ : x < 2 ^ 64) (_ : y < 2 ^ 64) (_ : k < 64) :
    (x ^^^ y).testBit k = (fun p q => xor p q) (x.testBit k) (y.testBit k) :=
  Nat.testBit_xor x y k

theorem nand_bit (x y k : Nat) (hx : x < 2 ^ 64) (hy : y < 2 ^ 64) (hk : k < 64) :
    (wnot (x &&& y)).testBit k = (fun p q => !(p && q)) (x.testBit k) (y.testBit k) := by
  rw [testBit_wnot _ _ (and_word_lt x y hx hy), Nat.testBit_and]
  simp [hk]

theorem nor_bit (x y k : Nat) (hx : x < 2 ^ 64) (hy : y < 2 ^ 64) (hk : k < 64) :
    (wnot (x ||| y)).testBit k = (fun p q => !(p || q)) (x.testBit k) (y.testBit k) := by
  rw [testBit_wnot _ _ (Nat.or_lt_two_pow hx hy), Nat.testBit_or]
  simp [hk]

theorem xnor_bit (x y k : Nat) (hx : x < 2 ^ 64) (hy : y < 2 ^ 64) (hk : k < 64) :
    (wnot (x ^^^ y)).testBit k = (fun p q => !(xor p q)) (x.testBit k) (y.testBit k) := by
  rw [testBit_wnot _ _ (Nat.xor_lt_two_pow hx hy), Nat.testBit_xor]
  simp [hk]

theorem nand_word_lt (x y : Nat) (hx : x < 2 ^ 64) (hy : y < 2 ^ 64) :
    wnot (x &&& y) < 2 ^ 64 := wnot_lt _ (and_word_lt x y hx hy)

theorem nor_word_lt (x y : Nat) (hx : x < 2 ^ 64) (hy : y < 2 ^ 64) :
    wnot (x ||| y) < 2 ^ 64 := wnot_lt _ (Nat.or_lt_two_pow hx hy)

theorem xnor_word_lt (x y : Nat) (hx : x < 2 ^ 64) (hy : y < 2 ^ 64) :
    wnot (x ^^^ y) < 2 ^ 64 := wnot_lt _ (Nat.xor_lt_two_pow hx hy)

theorem or_word_lt (x y : Nat) (hx : x < 2 ^ 64) (hy : y < 2 ^ 64) : x ||| y < 2 ^ 64 :=
  Nat.or_lt_two_pow hx hy

theorem xor_word_lt (x y : Nat) (hx : x < 2 ^ 64) (hy : y < 2 ^ 64) : x ^^^ y < 2 ^ 64 :=
  Nat.xor_lt_two_pow hx hy

end Macchiato


namespace Macchiato

/-! ## Whole-bitset mutators, bit by bit -/

/-- Bitsets that satisfy the invariants and have the same length and bits are equal. -/
theorem bitset_ext (x y : Bitset) (hx : Inv x) (hy : Inv y) (hn : x.m_num_bits = y.m_num_bits)
    (hb : ∀ i, bit_at x.m_data i = bit_at y.m_data i) : x = y := by
  have hd : x.m_data = y.m_data := by
    apply data_ext _ _ hx.words hy.words _ hb
    rw [hx.length_eq, hy.length_eq, hn]
  cases x
  cases y
  simp only at hn hd
  simp [hn, hd]

theorem set_num_bits (b : Bitset) : b.set.m_num_bits = b.m_num_bits := zu_num_bits _

theorem reset_num_bits (b : Bitset) : b.reset.m_num_bits = b.m_num_bits := rfl

theorem inplace_not_num_bits (b : Bitset) : b.inplace_not.m_num_bits = b.m_num_bits :=
  zu_num_bits _

theorem set_length (b : Bitset) : b.set.m_data.length = b.m_data.length := by
  unfold Bitset.set
  rw [zu_length]
  exact List.length_map _ _

theorem reset_length (b : Bitset) : b.reset.m_data.length = b.m_data.length := by
  unfold Bitset.reset
  exact List.length_map _ _

theorem inplace_not_length (b : Bitset) : b.inplace_not.m_data.length = b.m_data.length := by
  unfold Bitset.inplace_not
  rw [zu_length]
  exact List.length_map _ _

theorem set_bits (b : Bitset) (h : Inv b) (i : Nat) :
    bit_at b.set.m_data i = decide (i < b.m_num_bits) := by
  have hlen := h.length_eq
  unfold Bitset.set
  rw [zu_bit _ (by rw [List.length_map]; exact hlen)]
  show (bit_at (b.m_data.map (fun _ => ONES)) i && decide (i < b.m_num_bits)) = _
  by_cases hi : i < b.m_num_bits
  · have hm : i % 64 < 64 := Nat.mod_lt _ (by decide)
    rw [bit_at_eq, getD_map_word, if_pos (show i / 64 < b.m_data.length by omega), testBit_ones]
    simp [hi, hm]
  · simp [hi]

theorem reset_bits (b : Bitset) (i : Nat) : bit_at b.reset.m_data i = false := by
  unfold Bitset.reset
  rw [bit_at_eq]
  show ((b.m_data.map (fun _ => ZEROS)).getD (i / 64) 0).testBit (i % 64) = false
  rw [getD_map_word]
  split <;> simp [ZEROS]

theorem inplace_not_bits (b : Bitset) (h : Inv b) (i : Nat) :
    bit_at b.inplace_not.m_data i = (decide (i < b.m_num_bits) && !bit_at b.m_data i) := by
  have hlen := h.length_eq
  unfold Bitset.inplace_not
  rw [zu_bit _ (by rw [List.length_map]; exact hlen)]
  show (bit_at (b.m_data.map wnot) i && decide (i < b.m_num_bits)) = _
  by_cases hi : i < b.m_num_bits
  · have hm : i % 64 < 64 := Nat.mod_lt _ (by decide)
    rw [bit_at_eq, getD_map_word, if_pos (show i / 64 < b.m_data.length by omega),
      testBit_wnot _ _ (h.words _), bit_at_eq]
    simp [hi, hm]
  · simp [hi]

/-- C19. For a bitset satisfying the invariants, `flip()` applied twice restores
exactly the original words and length, `set()` applied twice gives the state of
`set()` applied once, and likewise `reset()`. -/
theorem whole_ops_idempotence (b : Bitset) (h : Inv b) :
    b.flip.flip = b ∧ b.set.set = b.set ∧ b.reset.reset = b.reset := by
  refine ⟨?_, ?_, ?_⟩
  · have h1 : Inv b.inplace_not := inplace_not_inv b h
    apply bitset_ext _ _ (inplace_not_inv _ h1) h
    · show b.inplace_not.inplace_not.m_num_bits = b.m_num_bits
      rw [inplace_not_num_bits, inplace_not_num_bits]
    · intro i
      show bit_at b.inplace_not.inplace_not.m_data i = bit_at b.m_data i
      rw [inplace_not_bits _ h1, inplace_not_bits _ h, inplace_not_num_bits]
      by_cases hi : i < b.m_num_bits
      · simp [hi]
      · simp [hi, h.bit_zero i (by omega)]
  · have h1 : Inv b.set := set_inv b h
    apply bitset_ext _ _ (set_inv _ h1) h1
    · rw [set_num_bits]
    · intro i
      rw [set_bits _ h1, set_bits _ h, set_num_bits]
  · have h1 : Inv b.reset := reset_inv b h
    apply bitset_ext _ _ (reset_inv _ h1) h1
    · rw [reset_num_bits]
    · intro i
      rw [reset_bits, reset_bits]

theorem whole_ops_idempotence_witness :
    Inv (Bitset.sized 70 5) ∧
      ((Bitset.sized 70 5).flip.flip = Bitset.sized 70 5 ∧
        (Bitset.sized 70 5).set.set = (Bitset.sized 70 5).set ∧
        (Bitset.sized 70 5).reset.reset = (Bitset.sized 70 5).reset) :=
  ⟨by decide, whole_ops_idempotence (Bitset.sized 70 5) (by decide)⟩

/-- C20. Whole-bitset operations on a bitset satisfying the invariants: after
`set()` every bit in `[0, num_bits())` is 1, `count() == num_bits()` and `all()`
holds when the bitset is non-empty; after `reset()` every bit is 0 and `none()`
holds; after `flip()` and after `inplace_not()` every bit in `[0, num_bits())` is
the negation of its old value; the length is unchanged in each case. -/
theorem whole_ops (b : Bitset) (h : Inv b) :
    (b.set.num_bits = b.num_bits ∧ (∀ i, i < b.num_bits → b.set.test i = .ok true) ∧
      b.set.count = b.num_bits ∧ (0 < b.num_bits → b.set.all = true)) ∧
    (b.reset.num_bits = b.num_bits ∧ (∀ i, i < b.num_bits → b.reset.test i = .ok false) ∧
      b.reset.none = true) ∧
    (b.flip.num_bits = b.num_bits ∧
      ∀ i, i < b.num_bits → ∃ v, b.test i = .ok v ∧ b.flip.test i = .ok (!v)) ∧
    (b.inplace_not.num_bits = b.num_bits ∧
      ∀ i, i < b.num_bits → ∃ v, b.test i = .ok v ∧ b.inplace_not.test i = .ok (!v)) := by
  have hset : Inv b.set := set_inv b h
  have hreset : Inv b.reset := reset_inv b h
  have hsb : ∀ i, i < b.set.m_num_bits → bit_at b.set.m_data i = true := by
    intro i hi
    rw [set_num_bits] at hi
    rw [set_bits b h]
    simp [hi]
  have hnot : b.inplace_not.num_bits = b.num_bits ∧
      ∀ i, i < b.num_bits → ∃ v, b.test i = .ok v ∧ b.inplace_not.test i = .ok (!v) := by
    refine ⟨inplace_not_num_bits b, fun i hi => ⟨bit_at b.m_data i, test_of_lt b i hi, ?_⟩⟩
    have hi' : i < b.m_num_bits := hi
    rw [test_of_lt _ i (by rw [inplace_not_num_bits]; exact hi'), inplace_not_bits b h]
    simp [hi']
  refine ⟨⟨set_num_bits b, ?_, ?_, ?_⟩, ⟨reset_num_bits b, ?_, ?_⟩, hnot, hnot⟩
  · intro i hi
    have hi' : i < b.set.m_num_bits := by rw [set_num_bits]; exact hi
    rw [test_of_lt _ i hi', hsb i hi']
  · show b.set.count = b.m_num_bits
    rw [← set_num_bits b]
    exact (count_eq_num_bits_iff _ hset).mpr hsb
  · intro hpos
    have hpos' : 0 < b.m_num_bits := hpos
    exact (all_iff_bits _ hset).mpr ⟨by rw [set_num_bits]; omega, hsb⟩
  · intro i hi
    have hi' : i < b.reset.m_num_bits := hi
    rw [test_of_lt _ i hi', reset_bits]
  · rw [none_iff_words, words_zero_iff_bits _ hreset]
    exact reset_bits b

theorem whole_ops_witness :
    Inv (Bitset.sized 70 5) ∧
    (((Bitset.sized 70 5).set.num_bits = (Bitset.sized 70 5).num_bits ∧
      (∀ i, i < (Bitset.sized 70 5).num_bits → (Bitset.sized 70 5).set.test i = .ok true) ∧
      (Bitset.sized 70 5).set.count = (Bitset.sized 70 5).num_bits ∧
      (0 < (Bitset.sized 70 5).num_bits → (Bitset.sized 70 5).set.all = true)) ∧
    ((Bitset.sized 70 5).reset.num_bits = (Bitset.sized 70 5).num_bits ∧
      (∀ i, i < (Bitset.sized 70 5).num_bits → (Bitset.sized 70 5).reset.test i = .ok false) ∧
      (Bitset.sized 70 5).reset.none = true) ∧
    ((Bitset.sized 70 5).flip.num_bits = (Bitset.sized 70 5).num_bits ∧
      ∀ i, i < (Bitset.sized 70 5).num_bits →
        ∃ v, (Bitset.sized 70 5).test i = .ok v ∧ (Bitset.sized 70 5).flip.test i = .ok (!v)) ∧
    ((Bitset.sized 70 5).inplace_not.num_bits = (Bitset.sized 70 5).num_bits ∧
      ∀ i, i < (Bitset.sized 70 5).num_bits →
        ∃ v, (Bitset.sized 70 5).test i = .ok v ∧
          (Bitset.sized 70 5).inplace_not.test i = .ok (!v))) :=
  ⟨by decide, whole_ops (Bitset.sized 70 5) (by decide)⟩

end Macchiato


namespace Macchiato

/-! ## The width policies: what the in-place operators compute -/

theorem promoted_returns (a o : Bitset) (ha : Inv a) (ho : Inv o) (op : Nat → Nat → Nat)
    (F : Bool → Bool → Bool)
    (hop : ∀ x y, x < 2 ^ 64 → y < 2 ^ 64 → op x y < 2 ^ 64)
    (hF : ∀ x y k, x < 2 ^ 64 → y < 2 ^ 64 → k < 64 →
      (op x y).testBit k = F (x.testBit k) (y.testBit k))
    (hcomm : ∀ x, F x false = F false x) :
    returns_bitwise (Bitset.apply_boolean_op .UNSIGNED_PROMOTION a o op)
      (max a.num_bits o.num_bits) (max a.num_words o.num_words) F a o := by
  obtain ⟨s, hs, hnb, hlen, _, hbit⟩ := promoted_spec a o ha ho op F hop hF hcomm
  refine ⟨s, hs, hnb, hlen, fun i hi => ?_⟩
  have hi' : i < max a.m_num_bits o.m_num_bits := hi
  rw [test_of_lt s i (by rw [hnb]; exact hi'), hbit, bit_ext_eq a ha, bit_ext_eq o ho]
  simp [hi']

theorem strict_returns (a o : Bitset) (ha : Inv a) (ho : Inv o)
    (hn : a.num_bits = o.num_bits) (op : Nat → Nat → Nat) (F : Bool → Bool → Bool)
    (hop : ∀ x y, x < 2 ^ 64 → y < 2 ^ 64 → op x y < 2 ^ 64)
    (hF : ∀ x y k, x < 2 ^ 64 → y < 2 ^ 64 → k < 64 →
      (op x y).testBit k = F (x.testBit k) (y.testBit k)) :
    returns_bitwise (Bitset.apply_boolean_op .SAME_SIZE_ONLY a o op)
      a.num_bits a.num_words F a o := by
  obtain ⟨s, hs, hnb, hlen, _, hbit⟩ := strict_spec a o ha ho hn op F hop hF
  refine ⟨s, hs, hnb, hlen, fun i hi => ?_⟩
  have hi' : i < a.m_num_bits := hi
  rw [test_of_lt s i (by rw [hnb]; exact hi'), hbit, bit_ext_eq a ha, bit_ext_eq o ho]
  simp [hi']

/-- C13. Under the strict width policy, for operands `a` and `b` of equal length
`n` satisfying the invariants, each of `&=`, `|=`, `^=`, `nand`, `nor`, `xnor`
returns with length `n` (and the same number of words) and bit `i` of `a`, for
every `i < n`, equal to and, or, xor, not-and, not-or, not-xor of the old bit `i`
of `a` and bit `i` of `b`. The operand `b` is a constant argument. -/
theorem strict_boolean_ops (a b : Bitset) (ha : Inv a) (hb : Inv b)
    (hn : a.num_bits = b.num_bits) :
    returns_bitwise (a.and_assign .SAME_SIZE_ONLY b) a.num_bits a.num_words
      (fun p q => p && q) a b ∧
    returns_bitwise (a.or_assign .SAME_SIZE_ONLY b) a.num_bits a.num_words
      (fun p q => p || q) a b ∧
    returns_bitwise (a.xor_assign .SAME_SIZE_ONLY b) a.num_bits a.num_words
      (fun p q => xor p q) a b ∧
    returns_bitwise (a.nand .SAME_SIZE_ONLY b) a.num_bits a.num_words
      (fun p q => !(p && q)) a b ∧
    returns_bitwise (a.nor .SAME_SIZE_ONLY b) a.num_bits a.num_words
      (fun p q => !(p || q)) a b ∧
    returns_bitwise (a.xnor .SAME_SIZE_ONLY b) a.num_bits a.num_words
      (fun p q => !(xor p q)) a b :=
  ⟨strict_returns a b ha hb hn _ _ and_word_lt and_bit,
    strict_returns a b ha hb hn _ _ or_word_lt or_bit,
    strict_returns a b ha hb hn _ _ xor_word_lt xor_bit,
    strict_returns a b ha hb hn _ _ nand_word_lt nand_bit,
    strict_returns a b ha hb hn _ _ nor_word_lt nor_bit,
    strict_returns a b ha hb hn _ _ xnor_word_lt xnor_bit⟩

theorem strict_boolean_ops_witness :
    Inv (Bitset.sized 70 5) ∧ Inv (Bitset.sized 70 ONES) ∧
    (Bitset.sized 70 5).num_bits = (Bitset.sized 70 ONES).num_bits ∧
    (returns_bitwise ((Bitset.sized 70 5).and_assign .SAME_SIZE_ONLY (Bitset.sized 70 ONES))
      (Bitset.sized 70 5).num_bits (Bitset.sized 70 5).num_words
      (fun p q => p && q) (Bitset.sized 70 5) (Bitset.sized 70 ONES) ∧
    returns_bitwise ((Bitset.sized 70 5).or_assign .SAME_SIZE_ONLY (Bitset.sized 70 ONES))
      (Bitset.sized 70 5).num_bits (Bitset.sized 70 5).num_words
      (fun p q => p || q) (Bitset.sized 70 5) (Bitset.sized 70 ONES) ∧
    returns_bitwise ((Bitset.sized 70 5).xor_assign .SAME_SIZE_ONLY (Bitset.sized 70 ONES))
      (Bitset.sized 70 5).num_bits (Bitset.sized 70 5).num_words
      (fun p q => xor p q) (Bitset.sized 70 5) (Bitset.sized 70 ONES) ∧
    returns_bitwise ((Bitset.sized 70 5).nand .SAME_SIZE_ONLY (Bitset.sized 70 ONES))
      (Bitset.sized 70 5).num_bits (Bitset.sized 70 5).num_words
      (fun p q => !(p && q)) (Bitset.sized 70 5) (Bitset.sized 70 ONES) ∧
    returns_bitwise ((Bitset.sized 70 5).nor .SAME_SIZE_ONLY (Bitset.sized 70 ONES))
      (Bitset.sized 70 5).num_bits (Bitset.sized 70 5).num_words
      (fun p q => !(p || q)) (Bitset.sized 70 5) (Bitset.sized 70 ONES) ∧
    returns_bitwise ((Bitset.sized 70 5).xnor .SAME_SIZE_ONLY (Bitset.sized 70 ONES))
      (Bitset.sized 70 5).num_bits (Bitset.sized 70 5).num_words
      (fun p q => !(xor p q)) (Bitset.sized 70 5) (Bitset.sized 70 ONES)) :=
  ⟨by decide, by decide, by decide,
    strict_boolean_ops (Bitset.sized 70 5) (Bitset.sized 70 ONES) (by decide) (by decide)
      (by decide)⟩

/-- A word of a promoted result at or beyond the shorter operand's word count, bit
by bit: the shorter operand contributes zero bits there. -/
theorem promoted_beyond_bit (a o : Bitset) (ha : Inv a) (ho : Inv o) (op : Nat → Nat → Nat)
    (F : Bool → Bool → Bool)
    (hop : ∀ x y, x < 2 ^ 64 → y < 2 ^ 64 → op x y < 2 ^ 64)
    (hF : ∀ x y k, x < 2 ^ 64 → y < 2 ^ 64 → k < 64 →
      (op x y).testBit k = F (x.testBit k) (y.testBit k))
    (hcomm : ∀ x, F x false = F false x) (j k : Nat) (hk : k < 64)
    (hj : min a.m_data.length o.m_data.length ≤ j) :
    Inv (Bitset.apply_boolean_op .UNSIGNED_PROMOTION a o op).state ∧
    ((Bitset.apply_boolean_op .UNSIGNED_PROMOTION a o op).state.m_data.getD j 0).testBit k =
      (decide (j * 64 + k < max a.m_num_bits o.m_num_bits) &&
        F (bit_at (if a.m_data.length > o.m_data.length then a else o).m_data (j * 64 + k))
          false) := by
  obtain ⟨s, hs, _, _, hinv, hbit⟩ := promoted_spec a o ha ho op F hop hF hcomm
  rw [hs]
  refine ⟨hinv, ?_⟩
  have e1 : (j * 64 + k) / 64 = j := by omega
  have e2 : (j * 64 + k) % 64 = k := by omega
  have hb := hbit (j * 64 + k)
  rw [bit_at_eq, e1, e2] at hb
  show (s.m_data.getD j 0).testBit k = _
  rw [hb]
  by_cases hgt : a.m_data.length > o.m_data.length
  · rw [if_pos hgt, bit_at_of_word_le o.m_data _ (by omega)]
  · rw [if_neg hgt, bit_at_of_word_le a.m_data _ (by omega), hcomm]

/-- C14. Promotion law: under the promoted width policy, for bitsets `a` and `b`
satisfying the invariants, each of `&=`, `|=`, `^=` returns with length
`max(a.num_bits(), b.num_bits())`, as many words as the operand with more words,
and bit `i`, for every `i` below the new length, equal to the operation applied
to the zero-extended bits `i` of `a` and `b`; after `&=` every word at or beyond
the shorter operand's word count is zero. -/
theorem promotion_law (a b : Bitset) (ha : Inv a) (hb : Inv b) :
    returns_bitwise (a.and_assign .UNSIGNED_PROMOTION b)
      (max a.num_bits b.num_bits) (max a.num_words b.num_words) (fun p q => p && q) a b ∧
    returns_bitwise (a.or_assign .UNSIGNED_PROMOTION b)
      (max a.num_bits b.num_bits) (max a.num_words b.num_words) (fun p q => p || q) a b ∧
    returns_bitwise (a.xor_assign .UNSIGNED_PROMOTION b)
      (max a.num_bits b.num_bits) (max a.num_words b.num_words) (fun p q => xor p q) a b ∧
    (∀ j, min a.num_words b.num_words ≤ j →
      (a.and_assign .UNSIGNED_PROMOTION b).state.m_data.getD j 0 = ZEROS) := by
  refine ⟨promoted_returns a b ha hb _ _ and_word_lt and_bit (fun x => by simp),
    promoted_returns a b ha hb _ _ or_word_lt or_bit (fun x => by simp),
    promoted_returns a b ha hb _ _ xor_word_lt xor_bit (fun x => by simp), ?_⟩
  intro j hj
  have hinv := (promoted_beyond_bit a b ha hb _ _ and_word_lt and_bit (fun x => by simp)
    j 0 (by decide) hj).1
  apply word_ext (hinv.words j) (by decide)
  intro k hk
  rw [(promoted_beyond_bit a b ha hb _ _ and_word_lt and_bit (fun x => by simp) j k hk hj).2]
  simp [ZEROS]

theorem promotion_law_witness :
    Inv (Bitset.sized 7 5) ∧ Inv (Bitset.sized 70 ONES) ∧
    (returns_bitwise ((Bitset.sized 7 5).and_assign .UNSIGNED_PROMOTION (Bitset.sized 70 ONES))
      (max (Bitset.sized 7 5).num_bits (Bitset.sized 70 ONES).num_bits)
      (max (Bitset.sized 7 5).num_words (Bitset.sized 70 ONES).num_words)
      (fun p q => p && q) (Bitset.sized 7 5) (Bitset.sized 70 ONES) ∧
    returns_bitwise ((Bitset.sized 7 5).or_assign .UNSIGNED_PROMOTION (Bitset.sized 70 ONES))
      (max (Bitset.sized 7 5).num_bits (Bitset.sized 70 ONES).num_bits)
      (max (Bitset.sized 7 5).num_words (Bitset.sized 70 ONES).num_words)
      (fun p q => p || q) (Bitset.sized 7 5) (Bitset.sized 70 ONES) ∧
    returns_bitwise ((Bitset.sized 7 5).xor_assign .UNSIGNED_PROMOTION (Bitset.sized 70 ONES))
      (max (Bitset.sized 7 5).num_bits (Bitset.sized 70 ONES).num_bits)
      (max (Bitset.sized 7 5).num_words (Bitset.sized 70 ONES).num_words)
      (fun p q => xor p q) (Bitset.sized 7 5) (Bitset.sized 70 ONES) ∧
    (∀ j, min (Bitset.sized 7 5).num_words (Bitset.sized 70 ONES).num_words ≤ j →
      ((Bitset.sized 7 5).and_assign .UNSIGNED_PROMOTION
        (Bitset.sized 70 ONES)).state.m_data.getD j 0 = ZEROS)) :=
  ⟨by decide, by decide,
    promotion_law (Bitset.sized 7 5) (Bitset.sized 70 ONES) (by decide) (by decide)⟩

end Macchiato


namespace Macchiato

/-! ## Promoted `nand`, `nor`, `xnor` -/

/-- C15 as stated fails for `nand`. With `a` of 64 zero bits and `b` of 65 bits
whose bit 64 is set, word 1 of `a.nand(b)` is `~(1 & 0)` masked to one bit, which
is 1, whereas word 1 of the complement of the longer operand `b`, with the bits
past the length cleared, is 0. -/
theorem nand_beyond_is_not_complement :
    Inv (Bitset.sized 64 0) ∧ Inv ⟨[0, 1], 65⟩ ∧
    min (Bitset.sized 64 0).num_words (Bitset.num_words ⟨[0, 1], 65⟩) ≤ 1 ∧
    1 < max (Bitset.sized 64 0).num_words (Bitset.num_words ⟨[0, 1], 65⟩) ∧
    ((Bitset.sized 64 0).nand .UNSIGNED_PROMOTION ⟨[0, 1], 65⟩).state.m_data.getD 1 0 = 1 ∧
    (Bitset.inplace_not ⟨[0, 1], 65⟩).m_data.getD 1 0 = 0 ∧
    ((Bitset.sized 64 0).nand .UNSIGNED_PROMOTION ⟨[0, 1], 65⟩).state.m_data.getD 1 0 ≠
      (Bitset.inplace_not ⟨[0, 1], 65⟩).m_data.getD 1 0 := by
  decide

/-- A word of a bitset as bit `j * 64 + k` of its word sequence. -/
theorem getD_testBit (d : List Nat) (j k : Nat) (hk : k < 64) :
    (d.getD j 0).testBit k = bit_at d (j * 64 + k) := by
  rw [bit_at_eq]
  have e1 : (j * 64 + k) / 64 = j := by omega
  have e2 : (j * 64 + k) % 64 = k := by omega
  rw [e1, e2]

/-- The operand with more words is the longer one. -/
theorem wider_num_bits (a o : Bitset) (ha : Inv a) (ho : Inv o) (j : Nat)
    (hj : min a.m_data.length o.m_data.length ≤ j)
    (hj2 : j < max a.m_data.length o.m_data.length) :
    (if a.m_data.length > o.m_data.length then a else o).m_num_bits =
      max a.m_num_bits o.m_num_bits := by
  have h1 := ha.length_eq
  have h2 := ho.length_eq
  split <;> omega

/-- C15, amended. Under the promoted width policy, for bitsets `a` and `b`
satisfying the invariants, each of `nand`, `nor`, `xnor` returns with length
`max(a.num_bits(), b.num_bits())` and bit `i`, for every `i` below that length,
equal to the negation of and/or/xor of the zero-extended bits `i` of `a` and `b`.
So a word of the result beyond the shorter operand's word count is, with the bits
past the new length cleared, all ones after `nand` and the complement of the longer
operand's word after `nor` and `xnor`. -/
theorem promotion_negated (a b : Bitset) (ha : Inv a) (hb : Inv b) :
    returns_bitwise (a.nand .UNSIGNED_PROMOTION b)
      (max a.num_bits b.num_bits) (max a.num_words b.num_words) (fun p q => !(p && q)) a b ∧
    returns_bitwise (a.nor .UNSIGNED_PROMOTION b)
      (max a.num_bits b.num_bits) (max a.num_words b.num_words) (fun p q => !(p || q)) a b ∧
    returns_bitwise (a.xnor .UNSIGNED_PROMOTION b)
      (max a.num_bits b.num_bits) (max a.num_words b.num_words) (fun p q => !(xor p q)) a b ∧
    (∀ j, min a.num_words b.num_words ≤ j → j < max a.num_words b.num_words →
      (a.nand .UNSIGNED_PROMOTION b).state.m_data.getD j 0 =
        (if a.num_words > b.num_words then a else b).set.m_data.getD j 0 ∧
      (a.nor .UNSIGNED_PROMOTION b).state.m_data.getD j 0 =
        (if a.num_words > b.num_words then a else b).inplace_not.m_data.getD j 0 ∧
      (a.xnor .UNSIGNED_PROMOTION b).state.m_data.getD j 0 =
        (if a.num_words > b.num_words then a else b).inplace_not.m_data.getD j 0) := by
  refine ⟨promoted_returns a b ha hb _ _ nand_word_lt nand_bit (fun x => by simp),
    promoted_returns a b ha hb _ _ nor_word_lt nor_bit (fun x => by simp),
    promoted_returns a b ha hb _ _ xnor_word_lt xnor_bit (fun x => by simp), ?_⟩
  intro j hj hj2
  have hj' : min a.m_data.length b.m_data.length ≤ j := hj
  have hL : Inv (if a.m_data.length > b.m_data.length then a else b) := by
    split
    · exact ha
    · exact hb
  have hLn := wider_num_bits a b ha hb j hj hj2
  refine ⟨?_, ?_, ?_⟩
  · have h1 := promoted_beyond_bit a b ha hb _ (fun p q => !(p && q)) nand_word_lt nand_bit
      (fun x => by simp) j
    apply word_ext ((h1 0 (by decide) hj').1.words j) ((set_inv _ hL).words j)
    intro k hk
    show ((Bitset.apply_boolean_op .UNSIGNED_PROMOTION a b _).state.m_data.getD j 0).testBit k =
      ((if a.m_data.length > b.m_data.length then a else b).set.m_data.getD j 0).testBit k
    rw [(h1 k hk hj').2, getD_testBit _ j k hk, set_bits _ hL, hLn]
    simp
  · have h1 := promoted_beyond_bit a b ha hb _ (fun p q => !(p || q)) nor_word_lt nor_bit
      (fun x => by simp) j
    apply word_ext ((h1 0 (by decide) hj').1.words j) ((inplace_not_inv _ hL).words j)
    intro k hk
    show ((Bitset.apply_boolean_op .UNSIGNED_PROMOTION a b _).state.m_data.getD j 0).testBit k =
      ((if a.m_data.length > b.m_data.length then a else b).inplace_not.m_data.getD j
        0).testBit k
    rw [(h1 k hk hj').2, getD_testBit _ j k hk, inplace_not_bits _ hL, hLn]
    simp
  · have h1 := promoted_beyond_bit a b ha hb _ (fun p q => !(xor p q)) xnor_word_lt xnor_bit
      (fun x => by simp) j
    apply word_ext ((h1 0 (by decide) hj').1.words j) ((inplace_not_inv _ hL).words j)
    intro k hk
    show ((Bitset.apply_boolean_op .UNSIGNED_PROMOTION a b _).state.m_data.getD j 0).testBit k =
      ((if a.m_data.length > b.m_data.length then a else b).inplace_not.m_data.getD j
        0).testBit k
    rw [(h1 k hk hj').2, getD_testBit _ j k hk, inplace_not_bits _ hL, hLn]
    simp

theorem promotion_negated_witness :
    Inv (Bitset.sized 64 0) ∧ Inv ⟨[0, 1], 65⟩ ∧
    (returns_bitwise ((Bitset.sized 64 0).nand .UNSIGNED_PROMOTION ⟨[0, 1], 65⟩)
      (max (Bitset.sized 64 0).num_bits (Bitset.num_bits ⟨[0, 1], 65⟩))
      (max (Bitset.sized 64 0).num_words (Bitset.num_words ⟨[0, 1], 65⟩))
      (fun p q => !(p && q)) (Bitset.sized 64 0) ⟨[0, 1], 65⟩ ∧
    returns_bitwise ((Bitset.sized 64 0).nor .UNSIGNED_PROMOTION ⟨[0, 1], 65⟩)
      (max (Bitset.sized 64 0).num_bits (Bitset.num_bits ⟨[0, 1], 65⟩))
      (max (Bitset.sized 64 0).num_words (Bitset.num_words ⟨[0, 1], 65⟩))
      (fun p q => !(p || q)) (Bitset.sized 64 0) ⟨[0, 1], 65⟩ ∧
    returns_bitwise ((Bitset.sized 64 0).xnor .UNSIGNED_PROMOTION ⟨[0, 1], 65⟩)
      (max (Bitset.sized 64 0).num_bits (Bitset.num_bits ⟨[0, 1], 65⟩))
      (max (Bitset.sized 64 0).num_words (Bitset.num_words ⟨[0, 1], 65⟩))
      (fun p q => !(xor p q)) (Bitset.sized 64 0) ⟨[0, 1], 65⟩ ∧
    (∀ j, min (Bitset.sized 64 0).num_words (Bitset.num_words ⟨[0, 1], 65⟩) ≤ j →
      j < max (Bitset.sized 64 0).num_words (Bitset.num_words ⟨[0, 1], 65⟩) →
      ((Bitset.sized 64 0).nand .UNSIGNED_PROMOTION ⟨[0, 1], 65⟩).state.m_data.getD j 0 =
        (if (Bitset.sized 64 0).num_words > (Bitset.num_words ⟨[0, 1], 65⟩)
          then Bitset.sized 64 0 else ⟨[0, 1], 65⟩).set.m_data.getD j 0 ∧
      ((Bitset.sized 64 0).nor .UNSIGNED_PROMOTION ⟨[0, 1], 65⟩).state.m_data.getD j 0 =
        (if (Bitset.sized 64 0).num_words > (Bitset.num_words ⟨[0, 1], 65⟩)
          then Bitset.sized 64 0 else ⟨[0, 1], 65⟩).inplace_not.m_data.getD j 0 ∧
      ((Bitset.sized 64 0).xnor .UNSIGNED_PROMOTION ⟨[0, 1], 65⟩).state.m_data.getD j 0 =
        (if (Bitset.sized 64 0).num_words > (Bitset.num_words ⟨[0, 1], 65⟩)
          then Bitset.sized 64 0 else ⟨[0, 1], 65⟩).inplace_not.m_data.getD j 0)) :=
  ⟨by decide, by decide,
    promotion_negated (Bitset.sized 64 0) ⟨[0, 1], 65⟩ (by decide) (by decide)⟩

end Macchiato


namespace Macchiato

/-! ## `operator~` -/

/-- On a word-aligned bitset `operator~` and `inplace_not` agree. -/
theorem complement_eq_inplace_not_of_aligned (b : Bitset) (h : Inv b)
    (hal : b.m_num_bits % 64 = 0) : b.complement = b.inplace_not := by
  have hlen := h.length_eq
  have hnb := h.bits_lt
  have hfit : fits b := by
    unfold fits Bitset.num_words
    rw [bits_per_word_eq, size_mod_eq]
    omega
  have hc := complement_eq b h hfit
  have hi := complement_inv b h hfit
  have e : b.m_data.length * 64 = b.m_num_bits := by omega
  rw [hc, e] at hi
  rw [hc, e]
  unfold Bitset.inplace_not
  exact (zu_of_inv _ hi).symm

/-- C16, evaluated at a failing input. For the 5-bit bitset with bits 0, 1, 2 set,
`operator~` returns a 64-bit bitset with bits 3 to 63 set, whereas `inplace_not()`
leaves a 5-bit bitset with bits 3 and 4 set: `operator~` grows its result a word
at a time and never sets the length back to `num_bits()`. -/
theorem complement_differs_from_inplace_not :
    Inv (Bitset.sized 5 7) ∧
    (Bitset.sized 5 7).complement = ⟨[2 ^ 64 - 8], 64⟩ ∧
    (Bitset.sized 5 7).inplace_not = ⟨[24], 5⟩ ∧
    (Bitset.sized 5 7).complement.num_bits ≠ (Bitset.sized 5 7).num_bits := by
  decide

/-- C17, evaluated at a failing input. For the 5-bit bitset with bits 0, 1, 2 set,
`~~a` has length 64, so under the strict width policy `~~a == a` throws
`std::invalid_argument`; under the promoted policy it evaluates to true. -/
theorem double_complement_strict_throws :
    Inv (Bitset.sized 5 7) ∧
    (Bitset.sized 5 7).complement.complement = ⟨[7], 64⟩ ∧
    (Bitset.sized 5 7).complement.complement.op_eq .SAME_SIZE_ONLY (Bitset.sized 5 7) =
      .error .invalid_argument ∧
    (Bitset.sized 5 7).complement.complement.op_eq .UNSIGNED_PROMOTION (Bitset.sized 5 7) =
      .ok true := by
  decide

/-- C18, evaluated at a failing input. For the 5-bit bitset with bits 0, 1, 2 set,
`a & ~a` and `a | ~a` throw `std::invalid_argument` under the strict width policy,
and under the promoted policy they have length 64 instead of 5. -/
theorem complement_partition_fails :
    Inv (Bitset.sized 5 7) ∧
    Bitset.op_and .SAME_SIZE_ONLY (Bitset.sized 5 7) (Bitset.sized 5 7).complement =
      .error .invalid_argument ∧
    Bitset.op_or .SAME_SIZE_ONLY (Bitset.sized 5 7) (Bitset.sized 5 7).complement =
      .error .invalid_argument ∧
    Bitset.op_and .UNSIGNED_PROMOTION (Bitset.sized 5 7) (Bitset.sized 5 7).complement =
      .ok ⟨[0], 64⟩ ∧
    Bitset.op_or .UNSIGNED_PROMOTION (Bitset.sized 5 7) (Bitset.sized 5 7).complement =
      .ok ⟨[2 ^ 64 - 1], 64⟩ := by
  decide

end Macchiato


namespace Macchiato

/-! ## Growth: `resize`, `push_msb`, `pop_msb`, `extend_msb_with_word` -/

theorem testBit_fill (v : Bool) (k : Nat) :
    (if v = true then ONES else ZEROS).testBit k = (v && decide (k < 64)) := by
  cases v
  · simp [ZEROS]
  · simp [testBit_ones]

/-- The bits of a bitset after `resize`. -/
theorem resize_spec (b : Bitset) (h : Inv b) (n : Nat) (hn : n < 2 ^ 64) (v : Bool) :
    ∃ b', b.resize n v = .returned b' ∧ Inv b' ∧ b'.m_num_bits = n ∧
      ∀ i, bit_at b'.m_data i =
        if i < min b.m_num_bits n then bit_at b.m_data i else (decide (i < n) && v) := by
  have hlen := h.length_eq
  have hnb := h.bits_lt
  obtain ⟨b', hb', hinv⟩ := resize_inv b h n hn v
  refine ⟨b', hb', hinv, ?_⟩
  unfold Bitset.resize at hb'
  simp only [calc_num_words_needed_eq, Bitset.num_words, msw_bit_alignment_eq] at hb'
  have key : ∀ d₁ : List Nat,
      d₁ = (if (n + 63) / 64 ≠ b.m_data.length then
            vec_resize b.m_data ((n + 63) / 64) (if v = true then ONES else ZEROS)
          else b.m_data) →
      d₁.length = (n + 63) / 64 ∧
      ∀ j, j < (n + 63) / 64 → d₁.getD j 0 =
        if j < b.m_data.length then b.m_data.getD j 0
        else (if v = true then ONES else ZEROS) := by
    intro d₁ hd
    subst hd
    split
    · refine ⟨length_vec_resize _ _ _, fun j hj => ?_⟩
      rw [getD_vec_resize, if_pos hj]
    · rename_i hne
      have he : (n + 63) / 64 = b.m_data.length := not_not.mp hne
      refine ⟨he.symm, fun j hj => ?_⟩
      rw [if_pos (by omega)]
  generalize hd : (if (n + 63) / 64 ≠ b.m_data.length then
            vec_resize b.m_data ((n + 63) / 64) (if v = true then ONES else ZEROS)
          else b.m_data) = d₁ at hb'
  obtain ⟨hl₁, hg₁⟩ := key d₁ hd.symm
  have hzero := h.bit_zero
  -- the bits of the words before the mask is applied
  have hbits : ∀ d₂ : List Nat, d₂.length = (n + 63) / 64 →
      (∀ i, i < n → bit_at d₂ i =
        if i < min b.m_num_bits n then bit_at b.m_data i else v) →
      b' = Bitset.zero_unused_bits_in_msw ⟨d₂, n⟩ →
      b'.m_num_bits = n ∧ ∀ i, bit_at b'.m_data i =
        if i < min b.m_num_bits n then bit_at b.m_data i else (decide (i < n) && v) := by
    intro d₂ hl₂ hb₂ he
    subst he
    refine ⟨zu_num_bits _, fun i => ?_⟩
    rw [zu_bit _ hl₂]
    show (bit_at d₂ i && decide (i < n)) = _
    by_cases hi : i < n
    · rw [hb₂ i hi]
      simp [hi]
    · rw [if_neg (by omega)]
      simp [hi]
  -- the bits of `d₁`, when no word is touched after the vector is resized
  have hplain : (v = true → b.m_num_bits ≤ n → b.m_num_bits % 64 = 0) →
      ∀ i, i < n → bit_at d₁ i = if i < min b.m_num_bits n then bit_at b.m_data i else v := by
    intro hcase i hi
    have hm : i % 64 < 64 := Nat.mod_lt _ (by decide)
    rw [bit_at_eq, hg₁ _ (by omega)]
    by_cases hlt : i < min b.m_num_bits n
    · rw [if_pos hlt, if_pos (by omega), bit_at_eq]
    · rw [if_neg hlt]
      by_cases hw : i / 64 < b.m_data.length
      · rw [if_pos hw]
        have hz := hzero i (by omega)
        rw [bit_at_eq] at hz
        rw [hz]
        cases v
        · rfl
        · have := hcase rfl (by omega)
          omega
      · rw [if_neg hw, testBit_fill]
        simp [hm]
  split at hb'
  · rename_i hc
    have hv : v = true := by
      simp only [Bool.and_eq_true, decide_eq_true_eq] at hc
      exact hc.1
    have hge : b.m_num_bits ≤ n := by
      simp only [Bool.and_eq_true, decide_eq_true_eq] at hc
      exact hc.2
    split at hb'
    · rename_i hal
      have hidx : (b.m_data.length + SIZE_MOD - 1) % SIZE_MOD = b.m_data.length - 1 := by
        rw [size_mod_eq]
        have : 0 < b.m_data.length := by omega
        omega
      rw [hidx] at hb'
      have hlt : b.m_data.length - 1 < d₁.length := by omega
      rw [if_pos hlt] at hb'
      injection hb' with hb'
      apply hbits _ _ _ hb'.symm
      · rw [List.length_set]; exact hl₁
      · intro i hi
        have hm : i % 64 < 64 := Nat.mod_lt _ (by decide)
        rw [bit_at_eq, getD_set_eq]
        by_cases hj : b.m_data.length - 1 = i / 64 ∧ b.m_data.length - 1 < d₁.length
        · rw [if_pos hj, Nat.testBit_or, testBit_shl, testBit_ones, hj.1,
            hg₁ _ (by omega), if_pos (by omega)]
          by_cases hlt2 : i < min b.m_num_bits n
          · rw [if_pos hlt2, bit_at_eq]
            have : ¬ b.m_num_bits % 64 ≤ i % 64 := by omega
            simp [this]
          · rw [if_neg hlt2]
            have h5 : b.m_num_bits % 64 ≤ i % 64 := by omega
            have h6 : i % 64 - b.m_num_bits % 64 < 64 := by omega
            simp [hm, h5, h6, hv]
        · rw [if_neg hj, hg₁ _ (by omega)]
          by_cases hlt2 : i < min b.m_num_bits n
          · rw [if_pos hlt2, if_pos (by omega), bit_at_eq]
          · rw [if_neg hlt2, if_neg (by omega), testBit_fill]
            simp [hm]
    · rename_i hal
      injection hb' with hb'
      exact hbits d₁ hl₁ (hplain (fun _ _ => by omega)) hb'.symm
  · rename_i hc
    injection hb' with hb'
    apply hbits d₁ hl₁ (hplain _) hb'.symm
    intro hv hge
    exact absurd (by simp [hv, hge] : (v && decide (n ≥ b.m_num_bits)) = true) hc

end Macchiato

namespace Macchiato

/-- C21. `resize`: for a bitset satisfying the invariants, every `n` and every
fill, `resize(n, fill)` returns with `num_bits() == n`; every bit
`i < min(old length, n)` keeps its old value and every bit `i` with
`old length <= i < n` equals the fill, also the bits that were unused in a
partially used most significant word. The invariants hold afterwards. -/
theorem resize_correct (b : Bitset) (h : Inv b) (n : Nat) (hn : n < SIZE_MOD) (fill : Bool) :
    ∃ b', b.resize n fill = .returned b' ∧ Inv b' ∧ b'.num_bits = n ∧
      (∀ i, i < min b.num_bits n → b'.test i = b.test i) ∧
      (∀ i, b.num_bits ≤ i → i < n → b'.test i = .ok fill) := by
  obtain ⟨b', hb', hinv, hnb, hbit⟩ := resize_spec b h n hn fill
  refine ⟨b', hb', hinv, hnb, ?_, ?_⟩
  · intro i hi
    have hi' : i < min b.m_num_bits n := hi
    rw [test_of_lt b' i (by omega), test_of_lt b i (by omega), hbit, if_pos hi']
  · intro i h1 h2
    have h1' : b.m_num_bits ≤ i := h1
    rw [test_of_lt b' i (by omega), hbit, if_neg (by omega)]
    simp [h2]

theorem resize_correct_witness :
    Inv (Bitset.sized 5 7) ∧ 70 < SIZE_MOD ∧
    ∃ b', (Bitset.sized 5 7).resize 70 true = .returned b' ∧ Inv b' ∧ b'.num_bits = 70 ∧
      (∀ i, i < min (Bitset.sized 5 7).num_bits 70 → b'.test i = (Bitset.sized 5 7).test i) ∧
      (∀ i, (Bitset.sized 5 7).num_bits ≤ i → i < 70 → b'.test i = .ok true) :=
  ⟨by decide, by decide, resize_correct (Bitset.sized 5 7) (by decide) 70 (by decide) true⟩

theorem vec_resize_drop (d : List Nat) (fill : Nat) :
    vec_resize d (d.length - 1) fill = d.dropLast := by
  unfold vec_resize
  rw [List.dropLast_eq_take]
  have : d.length - 1 - d.length = 0 := by omega
  rw [this]
  simp

/-- On a non-empty bitset `pop_msb()` leaves what `resize(num_bits() - 1, v)`
returns with. -/
theorem pop_msb_as_resize (b : Bitset) (h : Inv b) (hpos : 0 < b.m_num_bits) (v : Bool) :
    b.resize (b.m_num_bits - 1) v = .returned b.pop_msb := by
  have hcond : (v && decide (b.m_num_bits - 1 ≥ b.m_num_bits)) = false := by
    have : ¬ (b.m_num_bits - 1 ≥ b.m_num_bits) := by omega
    simp [this]
  have hlen := h.length_eq
  have hnb := h.bits_lt
  have hinv := pop_msb_inv b h hpos
  have hdec : (b.m_num_bits + SIZE_MOD - 1) % SIZE_MOD = b.m_num_bits - 1 := by
    rw [size_mod_eq]; omega
  unfold Bitset.pop_msb at hinv ⊢
  unfold Bitset.resize
  simp only [calc_num_words_needed_eq, Bitset.num_words, hdec,
    hcond, Bool.false_eq_true, if_false] at hinv ⊢
  by_cases hlt : (b.m_num_bits - 1 + 63) / 64 < b.m_data.length
  · rw [if_pos hlt] at hinv ⊢
    have hne : (b.m_num_bits - 1 + 63) / 64 ≠ b.m_data.length := by omega
    have he : (b.m_num_bits - 1 + 63) / 64 = b.m_data.length - 1 := by omega
    rw [if_pos hne, he, vec_resize_drop, zu_of_inv _ hinv]
  · rw [if_neg hlt]
    have he : ¬ (b.m_num_bits - 1 + 63) / 64 ≠ b.m_data.length := by omega
    rw [if_neg he]

/-- C22. `push_msb` and `pop_msb` behave as one-bit resizes: for a bitset
satisfying the invariants, `push_msb(v)` has the outcome of
`resize(num_bits() + 1, v)` (the sum taken in `size_type`), and on a non-empty
bitset `pop_msb()`, which is coded separately, leaves the words and length that
`resize(num_bits() - 1)` returns with, whatever the fill argument. -/
theorem push_pop_as_resize (b : Bitset) (h : Inv b) :
    (∀ v, b.push_msb v = b.resize ((b.num_bits + 1) % SIZE_MOD) v) ∧
    (0 < b.num_bits → ∀ v, b.resize (b.num_bits - 1) v = .returned b.pop_msb) :=
  ⟨fun _ => rfl, fun hpos v => pop_msb_as_resize b h hpos v⟩

theorem push_pop_as_resize_witness :
    Inv (Bitset.sized 65 7) ∧
    ((∀ v, (Bitset.sized 65 7).push_msb v =
        (Bitset.sized 65 7).resize (((Bitset.sized 65 7).num_bits + 1) % SIZE_MOD) v) ∧
    (0 < (Bitset.sized 65 7).num_bits →
      ∀ v, (Bitset.sized 65 7).resize ((Bitset.sized 65 7).num_bits - 1) v =
        .returned (Bitset.sized 65 7).pop_msb)) :=
  ⟨by decide, push_pop_as_resize (Bitset.sized 65 7) (by decide)⟩

/-- C23. `extend_msb_with_word`: for a bitset of length `L` satisfying the
invariants and every word `w`, with `L + BITS_PER_WORD` a `size_type`, the length
afterwards is `L + BITS_PER_WORD`, every bit `i < L` keeps its old value and bit
`L + k` equals bit `k` of `w` for every `k < BITS_PER_WORD`, whether or not `L`
is word aligned. The invariants hold afterwards. -/
theorem extend_correct (b : Bitset) (h : Inv b) (w : Nat) (hw : w < WORD_MOD)
    (hfit : b.num_bits + BITS_PER_WORD < SIZE_MOD) :
    Inv (b.extend_msb_with_word w) ∧
    (b.extend_msb_with_word w).num_bits = b.num_bits + BITS_PER_WORD ∧
    (∀ i, i < b.num_bits → (b.extend_msb_with_word w).test i = b.test i) ∧
    (∀ k, k < BITS_PER_WORD →
      (b.extend_msb_with_word w).test (b.num_bits + k) = .ok (w.testBit k)) := by
  have hfit' : b.m_num_bits + 64 < 2 ^ 64 := hfit
  have hnum : (b.extend_msb_with_word w).m_num_bits = b.m_num_bits + 64 := by
    rw [extend_num_bits, Nat.mod_eq_of_lt hfit']
  refine ⟨extend_inv b h w hw hfit', hnum, ?_, ?_⟩
  · intro i hi
    have hi' : i < b.m_num_bits := hi
    rw [test_of_lt _ i (by rw [hnum]; omega), test_of_lt b i hi', extend_bit b h w hw,
      if_pos hi']
  · intro k hk
    have hk' : k < 64 := hk
    show (b.extend_msb_with_word w).test (b.m_num_bits + k) = _
    rw [test_of_lt _ _ (by rw [hnum]; omega), extend_bit b h w hw, if_neg (by omega)]
    have e : b.m_num_bits + k - b.m_num_bits = k := by omega
    simp [e, hk']

theorem extend_correct_witness :
    Inv (Bitset.sized 3 5) ∧ 9 < WORD_MOD ∧
    (Bitset.sized 3 5).num_bits + BITS_PER_WORD < SIZE_MOD ∧
    (Inv ((Bitset.sized 3 5).extend_msb_with_word 9) ∧
    ((Bitset.sized 3 5).extend_msb_with_word 9).num_bits =
      (Bitset.sized 3 5).num_bits + BITS_PER_WORD ∧
    (∀ i, i < (Bitset.sized 3 5).num_bits →
      ((Bitset.sized 3 5).extend_msb_with_word 9).test i = (Bitset.sized 3 5).test i) ∧
    (∀ k, k < BITS_PER_WORD →
      ((Bitset.sized 3 5).extend_msb_with_word 9).test ((Bitset.sized 3 5).num_bits + k) =
        .ok (Nat.testBit 9 k))) :=
  ⟨by decide, by decide, by decide,
    extend_correct (Bitset.sized 3 5) (by decide) 9 (by decide) (by decide)⟩

end Macchiato


namespace Macchiato

/-! ## Sized construction -/

theorem sized_num_bits (n v : Nat) : (Bitset.sized n v).m_num_bits = n := by
  unfold Bitset.sized Bitset.init
  dsimp only
  split
  · rfl
  · exact zu_num_bits _

theorem sized_length (n v : Nat) : (Bitset.sized n v).m_data.length = (n + 63) / 64 := by
  unfold Bitset.sized Bitset.init
  simp only [calc_num_words_needed_eq]
  split
  · rename_i h
    rw [h]; rfl
  · rw [zu_length, List.length_set, length_vec_resize]

/-- The bits of `Bitset(n, v)`: the bits of `v` below `n`, in word 0 only. -/
theorem sized_bit (n v i : Nat) :
    bit_at (Bitset.sized n v).m_data i = (decide (i < 64) && (decide (i < n) && v.testBit i)) := by
  unfold Bitset.sized Bitset.init
  simp only [calc_num_words_needed_eq]
  split
  · rename_i h
    have hn : ¬ i < n := by omega
    rw [bit_at_eq, getD_nil]
    simp [hn]
  · rename_i h
    rw [zu_bit _ (by rw [List.length_set, length_vec_resize])]
    dsimp only
    rw [bit_at_eq, getD_set_eq, length_vec_resize, getD_vec_resize]
    by_cases h0 : i < 64
    · have e0 : i / 64 = 0 := by omega
      have e1 : i % 64 = i := by omega
      have hc : 0 = i / 64 ∧ 0 < (n + 63) / 64 := by omega
      rw [if_pos hc, e1]
      simp [h0, Bool.and_comm]
    · have hc : ¬ (0 = i / 64 ∧ 0 < (n + 63) / 64) := by omega
      rw [if_neg hc]
      have hz : (if i / 64 < (n + 63) / 64 then
          (if i / 64 < ([] : List Nat).length then ([] : List Nat).getD (i / 64) 0 else ZEROS)
          else 0) = 0 := by
        split
        · split
          · exact getD_nil _
          · rfl
        · rfl
      rw [hz]
      simp [h0]

theorem sized_getD (n v : Nat) (hn : n < 2 ^ 64) (hv : v < 2 ^ 64) (j : Nat) :
    (Bitset.sized n v).m_data.getD j 0 =
      if j = 0 ∧ 0 < n then (if n < 64 then v % 2 ^ n else v) else 0 := by
  have hinv := inv_sized n v hn hv
  apply word_ext (hinv.words j)
  · split
    · split
      · exact lt_of_le_of_lt (Nat.mod_le _ _) hv
      · exact hv
    · decide
  · intro k hk
    have hb := sized_bit n v (j * 64 + k)
    rw [bit_at_eq] at hb
    have e1 : (j * 64 + k) / 64 = j := by omega
    have e2 : (j * 64 + k) % 64 = k := by omega
    rw [e1, e2] at hb
    rw [hb]
    by_cases hj : j = 0
    · subst hj
      by_cases h0 : 0 < n
      · rw [if_pos ⟨rfl, h0⟩]
        by_cases h64 : n < 64
        · rw [if_pos h64, Nat.testBit_mod_two_pow]
          simp [hk]
        · rw [if_neg h64]
          have : k < n := by omega
          simp [hk, this]
      · have hc : ¬ ((0 : Nat) = 0 ∧ 0 < n) := fun e => h0 e.2
        have : ¬ k < n := by omega
        rw [if_neg hc]
        simp [this]
    · have hc : ¬ (j = 0 ∧ 0 < n) := fun e => hj e.1
      have : ¬ j * 64 + k < 64 := by omega
      rw [if_neg hc]
      simp [this]

theorem countP_range_lt (n m : Nat) :
    (List.range n).countP (fun i => decide (i < m)) = min n m := by
  induction n with
  | zero => simp
  | succ n ih =>
    rw [List.range_succ, List.countP_append, ih]
    by_cases h : n < m
    · simp [h]; omega
    · simp [h]; omega

/-- C24 (as written, refuted). A sized construction with the all-ones value does
not fill uniformly when the length exceeds one word: `Bitset(65, ONES)` has bit 64
clear, `count() == 64` rather than 65, and `all()` false. -/
theorem sized_fill_not_uniform :
    (Bitset.sized 65 ONES).test 64 = .ok false ∧
    (Bitset.sized 65 ONES).count = 64 ∧
    (Bitset.sized 65 ONES).all = false ∧
    (Bitset.sized 65 ONES).m_data = [ONES, 0] := by
  decide

/-- C24 (amended). Sized construction writes its word to word 0 only: for every
length `n`, `Bitset(n, ONES)` has bit `i < n` set exactly when `i < BITS_PER_WORD`,
so `count() == min(n, BITS_PER_WORD)` and `all()` holds iff
`0 < n <= BITS_PER_WORD`; `Bitset(n, ZEROS)` has every bit 0 and `count() == 0`. -/
theorem sized_fill_first_word (n : Nat) (hn : n < SIZE_MOD) :
    (∀ i, i < n → (Bitset.sized n ONES).test i = .ok (decide (i < BITS_PER_WORD))) ∧
    (Bitset.sized n ONES).count = min n BITS_PER_WORD ∧
    ((Bitset.sized n ONES).all = true ↔ (0 < n ∧ n ≤ BITS_PER_WORD)) ∧
    (∀ i, i < n → (Bitset.sized n ZEROS).test i = .ok false) ∧
    (Bitset.sized n ZEROS).count = 0 := by
  have h1 := inv_sized n ONES hn ones_lt
  have h0 := inv_sized n ZEROS hn (by decide)
  have hb1 : ∀ i, i < n → bit_at (Bitset.sized n ONES).m_data i = decide (i < 64) := by
    intro i hi
    rw [sized_bit, testBit_ones]
    simp [hi]
  have hb0 : ∀ i, bit_at (Bitset.sized n ZEROS).m_data i = false := by
    intro i
    rw [sized_bit]
    simp [ZEROS]
  refine ⟨?_, ?_, ?_, ?_, ?_⟩
  · intro i hi
    rw [test_of_lt _ i (by rw [sized_num_bits]; exact hi), hb1 i hi]
    rfl
  · rw [count_eq_bits _ h1, sized_num_bits, bits_per_word_eq, ← countP_range_lt n 64]
    apply List.countP_congr
    intro i hi
    rw [hb1 i (List.mem_range.mp hi)]
  · rw [all_iff_bits _ h1, sized_num_bits, bits_per_word_eq]
    constructor
    · rintro ⟨hne, hall⟩
      refine ⟨by omega, ?_⟩
      by_contra hgt
      have := hall 64 (by omega)
      rw [hb1 64 (by omega)] at this
      simp at this
    · rintro ⟨hpos, hle⟩
      refine ⟨by omega, fun i hi => ?_⟩
      rw [hb1 i hi]
      simp; omega
  · intro i hi
    rw [test_of_lt _ i (by rw [sized_num_bits]; exact hi), hb0 i]
  · rw [count_eq_zero_iff _ h0]
    exact hb0

theorem sized_fill_first_word_witness :
    70 < SIZE_MOD ∧
    ((∀ i, i < 70 → (Bitset.sized 70 ONES).test i = .ok (decide (i < BITS_PER_WORD))) ∧
    (Bitset.sized 70 ONES).count = min 70 BITS_PER_WORD ∧
    ((Bitset.sized 70 ONES).all = true ↔ (0 < 70 ∧ 70 ≤ BITS_PER_WORD)) ∧
    (∀ i, i < 70 → (Bitset.sized 70 ZEROS).test i = .ok false) ∧
    (Bitset.sized 70 ZEROS).count = 0) :=
  ⟨by decide, sized_fill_first_word 70 (by decide)⟩

/-- C25. Construction as the tests assert it: for every length `n` and every word
`value`, `Bitset(n, value)` has `num_bits() == n` and
`num_words() == ceil(n / BITS_PER_WORD)`; when `n > 0` its word 0 is `value`, with
the bits at positions `>= n` cleared when `n < BITS_PER_WORD`, and every other
word is 0; `Bitset(0, value)` has no words. The invariants hold. -/
theorem sized_construction (n value : Nat) (hn : n < SIZE_MOD) (hv : value < WORD_MOD) :
    Inv (Bitset.sized n value) ∧
    (Bitset.sized n value).num_bits = n ∧
    (Bitset.sized n value).num_words = (n + (BITS_PER_WORD - 1)) / BITS_PER_WORD ∧
    (0 < n → (Bitset.sized n value).m_data.getD 0 0 =
      if n < BITS_PER_WORD then value % 2 ^ n else value) ∧
    (∀ j, 0 < j → j < (Bitset.sized n value).num_words →
      (Bitset.sized n value).m_data.getD j 0 = ZEROS) ∧
    (Bitset.sized 0 value).m_data = [] := by
  refine ⟨inv_sized n value hn hv, sized_num_bits n value, sized_length n value, ?_, ?_, rfl⟩
  · intro hpos
    rw [sized_getD n value hn hv, if_pos ⟨rfl, hpos⟩]
    rfl
  · intro j hj _
    have hc : ¬ (j = 0 ∧ 0 < n) := by omega
    rw [sized_getD n value hn hv, if_neg hc]
    rfl

theorem sized_construction_witness :
    7 < SIZE_MOD ∧ ONES < WORD_MOD ∧
    (Inv (Bitset.sized 7 ONES) ∧
    (Bitset.sized 7 ONES).num_bits = 7 ∧
    (Bitset.sized 7 ONES).num_words = (7 + (BITS_PER_WORD - 1)) / BITS_PER_WORD ∧
    (0 < 7 → (Bitset.sized 7 ONES).m_data.getD 0 0 =
      if 7 < BITS_PER_WORD then ONES % 2 ^ 7 else ONES) ∧
    (∀ j, 0 < j → j < (Bitset.sized 7 ONES).num_words →
      (Bitset.sized 7 ONES).m_data.getD j 0 = ZEROS) ∧
    (Bitset.sized 0 ONES).m_data = []) :=
  ⟨by decide, by decide, sized_construction 7 ONES (by decide) (by decide)⟩

end Macchiato


namespace Macchiato

/-! ## Equality -/

/-- Typed word sequences differ in a word iff they differ in a bit. -/
theorem words_differ_iff_bits (d₁ d₂ : List Nat) (h₁ : ∀ j, d₁.getD j 0 < 2 ^ 64)
    (h₂ : ∀ j, d₂.getD j 0 < 2 ^ 64) :
    (∃ j, d₁.getD j 0 ≠ d₂.getD j 0) ↔ ∃ i, bit_at d₁ i ≠ bit_at d₂ i := by
  constructor
  · rintro ⟨j, hj⟩
    by_contra hno
    apply hj
    apply word_ext (h₁ j) (h₂ j)
    intro k hk
    by_contra hk2
    apply hno
    refine ⟨j * 64 + k, ?_⟩
    rw [bit_at_eq, bit_at_eq]
    have e1 : (j * 64 + k) / 64 = j := by omega
    have e2 : (j * 64 + k) % 64 = k := by omega
    rw [e1, e2]
    exact hk2
  · rintro ⟨i, hi⟩
    refine ⟨i / 64, fun he => hi ?_⟩
    rw [bit_at_eq, bit_at_eq, he]

theorem any_range_iff (n : Nat) (p : Nat → Bool) :
    (List.range n).any p = true ↔ ∃ j, j < n ∧ p j = true := by
  rw [List.any_eq_true]
  constructor
  · rintro ⟨j, hj, hp⟩; exact ⟨j, List.mem_range.mp hj, hp⟩
  · rintro ⟨j, hj, hp⟩; exact ⟨j, List.mem_range.mpr hj, hp⟩

theorem any_range'_iff (s n : Nat) (p : Nat → Bool) :
    (List.range' s n).any p = true ↔ ∃ j, s ≤ j ∧ j < s + n ∧ p j = true := by
  rw [List.any_eq_true]
  constructor
  · rintro ⟨j, hj, hp⟩
    have := List.mem_range'_1.mp hj
    exact ⟨j, this.1, this.2, hp⟩
  · rintro ⟨j, h1, h2, hp⟩; exact ⟨j, List.mem_range'_1.mpr ⟨h1, h2⟩, hp⟩

/-- The two scans of the promoted `operator!=` find a mismatch iff some word of
the narrow operand, read as 0 beyond its end, differs from the wide operand's. -/
theorem ne_scan_iff (dn dw : List Nat) (hle : dn.length ≤ dw.length) :
    ((List.range dn.length).any (fun i => dn.getD i 0 != dw.getD i 0) ||
      (List.range' dn.length (dw.length - dn.length)).any
        (fun i => dw.getD i 0 != ZEROS)) = true ↔
      ∃ j, dn.getD j 0 ≠ dw.getD j 0 := by
  rw [Bool.or_eq_true, any_range_iff, any_range'_iff]
  constructor
  · rintro (⟨j, _, hp⟩ | ⟨j, h1, _, hp⟩)
    · exact ⟨j, by simpa using hp⟩
    · refine ⟨j, ?_⟩
      rw [getD_of_le dn j h1]
      have : dw.getD j 0 ≠ 0 := by simpa [ZEROS] using hp
      exact fun e => this e.symm
  · rintro ⟨j, hj⟩
    by_cases h1 : j < dn.length
    · exact Or.inl ⟨j, h1, by simpa using hj⟩
    · have hz : dn.getD j 0 = 0 := getD_of_le dn j (by omega)
      rw [hz] at hj
      have h2 : j < dw.length := by
        by_contra h2
        exact hj (getD_of_le dw j (by omega)).symm
      refine Or.inr ⟨j, by omega, by omega, ?_⟩
      have : dw.getD j 0 ≠ 0 := fun e => hj e.symm
      simpa [ZEROS] using this

theorem strict_ne_mismatch (a b : Bitset) (hne : a.m_num_bits ≠ b.m_num_bits) :
    a.op_ne .SAME_SIZE_ONLY b = .error .invalid_argument := by
  unfold Bitset.op_ne
  dsimp only
  rw [if_pos (show a.num_bits ≠ b.num_bits from hne)]

/-- The strict `operator!=` on equal lengths: true iff some stored bit differs. -/
theorem strict_ne_iff (a b : Bitset) (ha : Inv a) (hb : Inv b)
    (hn : a.m_num_bits = b.m_num_bits) :
    ∃ r, a.op_ne .SAME_SIZE_ONLY b = .ok r ∧
      (r = true ↔ ∃ i, bit_at a.m_data i ≠ bit_at b.m_data i) := by
  have hla := ha.length_eq
  have hlb := hb.length_eq
  refine ⟨(List.range a.m_data.length).any
    (fun i => a.m_data.getD i 0 != b.m_data.getD i 0), ?_, ?_⟩
  · unfold Bitset.op_ne
    dsimp only
    rw [if_neg (show ¬ a.num_bits ≠ b.num_bits from fun h => h hn)]
    rfl
  · rw [← words_differ_iff_bits _ _ ha.words hb.words, any_range_iff]
    constructor
    · rintro ⟨j, _, hp⟩; exact ⟨j, by simpa using hp⟩
    · rintro ⟨j, hj⟩
      refine ⟨j, ?_, by simpa using hj⟩
      show j < a.m_data.length
      by_contra hlt
      apply hj
      rw [getD_of_le _ j (by omega), getD_of_le _ j (by omega)]

theorem promoted_ne_empty (a b : Bitset) (he : ¬ (a.m_num_bits = 0 ↔ b.m_num_bits = 0)) :
    a.op_ne .UNSIGNED_PROMOTION b = .ok true := by
  unfold Bitset.op_ne
  dsimp only
  have : (a.is_empty != b.is_empty) = true := by
    unfold Bitset.is_empty Bitset.num_bits
    by_cases h1 : a.m_num_bits = 0 <;> by_cases h2 : b.m_num_bits = 0
    · exact absurd (iff_of_true h1 h2) he
    · simp [h1, h2]
    · simp [h1, h2]
    · exact absurd (iff_of_false h1 h2) he
  rw [if_pos this]

/-- The promoted `operator!=` on operands that are both empty or both non-empty:
true iff some stored bit differs. -/
theorem promoted_ne_iff (a b : Bitset) (ha : Inv a) (hb : Inv b)
    (he : a.m_num_bits = 0 ↔ b.m_num_bits = 0) :
    ∃ r, a.op_ne .UNSIGNED_PROMOTION b = .ok r ∧
      (r = true ↔ ∃ i, bit_at a.m_data i ≠ bit_at b.m_data i) := by
  have hla := ha.length_eq
  have hlb := hb.length_eq
  have hemp : ¬ ((a.is_empty != b.is_empty) = true) := by
    unfold Bitset.is_empty Bitset.num_bits
    by_cases h1 : a.m_num_bits = 0
    · simp [h1, he.mp h1]
    · have h2 : ¬ b.m_num_bits = 0 := fun e => h1 (he.mpr e)
      simp [h1, h2]
  have hform : ∀ (A B : Bool),
      (if A = true then (Except.ok true : Except Fault Bool)
        else if B = true then .ok true else .ok false) = .ok (A || B) := by
    intro A B; cases A <;> cases B <;> rfl
  unfold Bitset.op_ne
  dsimp only
  rw [if_neg hemp, hform]
  refine ⟨_, rfl, ?_⟩
  unfold Bitset.is_narrower_than Bitset.num_words
  by_cases hlt : a.m_num_bits < b.m_num_bits
  · simp only [hlt, decide_True, if_true]
    rw [ne_scan_iff _ _ (by omega), words_differ_iff_bits _ _ ha.words hb.words]
  · simp only [hlt, decide_False, Bool.false_eq_true, if_false]
    rw [ne_scan_iff _ _ (by omega), words_differ_iff_bits _ _ hb.words ha.words]
    constructor
    · rintro ⟨i, hi⟩; exact ⟨i, fun e => hi e.symm⟩
    · rintro ⟨i, hi⟩; exact ⟨i, fun e => hi e.symm⟩

theorem op_eq_of_ne (mode : MixedWidthMode) (a b : Bitset) (r : Bool)
    (h : a.op_ne mode b = .ok r) : a.op_eq mode b = .ok (!r) := by
  unfold Bitset.op_eq
  rw [h]

/-- A stored bit differs iff a zero-extended bit below the longer length differs. -/
theorem bits_differ_iff_ext (a b : Bitset) (ha : Inv a) (hb : Inv b) :
    (∃ i, bit_at a.m_data i ≠ bit_at b.m_data i) ↔
      ∃ i, i < max a.m_num_bits b.m_num_bits ∧ a.bit_ext i ≠ b.bit_ext i := by
  constructor
  · rintro ⟨i, hi⟩
    refine ⟨i, ?_, by rw [bit_ext_eq a ha, bit_ext_eq b hb]; exact hi⟩
    by_contra hlt
    apply hi
    rw [ha.bit_zero i (by omega), hb.bit_zero i (by omega)]
  · rintro ⟨i, _, hi⟩
    rw [bit_ext_eq a ha, bit_ext_eq b hb] at hi
    exact ⟨i, hi⟩

/-- C26. Strict-policy equality: for bitsets `a` and `b` satisfying the
invariants, when the lengths are equal `a != b` returns true iff some
`i < num_bits()` has `a.test(i) != b.test(i)` and `a == b` returns its negation,
so two empty bitsets compare equal; when the lengths differ both operators throw
`std::invalid_argument`. -/
theorem strict_equality (a b : Bitset) (ha : Inv a) (hb : Inv b) :
    (a.num_bits = b.num_bits →
      ∃ r, a.op_ne .SAME_SIZE_ONLY b = .ok r ∧ a.op_eq .SAME_SIZE_ONLY b = .ok (!r) ∧
        (r = true ↔ ∃ i, i < a.num_bits ∧ a.test i ≠ b.test i)) ∧
    (a.num_bits = 0 → b.num_bits = 0 → a.op_eq .SAME_SIZE_ONLY b = .ok true) ∧
    (a.num_bits ≠ b.num_bits →
      a.op_ne .SAME_SIZE_ONLY b = .error .invalid_argument ∧
      a.op_eq .SAME_SIZE_ONLY b = .error .invalid_argument) := by
  have hmain : a.m_num_bits = b.m_num_bits →
      ∃ r, a.op_ne .SAME_SIZE_ONLY b = .ok r ∧ a.op_eq .SAME_SIZE_ONLY b = .ok (!r) ∧
        (r = true ↔ ∃ i, i < a.m_num_bits ∧ a.test i ≠ b.test i) := by
    intro hn
    obtain ⟨r, hr, hiff⟩ := strict_ne_iff a b ha hb hn
    refine ⟨r, hr, op_eq_of_ne _ a b r hr, ?_⟩
    rw [hiff]
    constructor
    · rintro ⟨i, hi⟩
      have hlt : i < a.m_num_bits := by
        by_contra hlt
        apply hi
        rw [ha.bit_zero i (by omega), hb.bit_zero i (by omega)]
      refine ⟨i, hlt, ?_⟩
      rw [test_of_lt a i hlt, test_of_lt b i (by omega)]
      exact fun e => hi (Except.ok.inj e)
    · rintro ⟨i, hlt, hi⟩
      rw [test_of_lt a i hlt, test_of_lt b i (by omega)] at hi
      exact ⟨i, fun e => hi (by rw [e])⟩
  refine ⟨hmain, ?_, ?_⟩
  · intro h1 h2
    have h1' : a.m_num_bits = 0 := h1
    have h2' : b.m_num_bits = 0 := h2
    obtain ⟨r, _, hr, hiff⟩ := hmain (by omega)
    have : r = false := by
      cases r
      · rfl
      · obtain ⟨i, hi, _⟩ := hiff.mp rfl
        omega
    rw [hr, this]
    rfl
  · intro hne
    have h := strict_ne_mismatch a b hne
    refine ⟨h, ?_⟩
    unfold Bitset.op_eq
    rw [h]

theorem strict_equality_witness :
    Inv (Bitset.sized 70 5) ∧ Inv (Bitset.sized 70 6) ∧
    ((Bitset.sized 70 5).num_bits = (Bitset.sized 70 6).num_bits →
      ∃ r, (Bitset.sized 70 5).op_ne .SAME_SIZE_ONLY (Bitset.sized 70 6) = .ok r ∧
        (Bitset.sized 70 5).op_eq .SAME_SIZE_ONLY (Bitset.sized 70 6) = .ok (!r) ∧
        (r = true ↔ ∃ i, i < (Bitset.sized 70 5).num_bits ∧
          (Bitset.sized 70 5).test i ≠ (Bitset.sized 70 6).test i)) ∧
    ((Bitset.sized 70 5).num_bits = 0 → (Bitset.sized 70 6).num_bits = 0 →
      (Bitset.sized 70 5).op_eq .SAME_SIZE_ONLY (Bitset.sized 70 6) = .ok true) ∧
    ((Bitset.sized 70 5).num_bits ≠ (Bitset.sized 70 6).num_bits →
      (Bitset.sized 70 5).op_ne .SAME_SIZE_ONLY (Bitset.sized 70 6) = .error .invalid_argument ∧
      (Bitset.sized 70 5).op_eq .SAME_SIZE_ONLY (Bitset.sized 70 6) =
        .error .invalid_argument) :=
  ⟨by decide, by decide, strict_equality (Bitset.sized 70 5) (Bitset.sized 70 6)
    (by decide) (by decide)⟩

/-- C27. Promoted-policy equality: for bitsets `a` and `b` satisfying the
invariants, `a == b` returns, and returns true iff both are empty, or both are
non-empty and the zero-extended bits of `a` and `b` agree at every
`i < max(a.num_bits(), b.num_bits())`. So an empty bitset is unequal to every
non-empty one, and a non-empty `a` shorter than `b` equals `b` exactly when the
common bits agree and the extra bits of `b` are all 0. -/
theorem promoted_equality (a b : Bitset) (ha : Inv a) (hb : Inv b) :
    (∃ r, a.op_eq .UNSIGNED_PROMOTION b = .ok r ∧
      (r = true ↔ (a.num_bits = 0 ∧ b.num_bits = 0) ∨
        (a.num_bits ≠ 0 ∧ b.num_bits ≠ 0 ∧
          ∀ i, i < max a.num_bits b.num_bits → a.bit_ext i = b.bit_ext i))) ∧
    (a.num_bits = 0 → b.num_bits ≠ 0 →
      a.op_eq .UNSIGNED_PROMOTION b = .ok false ∧
      b.op_eq .UNSIGNED_PROMOTION a = .ok false) ∧
    (a.num_bits ≠ 0 → a.num_bits < b.num_bits →
      (a.op_eq .UNSIGNED_PROMOTION b = .ok true ↔
        (∀ i, i < a.num_bits → a.test i = b.test i) ∧
        (∀ i, a.num_bits ≤ i → i < b.num_bits → b.test i = .ok false))) := by
  have hmain : ∃ r, a.op_eq .UNSIGNED_PROMOTION b = .ok r ∧
      (r = true ↔ (a.m_num_bits = 0 ∧ b.m_num_bits = 0) ∨
        (a.m_num_bits ≠ 0 ∧ b.m_num_bits ≠ 0 ∧
          ∀ i, i < max a.m_num_bits b.m_num_bits → a.bit_ext i = b.bit_ext i)) := by
    by_cases he : a.m_num_bits = 0 ↔ b.m_num_bits = 0
    · obtain ⟨r, hr, hiff⟩ := promoted_ne_iff a b ha hb he
      refine ⟨!r, op_eq_of_ne _ a b r hr, ?_⟩
      rw [bits_differ_iff_ext a b ha hb] at hiff
      have hnot : (!r) = true ↔
          ∀ i, i < max a.m_num_bits b.m_num_bits → a.bit_ext i = b.bit_ext i := by
        constructor
        · intro hr2 i hi
          by_contra hd
          have := hiff.mpr ⟨i, hi, hd⟩
          rw [this] at hr2
          exact absurd hr2 (by decide)
        · intro hall
          cases hrr : r
          · rfl
          · obtain ⟨i, hi, hd⟩ := hiff.mp hrr
            exact absurd (hall i hi) hd
      rw [hnot]
      constructor
      · intro hall
        by_cases h0 : a.m_num_bits = 0
        · exact Or.inl ⟨h0, he.mp h0⟩
        · exact Or.inr ⟨h0, fun e => h0 (he.mpr e), hall⟩
      · rintro (⟨h1, h2⟩ | ⟨_, _, hall⟩)
        · intro i hi
          rw [h1, h2] at hi
          exact absurd hi (by simp)
        · exact hall
    · refine ⟨false, op_eq_of_ne _ a b true (promoted_ne_empty a b he), ?_⟩
      constructor
      · intro h; exact absurd h (by decide)
      · rintro (⟨h1, h2⟩ | ⟨h1, h2, _⟩)
        · exact absurd (iff_of_true h1 h2) he
        · exact absurd (iff_of_false h1 h2) he
  refine ⟨hmain, ?_, ?_⟩
  · intro h1 h2
    have h1' : a.m_num_bits = 0 := h1
    have h2' : b.m_num_bits ≠ 0 := h2
    exact ⟨op_eq_of_ne _ a b true (promoted_ne_empty a b (fun e => h2' (e.mp h1'))),
      op_eq_of_ne _ b a true (promoted_ne_empty b a (fun e => h2' (e.mpr h1')))⟩
  · intro h1 h2
    have h1' : a.m_num_bits ≠ 0 := h1
    have h2' : a.m_num_bits < b.m_num_bits := h2
    obtain ⟨r, hr, hiff⟩ := hmain
    rw [hr]
    have hmax : max a.m_num_bits b.m_num_bits = b.m_num_bits := by omega
    rw [hmax] at hiff
    have hok : (Except.ok r : Except Fault Bool) = .ok true ↔ r = true :=
      ⟨fun e => Except.ok.inj e, fun e => by rw [e]⟩
    rw [hok, hiff]
    constructor
    · rintro (⟨h0, _⟩ | ⟨_, _, hall⟩)
      · exact absurd h0 h1'
      · constructor
        · intro i hi
          have hi' : i < a.m_num_bits := hi
          have := hall i (by omega)
          rw [bit_ext_eq a ha, bit_ext_eq b hb] at this
          rw [test_of_lt a i hi', test_of_lt b i (by omega), this]
        · intro i hi1 hi2
          have hi1' : a.m_num_bits ≤ i := hi1
          have hi2' : i < b.m_num_bits := hi2
          have := hall i hi2'
          rw [bit_ext_eq a ha, bit_ext_eq b hb, ha.bit_zero i hi1'] at this
          rw [test_of_lt b i hi2', ← this]
    · rintro ⟨hlow, hhigh⟩
      refine Or.inr ⟨h1', by omega, fun i hi => ?_⟩
      rw [bit_ext_eq a ha, bit_ext_eq b hb]
      by_cases hia : i < a.m_num_bits
      · have := hlow i hia
        rw [test_of_lt a i hia, test_of_lt b i hi] at this
        exact Except.ok.inj this
      · have := hhigh i (show a.num_bits ≤ i from by show a.m_num_bits ≤ i; omega) hi
        rw [test_of_lt b i hi] at this
        rw [ha.bit_zero i (by omega), Except.ok.inj this]

theorem promoted_equality_witness :
    Inv (Bitset.sized 5 7) ∧ Inv (Bitset.sized 70 7) ∧
    ((∃ r, (Bitset.sized 5 7).op_eq .UNSIGNED_PROMOTION (Bitset.sized 70 7) = .ok r ∧
      (r = true ↔ ((Bitset.sized 5 7).num_bits = 0 ∧ (Bitset.sized 70 7).num_bits = 0) ∨
        ((Bitset.sized 5 7).num_bits ≠ 0 ∧ (Bitset.sized 70 7).num_bits ≠ 0 ∧
          ∀ i, i < max (Bitset.sized 5 7).num_bits (Bitset.sized 70 7).num_bits →
            (Bitset.sized 5 7).bit_ext i = (Bitset.sized 70 7).bit_ext i))) ∧
    ((Bitset.sized 5 7).num_bits = 0 → (Bitset.sized 70 7).num_bits ≠ 0 →
      (Bitset.sized 5 7).op_eq .UNSIGNED_PROMOTION (Bitset.sized 70 7) = .ok false ∧
      (Bitset.sized 70 7).op_eq .UNSIGNED_PROMOTION (Bitset.sized 5 7) = .ok false) ∧
    ((Bitset.sized 5 7).num_bits ≠ 0 →
      (Bitset.sized 5 7).num_bits < (Bitset.sized 70 7).num_bits →
      ((Bitset.sized 5 7).op_eq .UNSIGNED_PROMOTION (Bitset.sized 70 7) = .ok true ↔
        (∀ i, i < (Bitset.sized 5 7).num_bits →
          (Bitset.sized 5 7).test i = (Bitset.sized 70 7).test i) ∧
        (∀ i, (Bitset.sized 5 7).num_bits ≤ i → i < (Bitset.sized 70 7).num_bits →
          (Bitset.sized 70 7).test i = .ok false)))) :=
  ⟨by decide, by decide, promoted_equality (Bitset.sized 5 7) (Bitset.sized 70 7)
    (by decide) (by decide)⟩

end Macchiato


namespace Macchiato

/-! ## Set difference -/

theorem set_difference_getD (a b : Bitset) (j : Nat) :
    (a.inplace_set_difference b).m_data.getD j 0 =
      if j < min a.m_data.length b.m_data.length then
        a.m_data.getD j 0 &&& wnot (b.m_data.getD j 0)
      else a.m_data.getD j 0 := by
  unfold Bitset.inplace_set_difference Bitset.num_words
  dsimp only
  rw [getD_for_range_assign]
  by_cases h : j < min a.m_data.length b.m_data.length
  · rw [if_pos h, if_pos (by omega)]
  · rw [if_neg h, if_neg (by omega)]

/-- C28. `inplace_set_difference`: for every pair of bitsets `a` and `b`
satisfying the invariants, of any lengths, `a.inplace_set_difference(b)` leaves
the length and word count of `a` unchanged, makes word `i` equal to the old
`a[i] & ~b[i]` for `i` below the smaller word count and leaves the words above
it untouched, so bit `i < a.num_bits()` is old `a_i` and not `b_i` with `b` read
as 0 at and beyond `b.num_bits()`. The function has no failing path and the
invariants hold afterwards. -/
theorem set_difference_correct (a b : Bitset) (ha : Inv a) (hb : Inv b) :
    Inv (a.inplace_set_difference b) ∧
    (a.inplace_set_difference b).num_bits = a.num_bits ∧
    (a.inplace_set_difference b).num_words = a.num_words ∧
    (∀ i, i < min a.num_words b.num_words →
      (a.inplace_set_difference b).m_data.getD i 0 =
        a.m_data.getD i 0 &&& wnot (b.m_data.getD i 0)) ∧
    (∀ i, min a.num_words b.num_words ≤ i →
      (a.inplace_set_difference b).m_data.getD i 0 = a.m_data.getD i 0) ∧
    (∀ i, i < a.num_bits →
      (a.inplace_set_difference b).test i = .ok (a.bit_ext i && !b.bit_ext i)) := by
  have hnb : (a.inplace_set_difference b).m_num_bits = a.m_num_bits := rfl
  refine ⟨inplace_set_difference_inv a b ha, rfl, ?_, ?_, ?_, ?_⟩
  · unfold Bitset.inplace_set_difference Bitset.num_words
    dsimp only
    exact length_for_range_assign _ _ _ _
  · intro i hi
    have hi' : i < min a.m_data.length b.m_data.length := hi
    rw [set_difference_getD, if_pos hi']
  · intro i hi
    have hi' : ¬ i < min a.m_data.length b.m_data.length := by
      have : min a.m_data.length b.m_data.length ≤ i := hi
      omega
    rw [set_difference_getD, if_neg hi']
  · intro i hi
    have hi' : i < a.m_num_bits := hi
    have hlen := ha.length_eq
    have hm : i % 64 < 64 := Nat.mod_lt _ (by decide)
    rw [test_of_lt _ i (by rw [hnb]; exact hi'), bit_ext_eq a ha, bit_ext_eq b hb,
      bit_at_eq, set_difference_getD]
    by_cases hlt : i / 64 < min a.m_data.length b.m_data.length
    · rw [if_pos hlt, Nat.testBit_and, testBit_wnot _ _ (hb.words _), bit_at_eq, bit_at_eq]
      simp [hm]
    · rw [if_neg hlt, bit_at_of_word_le b.m_data i (by omega), bit_at_eq]
      simp

theorem set_difference_correct_witness :
    Inv (Bitset.sized 70 7) ∧ Inv (Bitset.sized 5 5) ∧
    (Inv ((Bitset.sized 70 7).inplace_set_difference (Bitset.sized 5 5)) ∧
    ((Bitset.sized 70 7).inplace_set_difference (Bitset.sized 5 5)).num_bits =
      (Bitset.sized 70 7).num_bits ∧
    ((Bitset.sized 70 7).inplace_set_difference (Bitset.sized 5 5)).num_words =
      (Bitset.sized 70 7).num_words ∧
    (∀ i, i < min (Bitset.sized 70 7).num_words (Bitset.sized 5 5).num_words →
      ((Bitset.sized 70 7).inplace_set_difference (Bitset.sized 5 5)).m_data.getD i 0 =
        (Bitset.sized 70 7).m_data.getD i 0 &&& wnot ((Bitset.sized 5 5).m_data.getD i 0)) ∧
    (∀ i, min (Bitset.sized 70 7).num_words (Bitset.sized 5 5).num_words ≤ i →
      ((Bitset.sized 70 7).inplace_set_difference (Bitset.sized 5 5)).m_data.getD i 0 =
        (Bitset.sized 70 7).m_data.getD i 0) ∧
    (∀ i, i < (Bitset.sized 70 7).num_bits →
      ((Bitset.sized 70 7).inplace_set_difference (Bitset.sized 5 5)).test i =
        .ok ((Bitset.sized 70 7).bit_ext i && !(Bitset.sized 5 5).bit_ext i))) :=
  ⟨by decide, by decide, set_difference_correct (Bitset.sized 70 7) (Bitset.sized 5 5)
    (by decide) (by decide)⟩

/-! ## Move -/

/-- C29 (the code diverges). Moving from `Bitset s(5, 0b111)` hands the words and
the length to the destination, but the defaulted move leaves `s` with
`num_bits() == 5` and no words: the source is not the empty bitset and violates
the word-count invariant. The same holds for move assignment. -/
theorem move_leaves_stale_length :
    Bitset.move_construct (Bitset.sized 5 7) = (⟨[7], 5⟩, ⟨[], 5⟩) ∧
    (Bitset.move_construct (Bitset.sized 5 7)).1 = Bitset.sized 5 7 ∧
    (Bitset.move_construct (Bitset.sized 5 7)).2.num_bits = 5 ∧
    (Bitset.move_construct (Bitset.sized 5 7)).2.num_words = 0 ∧
    (Bitset.move_construct (Bitset.sized 5 7)).2.is_empty = false ∧
    ¬ word_count_ok (Bitset.move_construct (Bitset.sized 5 7)).2 ∧
    ¬ Inv (Bitset.move_construct (Bitset.sized 5 7)).2 ∧
    Bitset.move_assign Bitset.empty (Bitset.sized 5 7) = (⟨[7], 5⟩, ⟨[], 5⟩) ∧
    ¬ Inv (Bitset.move_assign Bitset.empty (Bitset.sized 5 7)).2 := by
  decide

/-! ## Value-returning operators -/

theorem apply_boolean_op_returns (mode : MixedWidthMode) (a o : Bitset)
    (op : Nat → Nat → Nat) (h : mode = .UNSIGNED_PROMOTION ∨ a.num_bits = o.num_bits) :
    ∃ s, Bitset.apply_boolean_op mode a o op = .returned s := by
  unfold Bitset.apply_boolean_op
  cases mode with
  | UNSIGNED_PROMOTION => exact ⟨_, rfl⟩
  | SAME_SIZE_ONLY =>
    rcases h with h | h
    · cases h
    · dsimp only
      rw [if_neg (fun e => e h)]
      exact ⟨_, rfl⟩

/-- A boolean combination with a symmetric bit function gives the same value
whichever operand is the receiver. -/
theorem apply_boolean_op_comm (mode : MixedWidthMode) (a o : Bitset) (ha : Inv a) (ho : Inv o)
    (op : Nat → Nat → Nat) (F : Bool → Bool → Bool)
    (hop : ∀ x y, x < 2 ^ 64 → y < 2 ^ 64 → op x y < 2 ^ 64)
    (hF : ∀ x y k, x < 2 ^ 64 → y < 2 ^ 64 → k < 64 →
      (op x y).testBit k = F (x.testBit k) (y.testBit k))
    (hsym : ∀ x y, F x y = F y x) :
    (Bitset.apply_boolean_op mode a o op).value =
      (Bitset.apply_boolean_op mode o a op).value := by
  cases mode with
  | UNSIGNED_PROMOTION =>
    obtain ⟨s₁, h₁, n₁, _, i₁, b₁⟩ :=
      promoted_spec a o ha ho op F hop hF (fun x => hsym x false)
    obtain ⟨s₂, h₂, n₂, _, i₂, b₂⟩ :=
      promoted_spec o a ho ha op F hop hF (fun x => hsym x false)
    rw [h₁, h₂]
    have : s₁ = s₂ := by
      apply bitset_ext s₁ s₂ i₁ i₂
      · rw [n₁, n₂, Nat.max_comm]
      · intro i
        rw [b₁, b₂, Nat.max_comm, hsym]
    rw [this]
  | SAME_SIZE_ONLY =>
    by_cases hn : a.m_num_bits = o.m_num_bits
    · obtain ⟨s₁, h₁, n₁, _, i₁, b₁⟩ := strict_spec a o ha ho hn op F hop hF
      obtain ⟨s₂, h₂, n₂, _, i₂, b₂⟩ := strict_spec o a ho ha hn.symm op F hop hF
      rw [h₁, h₂]
      have : s₁ = s₂ := by
        apply bitset_ext s₁ s₂ i₁ i₂
        · rw [n₁, n₂, hn]
        · intro i
          rw [b₁, b₂, hn, hsym]
      rw [this]
    · rw [apply_boolean_op_mismatch a o op hn,
        apply_boolean_op_mismatch o a op (fun e => hn e.symm)]
      rfl

theorem value_of_returned (r : Outcome) (s : Bitset) (h : r = .returned s) :
    r.value = .ok s := by
  rw [h]; rfl

/-- C30. The value-returning binary operators agree with the in-place ones: for
every pair of bitsets `lhs` and `rhs` satisfying the invariants and either width
policy, `lhs & rhs` is what a copy of `lhs` is after `copy &= rhs` (the same
words and length, or the same exception), and likewise `|` with `|=` and `^` with
`^=`, although the operators copy the operand with more words. Under the promoted
policy, and under the strict policy on equal lengths, the in-place call returns
and the operator yields exactly that bitset. -/
theorem value_ops_agree (mode : MixedWidthMode) (lhs rhs : Bitset) (hl : Inv lhs)
    (hr : Inv rhs) :
    (Bitset.op_and mode lhs rhs = (lhs.and_assign mode rhs).value ∧
      Bitset.op_or mode lhs rhs = (lhs.or_assign mode rhs).value ∧
      Bitset.op_xor mode lhs rhs = (lhs.xor_assign mode rhs).value) ∧
    ((mode = .UNSIGNED_PROMOTION ∨ lhs.num_bits = rhs.num_bits) →
      (∃ s, lhs.and_assign mode rhs = .returned s ∧ Bitset.op_and mode lhs rhs = .ok s) ∧
      (∃ s, lhs.or_assign mode rhs = .returned s ∧ Bitset.op_or mode lhs rhs = .ok s) ∧
      (∃ s, lhs.xor_assign mode rhs = .returned s ∧ Bitset.op_xor mode lhs rhs = .ok s)) := by
  have hand : Bitset.op_and mode lhs rhs = (lhs.and_assign mode rhs).value := by
    unfold Bitset.op_and Bitset.and_assign
    dsimp only
    split
    · rfl
    · exact apply_boolean_op_comm mode rhs lhs hr hl _ (fun p q => p && q)
        and_word_lt and_bit (fun x y => Bool.and_comm x y)
  have hor : Bitset.op_or mode lhs rhs = (lhs.or_assign mode rhs).value := by
    unfold Bitset.op_or Bitset.or_assign
    dsimp only
    split
    · rfl
    · exact apply_boolean_op_comm mode rhs lhs hr hl _ (fun p q => p || q)
        or_word_lt or_bit (fun x y => Bool.or_comm x y)
  have hxor : Bitset.op_xor mode lhs rhs = (lhs.xor_assign mode rhs).value := by
    unfold Bitset.op_xor Bitset.xor_assign
    dsimp only
    split
    · rfl
    · exact apply_boolean_op_comm mode rhs lhs hr hl _ (fun p q => xor p q)
        xor_word_lt xor_bit (fun x y => Bool.xor_comm x y)
  refine ⟨⟨hand, hor, hxor⟩, fun hm => ⟨?_, ?_, ?_⟩⟩
  · obtain ⟨s, hs⟩ := apply_boolean_op_returns mode lhs rhs (fun x y => x &&& y) hm
    exact ⟨s, hs, by rw [hand]; exact value_of_returned _ s hs⟩
  · obtain ⟨s, hs⟩ := apply_boolean_op_returns mode lhs rhs (fun x y => x ||| y) hm
    exact ⟨s, hs, by rw [hor]; exact value_of_returned _ s hs⟩
  · obtain ⟨s, hs⟩ := apply_boolean_op_returns mode lhs rhs (fun x y => x ^^^ y) hm
    exact ⟨s, hs, by rw [hxor]; exact value_of_returned _ s hs⟩

theorem value_ops_agree_witness :
    Inv (Bitset.sized 5 7) ∧ Inv (Bitset.sized 70 9) ∧
    ((Bitset.op_and .UNSIGNED_PROMOTION (Bitset.sized 5 7) (Bitset.sized 70 9) =
        ((Bitset.sized 5 7).and_assign .UNSIGNED_PROMOTION (Bitset.sized 70 9)).value ∧
      Bitset.op_or .UNSIGNED_PROMOTION (Bitset.sized 5 7) (Bitset.sized 70 9) =
        ((Bitset.sized 5 7).or_assign .UNSIGNED_PROMOTION (Bitset.sized 70 9)).value ∧
      Bitset.op_xor .UNSIGNED_PROMOTION (Bitset.sized 5 7) (Bitset.sized 70 9) =
        ((Bitset.sized 5 7).xor_assign .UNSIGNED_PROMOTION (Bitset.sized 70 9)).value) ∧
    ((MixedWidthMode.UNSIGNED_PROMOTION = .UNSIGNED_PROMOTION ∨
        (Bitset.sized 5 7).num_bits = (Bitset.sized 70 9).num_bits) →
      (∃ s, (Bitset.sized 5 7).and_assign .UNSIGNED_PROMOTION (Bitset.sized 70 9) =
          .returned s ∧
        Bitset.op_and .UNSIGNED_PROMOTION (Bitset.sized 5 7) (Bitset.sized 70 9) = .ok s) ∧
      (∃ s, (Bitset.sized 5 7).or_assign .UNSIGNED_PROMOTION (Bitset.sized 70 9) =
          .returned s ∧
        Bitset.op_or .UNSIGNED_PROMOTION (Bitset.sized 5 7) (Bitset.sized 70 9) = .ok s) ∧
      (∃ s, (Bitset.sized 5 7).xor_assign .UNSIGNED_PROMOTION (Bitset.sized 70 9) =
          .returned s ∧
        Bitset.op_xor .UNSIGNED_PROMOTION (Bitset.sized 5 7) (Bitset.sized 70 9) = .ok s))) :=
  ⟨by decide, by decide, value_ops_agree .UNSIGNED_PROMOTION (Bitset.sized 5 7)
    (Bitset.sized 70 9) (by decide) (by decide)⟩

end Macchiato


namespace Macchiato

/-! ## Operand order, the push/pop round trip and scenario A -/

/-- Under the promoted policy a boolean combination with a symmetric bit function
leaves the same state whichever operand is the receiver. -/
theorem promoted_comm (a o : Bitset) (ha : Inv a) (ho : Inv o)
    (op : Nat → Nat → Nat) (F : Bool → Bool → Bool)
    (hop : ∀ x y, x < 2 ^ 64 → y < 2 ^ 64 → op x y < 2 ^ 64)
    (hF : ∀ x y k, x < 2 ^ 64 → y < 2 ^ 64 → k < 64 →
      (op x y).testBit k = F (x.testBit k) (y.testBit k))
    (hsym : ∀ x y, F x y = F y x) :
    ∃ s, Bitset.apply_boolean_op .UNSIGNED_PROMOTION a o op = .returned s ∧
      Bitset.apply_boolean_op .UNSIGNED_PROMOTION o a op = .returned s := by
  obtain ⟨s₁, h₁, n₁, _, i₁, b₁⟩ :=
    promoted_spec a o ha ho op F hop hF (fun x => hsym x false)
  obtain ⟨s₂, h₂, n₂, _, i₂, b₂⟩ :=
    promoted_spec o a ho ha op F hop hF (fun x => hsym x false)
  have : s₂ = s₁ := by
    apply bitset_ext s₂ s₁ i₂ i₁
    · rw [n₁, n₂, Nat.max_comm]
    · intro i
      rw [b₁, b₂, Nat.max_comm, hsym]
  exact ⟨s₁, h₁, by rw [h₂, this]⟩

/-- C31. Operand order does not matter under the promoted policy: for bitsets `a`
and `b` satisfying the invariants, of any lengths, each of `&=`, `|=`, `^=`,
`nand`, `nor`, `xnor` returns, and a copy of `a` after `OP= b` has exactly the
words and length of a copy of `b` after `OP= a`. -/
theorem operand_order (a b : Bitset) (ha : Inv a) (hb : Inv b) :
    (∃ s, a.and_assign .UNSIGNED_PROMOTION b = .returned s ∧
      b.and_assign .UNSIGNED_PROMOTION a = .returned s) ∧
    (∃ s, a.or_assign .UNSIGNED_PROMOTION b = .returned s ∧
      b.or_assign .UNSIGNED_PROMOTION a = .returned s) ∧
    (∃ s, a.xor_assign .UNSIGNED_PROMOTION b = .returned s ∧
      b.xor_assign .UNSIGNED_PROMOTION a = .returned s) ∧
    (∃ s, a.nand .UNSIGNED_PROMOTION b = .returned s ∧
      b.nand .UNSIGNED_PROMOTION a = .returned s) ∧
    (∃ s, a.nor .UNSIGNED_PROMOTION b = .returned s ∧
      b.nor .UNSIGNED_PROMOTION a = .returned s) ∧
    (∃ s, a.xnor .UNSIGNED_PROMOTION b = .returned s ∧
      b.xnor .UNSIGNED_PROMOTION a = .returned s) :=
  ⟨promoted_comm a b ha hb _ (fun p q => p && q) and_word_lt and_bit
      (fun x y => Bool.and_comm x y),
    promoted_comm a b ha hb _ (fun p q => p || q) or_word_lt or_bit
      (fun x y => Bool.or_comm x y),
    promoted_comm a b ha hb _ (fun p q => xor p q) xor_word_lt xor_bit
      (fun x y => Bool.xor_comm x y),
    promoted_comm a b ha hb _ (fun p q => !(p && q)) nand_word_lt nand_bit
      (fun x y => by cases x <;> cases y <;> rfl),
    promoted_comm a b ha hb _ (fun p q => !(p || q)) nor_word_lt nor_bit
      (fun x y => by cases x <;> cases y <;> rfl),
    promoted_comm a b ha hb _ (fun p q => !(xor p q)) xnor_word_lt xnor_bit
      (fun x y => by cases x <;> cases y <;> rfl)⟩

theorem operand_order_witness :
    Inv (Bitset.sized 5 7) ∧ Inv (Bitset.sized 7 9) ∧
    ((∃ s, (Bitset.sized 5 7).and_assign .UNSIGNED_PROMOTION (Bitset.sized 7 9) = .returned s ∧
      (Bitset.sized 7 9).and_assign .UNSIGNED_PROMOTION (Bitset.sized 5 7) = .returned s) ∧
    (∃ s, (Bitset.sized 5 7).or_assign .UNSIGNED_PROMOTION (Bitset.sized 7 9) = .returned s ∧
      (Bitset.sized 7 9).or_assign .UNSIGNED_PROMOTION (Bitset.sized 5 7) = .returned s) ∧
    (∃ s, (Bitset.sized 5 7).xor_assign .UNSIGNED_PROMOTION (Bitset.sized 7 9) = .returned s ∧
      (Bitset.sized 7 9).xor_assign .UNSIGNED_PROMOTION (Bitset.sized 5 7) = .returned s) ∧
    (∃ s, (Bitset.sized 5 7).nand .UNSIGNED_PROMOTION (Bitset.sized 7 9) = .returned s ∧
      (Bitset.sized 7 9).nand .UNSIGNED_PROMOTION (Bitset.sized 5 7) = .returned s) ∧
    (∃ s, (Bitset.sized 5 7).nor .UNSIGNED_PROMOTION (Bitset.sized 7 9) = .returned s ∧
      (Bitset.sized 7 9).nor .UNSIGNED_PROMOTION (Bitset.sized 5 7) = .returned s) ∧
    (∃ s, (Bitset.sized 5 7).xnor .UNSIGNED_PROMOTION (Bitset.sized 7 9) = .returned s ∧
      (Bitset.sized 7 9).xnor .UNSIGNED_PROMOTION (Bitset.sized 5 7) = .returned s)) :=
  ⟨by decide, by decide, operand_order (Bitset.sized 5 7) (Bitset.sized 7 9)
    (by decide) (by decide)⟩

/-- C32 (as written, refuted). Scenario A on the code: `Bitset(BITS_PER_WORD + 4, ONES)`
has the words `{ONES, 0}`, so its most significant bit `BITS_PER_WORD + 3` is
already 0; `reset(BITS_PER_WORD + 3)` returns with the bitset unchanged, and word 0
is `ONES`, with no bit cleared. -/
theorem scenario_a_leaves_words :
    Bitset.sized (BITS_PER_WORD + 4) ONES = ⟨[ONES, 0], BITS_PER_WORD + 4⟩ ∧
    (Bitset.sized (BITS_PER_WORD + 4) ONES).test (BITS_PER_WORD + 3) = .ok false ∧
    (Bitset.sized (BITS_PER_WORD + 4) ONES).reset_bit (BITS_PER_WORD + 3) =
      .returned ⟨[ONES, 0], BITS_PER_WORD + 4⟩ ∧
    (∀ k, k < BITS_PER_WORD →
      (((Bitset.sized (BITS_PER_WORD + 4) ONES).reset_bit
        (BITS_PER_WORD + 3)).state.m_data.getD 0 0).testBit k = true) := by
  refine ⟨by decide, by decide, by decide, ?_⟩
  have e : ((Bitset.sized (BITS_PER_WORD + 4) ONES).reset_bit
      (BITS_PER_WORD + 3)).state.m_data.getD 0 0 = ONES := by decide
  intro k hk
  rw [e, testBit_ones]
  simpa using hk

/-- C32 (amended). The scenario as the test `Single bit` runs it:
`Bitset(BITS_PER_WORD + 4, ONES)` has the words `{ONES, 0}`; `reset(MSB_POS)`, the
most significant bit of word 0, clears only that bit and leaves the words
`{ONES & ~(1 << MSB_POS), 0}`; `reset(BITS_PER_WORD + 3)`, the most significant bit
of the bitset, leaves the words `{ONES, 0}`. -/
theorem scenario_a_word_msb :
    Bitset.sized (BITS_PER_WORD + 4) ONES = ⟨[ONES, 0], BITS_PER_WORD + 4⟩ ∧
    (Bitset.sized (BITS_PER_WORD + 4) ONES).reset_bit MSB_POS =
      .returned ⟨[ONES &&& wnot (shl 1 MSB_POS), 0], BITS_PER_WORD + 4⟩ ∧
    (∀ i, i < BITS_PER_WORD + 4 →
      ((Bitset.sized (BITS_PER_WORD + 4) ONES).reset_bit MSB_POS).state.test i =
        if i = MSB_POS then .ok false else (Bitset.sized (BITS_PER_WORD + 4) ONES).test i) ∧
    (Bitset.sized (BITS_PER_WORD + 4) ONES).reset_bit (BITS_PER_WORD + 3) =
      .returned ⟨[ONES, 0], BITS_PER_WORD + 4⟩ := by
  refine ⟨by decide, by decide, ?_, by decide⟩
  have e1 : ((Bitset.sized (BITS_PER_WORD + 4) ONES).reset_bit MSB_POS).state =
      ⟨[2 ^ 63 - 1, 0], 68⟩ := by decide
  have e2 : Bitset.sized (BITS_PER_WORD + 4) ONES = ⟨[2 ^ 64 - 1, 0], 68⟩ := by decide
  rw [e1, e2]
  intro i hi
  have hi' : i < 68 := hi
  rw [test_of_lt ⟨[2 ^ 63 - 1, 0], 68⟩ i hi', test_of_lt ⟨[2 ^ 64 - 1, 0], 68⟩ i hi',
    bit_at_eq, bit_at_eq, msb_pos_eq]
  by_cases h0 : i < 64
  · have a1 : i / 64 = 0 := by omega
    have a2 : i % 64 = i := by omega
    rw [a1, a2]
    have g1 : ([2 ^ 63 - 1, 0] : List Nat).getD 0 0 = 2 ^ 63 - 1 := rfl
    have g2 : ([2 ^ 64 - 1, 0] : List Nat).getD 0 0 = 2 ^ 64 - 1 := rfl
    dsimp only
    rw [g1, g2, Nat.testBit_two_pow_sub_one, Nat.testBit_two_pow_sub_one]
    by_cases h1 : i = 63
    · simp [h1]
    · have : i < 63 := by omega
      simp [h1, this, h0]
  · have a1 : i / 64 = 1 := by omega
    have hne : ¬ i = 63 := by omega
    rw [a1, if_neg hne]
    rfl

/-- C36. The push/pop round trip: for a bitset `a` satisfying the invariants whose
length plus one is a `size_type`, and either `v`, `push_msb(v)` returns and a
following `pop_msb()` restores exactly the words and length of `a`, whether the
length of `a` is word aligned or not. -/
theorem push_pop_round_trip (a : Bitset) (h : Inv a) (hfit : a.num_bits + 1 < SIZE_MOD)
    (v : Bool) :
    ∃ b, a.push_msb v = .returned b ∧ b.num_bits = a.num_bits + 1 ∧
      b.test a.num_bits = .ok v ∧ b.pop_msb = a := by
  have hfit' : a.m_num_bits + 1 < 2 ^ 64 := hfit
  obtain ⟨b, hb, hinvb, hnb, hbit⟩ := resize_spec a h (a.m_num_bits + 1) hfit' v
  have hpush : a.push_msb v = .returned b := by
    unfold Bitset.push_msb
    rw [size_mod_eq, Nat.mod_eq_of_lt hfit']
    exact hb
  have hpos : 0 < b.m_num_bits := by omega
  obtain ⟨c, hc, hinvc, hnc, hcbit⟩ := resize_spec b hinvb (b.m_num_bits - 1) (by omega) false
  rw [pop_msb_as_resize b hinvb hpos false] at hc
  have hpop : b.pop_msb = c := Outcome.returned.inj hc
  refine ⟨b, hpush, hnb, ?_, ?_⟩
  · show b.test a.m_num_bits = .ok v
    rw [test_of_lt b _ (by omega), hbit, if_neg (by omega)]
    simp
  · rw [hpop]
    apply bitset_ext c a hinvc h (by omega)
    intro i
    rw [hcbit]
    by_cases hi : i < a.m_num_bits
    · rw [if_pos (by omega), hbit, if_pos (by omega)]
    · rw [if_neg (by omega), h.bit_zero i (by omega)]
      simp

theorem push_pop_round_trip_witness :
    Inv (Bitset.sized 64 7) ∧ (Bitset.sized 64 7).num_bits + 1 < SIZE_MOD ∧
    ∃ b, (Bitset.sized 64 7).push_msb true = .returned b ∧
      b.num_bits = (Bitset.sized 64 7).num_bits + 1 ∧
      b.test (Bitset.sized 64 7).num_bits = .ok true ∧ b.pop_msb = Bitset.sized 64 7 :=
  ⟨by decide, by decide, push_pop_round_trip (Bitset.sized 64 7) (by decide) (by decide) true⟩

end Macchiato


namespace Macchiato

/-! ## The assertion on the full-word loop of `modify_range` -/

/-- When a call reaches the multi-word branch, the asserted condition
`start_full_word_index <= stop_full_word_index` is false exactly when the range
starts inside a word and ends inside the very next word. -/
theorem full_word_assert_spec (b : Bitset) (h : Inv b) (n len : Nat)
    (hn : n < b.m_num_bits) (hlen : 0 < len) (hw : n + len < 2 ^ 64)
    (hword : n / 64 ≠ (min b.m_num_bits (n + len) - 1) / 64) :
    b.modify_range_full_word_assert n len =
      some (decide (¬ (n % 64 ≠ 0 ∧ (min b.m_num_bits (n + len) - 1) % 64 ≠ 63 ∧
        (min b.m_num_bits (n + len) - 1) / 64 = n / 64 + 1))) := by
  have hnb := h.bits_lt
  have hstop : (min b.m_num_bits ((n + len) % 2 ^ 64) + 2 ^ 64 - 1) % 2 ^ 64 =
      min b.m_num_bits (n + len) - 1 := by
    rw [Nat.mod_eq_of_lt hw]
    have : 0 < min b.m_num_bits (n + len) := by omega
    omega
  unfold Bitset.modify_range_full_word_assert
  simp only [word_index_eq, bit_offset_eq, msb_pos_eq, size_mod_eq, hstop]
  rw [if_neg (show ¬ n ≥ b.m_num_bits by omega), if_neg (show ¬ len = 0 by omega),
    if_neg hword]
  generalize hs : min b.m_num_bits (n + len) - 1 = stop at hword ⊢
  have hs1 : n ≤ stop := by omega
  have hs2 : stop < 2 ^ 64 := by omega
  have hlt : n / 64 < stop / 64 := by
    have : n / 64 ≤ stop / 64 := Nat.div_le_div_right hs1
    omega
  rw [Option.some.injEq, decide_eq_decide]
  split_ifs <;> omega

/-- C34 (the code diverges). The bitset of the test `Modify range` (two zero words
extended, two bits pushed: 130 bits in 3 words) satisfies the invariants, and
`set(4, BITS_PER_WORD)` on it, which starts at bit 4 of word 0 and stops at bit 3 of
word 1, reaches the multi-word branch with `start_full_word_index == 1` and
`stop_full_word_index == 0`: the asserted condition is false. With assertions
compiled out the call still sets exactly the bits 4..67. -/
theorem full_word_assert_fails :
    (((Bitset.empty.extend_msb_with_word ZEROS).extend_msb_with_word ZEROS).push_msb
        false).state.push_msb false = .returned (Bitset.sized 130 ZEROS) ∧
    Inv (Bitset.sized 130 ZEROS) ∧
    4 < (Bitset.sized 130 ZEROS).num_bits ∧ 0 < BITS_PER_WORD ∧
    4 + BITS_PER_WORD < SIZE_MOD ∧
    Bitset.word_index 4 = 0 ∧ Bitset.word_index (4 + BITS_PER_WORD - 1) = 1 ∧
    (Bitset.sized 130 ZEROS).modify_range_full_word_assert 4 BITS_PER_WORD = some false ∧
    (Bitset.sized 130 ZEROS).set_range 4 BITS_PER_WORD =
      .returned ⟨[ONES - 15, 15, 0], 130⟩ := by
  decide

end Macchiato


namespace Macchiato

/-! ## Element accesses stay inside the vector, shifts below the word width -/

theorem Trace.safe_nil : Trace.nil.safe :=
  ⟨fun _ h => absurd h (List.not_mem_nil _), fun _ h => absurd h (List.not_mem_nil _)⟩

theorem Trace.safe_append (t u : Trace) : (t.append u).safe ↔ t.safe ∧ u.safe := by
  unfold Trace.safe Trace.append
  simp only [List.mem_append]
  constructor
  · rintro ⟨h1, h2⟩
    exact ⟨⟨fun a ha => h1 a (Or.inl ha), fun k hk => h2 k (Or.inl hk)⟩,
      ⟨fun a ha => h1 a (Or.inr ha), fun k hk => h2 k (Or.inr hk)⟩⟩
  · rintro ⟨⟨h1, h2⟩, ⟨h3, h4⟩⟩
    exact ⟨fun a ha => ha.elim (h1 a) (h3 a), fun k hk => hk.elim (h2 k) (h4 k)⟩

theorem Trace.safe_mk (accesses : List Access) (shifts : List Nat)
    (h1 : ∀ a ∈ accesses, a.index < a.size) (h2 : ∀ k ∈ shifts, k < 64) :
    (Trace.mk accesses shifts).safe := ⟨h1, h2⟩

theorem Trace.safe_accesses (accesses : List Access)
    (h1 : ∀ a ∈ accesses, a.index < a.size) : (Trace.mk accesses []).safe :=
  ⟨h1, fun _ h => absurd h (List.not_mem_nil _)⟩

theorem loop_accesses_in_bounds (start count size : Nat) (h : start + count ≤ size) :
    ∀ a ∈ loop_accesses start count size, a.index < a.size := by
  intro a ha
  unfold loop_accesses at ha
  obtain ⟨i, hi, rfl⟩ := List.mem_map.mp ha
  have := List.mem_range'_1.mp hi
  show i < size
  omega

theorem mem_pair {α : Type} (P : α → Prop) (l₁ l₂ : List α)
    (h1 : ∀ a ∈ l₁, P a) (h2 : ∀ a ∈ l₂, P a) : ∀ a ∈ l₁ ++ l₂, P a := by
  intro a ha
  rcases List.mem_append.mp ha with h | h
  · exact h1 a h
  · exact h2 a h

theorem back_access_in_bounds (size : Nat) (h0 : 0 < size) (h1 : size < 2 ^ 64) :
    ∀ a ∈ [back_access size], a.index < a.size := by
  intro a ha
  rw [List.mem_singleton] at ha
  subst ha
  show (size + SIZE_MOD - 1) % SIZE_MOD < size
  rw [size_mod_eq]
  omega

theorem zero_unused_safe (num_bits size : Nat) (hs : size = (num_bits + 63) / 64)
    (hn : num_bits < 2 ^ 64) : (Bitset.zero_unused_bits_in_msw_trace num_bits size).safe := by
  unfold Bitset.zero_unused_bits_in_msw_trace
  split
  · exact Trace.safe_nil
  · rw [Trace.safe_append]
    constructor
    · unfold Bitset.generate_used_bits_in_msw_mask_trace
      simp only [binary_mod_eq]
      split
      · exact Trace.safe_nil
      · refine Trace.safe_mk _ _ (fun _ h => absurd h (List.not_mem_nil _)) ?_
        intro k hk
        rw [List.mem_singleton] at hk
        omega
    · exact Trace.safe_accesses _ (back_access_in_bounds size (by omega) (by omega))

theorem single_bit_safe (b : Bitset) (h : Inv b) (n : Nat) : (b.single_bit_trace n).safe := by
  have hlen := h.length_eq
  unfold Bitset.single_bit_trace
  split
  · exact Trace.safe_nil
  · rename_i hn
    apply Trace.safe_mk
    · intro a ha
      rw [List.mem_singleton] at ha
      subst ha
      show Bitset.word_index n < b.m_data.length
      rw [word_index_eq]
      omega
    · intro k hk
      rw [List.mem_singleton] at hk
      subst hk
      rw [bit_offset_eq]
      exact Nat.mod_lt _ (by decide)

theorem part_op_safe (start stop_incl : Nat) (h1 : start < 64) (h2 : stop_incl < 64) :
    (Bitset.part_op_trace start stop_incl).safe := by
  unfold Bitset.part_op_trace
  refine Trace.safe_mk _ _ (fun _ h => absurd h (List.not_mem_nil _)) ?_
  intro k hk
  simp only [List.mem_cons, List.mem_singleton, List.not_mem_nil, or_false, msb_pos_eq,
    size_mod_eq] at hk
  omega

theorem one_access_safe (i size : Nat) (h : i < size) : (Trace.mk [⟨i, size⟩] []).safe := by
  apply Trace.safe_accesses
  intro a ha
  rw [List.mem_singleton] at ha
  subst ha
  exact h

theorem modify_range_safe (b : Bitset) (h : Inv b) (n len : Nat) (hw : n + len < 2 ^ 64) :
    (b.modify_range_trace n len).safe := by
  have hlen := h.length_eq
  have hnb := h.bits_lt
  unfold Bitset.modify_range_trace
  by_cases hn : n ≥ b.m_num_bits
  · rw [if_pos hn]; exact Trace.safe_nil
  rw [if_neg hn]
  by_cases hl : len = 0
  · rw [if_pos hl]; exact Trace.safe_nil
  rw [if_neg hl]
  have hstop : (min b.m_num_bits ((n + len) % 2 ^ 64) + 2 ^ 64 - 1) % 2 ^ 64 =
      min b.m_num_bits (n + len) - 1 := by
    rw [Nat.mod_eq_of_lt hw]
    have : 0 < min b.m_num_bits (n + len) := by omega
    omega
  simp only [word_index_eq, bit_offset_eq, msb_pos_eq, size_mod_eq, hstop, Bitset.num_words]
  generalize hs : min b.m_num_bits (n + len) - 1 = stop
  have hs1 : n ≤ stop := by omega
  have hs2 : stop < b.m_num_bits := by omega
  have hm1 : n % 64 < 64 := Nat.mod_lt _ (by decide)
  have hm2 : stop % 64 < 64 := Nat.mod_lt _ (by decide)
  have hle : n / 64 ≤ stop / 64 := Nat.div_le_div_right hs1
  have hsw : stop / 64 < b.m_data.length := by omega
  split
  · rw [Trace.safe_append]
    exact ⟨one_access_safe _ _ (by omega), part_op_safe _ _ hm1 hm2⟩
  · rename_i hne
    rw [Trace.safe_append, Trace.safe_append]
    refine ⟨⟨?_, ?_⟩, ?_⟩
    · by_cases h1 : n % 64 = 0
      · rw [if_pos h1, if_neg (show ¬ (0 : Nat) ≠ 0 by decide)]
        exact Trace.safe_nil
      · rw [if_neg h1, if_pos (show (1 : Nat) ≠ 0 by decide), Trace.safe_append]
        exact ⟨one_access_safe _ _ (by omega), part_op_safe _ _ hm1 (by decide)⟩
    · by_cases h2 : stop % 64 = 63
      · rw [if_pos h2, if_neg (show ¬ (0 : Nat) ≠ 0 by decide)]
        exact Trace.safe_nil
      · rw [if_neg h2, if_pos (show (1 : Nat) ≠ 0 by decide), Trace.safe_append]
        exact ⟨one_access_safe _ _ hsw, part_op_safe _ _ (by decide) hm2⟩
    · apply Trace.safe_accesses
      apply loop_accesses_in_bounds
      split_ifs <;> omega

theorem resize_safe (b : Bitset) (h : Inv b) (num_bits : Nat) (hn : num_bits < 2 ^ 64)
    (value : Bool) : (b.resize_trace num_bits value).safe := by
  have hlen := h.length_eq
  have hnb := h.bits_lt
  unfold Bitset.resize_trace
  simp only [calc_num_words_needed_eq, Bitset.num_words, msw_bit_alignment_eq, size_mod_eq]
  rw [Trace.safe_append]
  have hsize : (if (num_bits + 63) / 64 ≠ b.m_data.length then (num_bits + 63) / 64
      else b.m_data.length) = (num_bits + 63) / 64 := by
    split
    · rfl
    · omega
  rw [hsize]
  refine ⟨?_, zero_unused_safe _ _ rfl hn⟩
  split
  · rename_i hc
    have hge : num_bits ≥ b.m_num_bits := by
      simp only [Bool.and_eq_true, decide_eq_true_eq] at hc
      exact hc.2
    split
    · rename_i ha
      apply Trace.safe_mk
      · intro a hm
        rw [List.mem_singleton] at hm
        subst hm
        show (b.m_data.length + 2 ^ 64 - 1) % 2 ^ 64 < (num_bits + 63) / 64
        omega
      · intro k hk
        rw [List.mem_singleton] at hk
        omega
    · exact Trace.safe_nil
  · exact Trace.safe_nil

theorem pop_msb_safe (b : Bitset) (h : Inv b) (hpos : 0 < b.m_num_bits) :
    b.pop_msb_trace.safe := by
  have hlen := h.length_eq
  have hnb := h.bits_lt
  have hdec : (b.m_num_bits + 2 ^ 64 - 1) % 2 ^ 64 = b.m_num_bits - 1 := by omega
  unfold Bitset.pop_msb_trace
  simp only [calc_num_words_needed_eq, Bitset.num_words, size_mod_eq, hdec]
  split
  · exact Trace.safe_accesses _ (back_access_in_bounds _ (by omega) (by omega))
  · exact zero_unused_safe _ _ (by omega) (by omega)

theorem extend_safe (b : Bitset) (h : Inv b) : b.extend_msb_with_word_trace.safe := by
  have hlen := h.length_eq
  have hnb := h.bits_lt
  unfold Bitset.extend_msb_with_word_trace
  simp only [msw_bit_alignment_eq, Bitset.num_words, bits_per_word_eq, size_mod_eq]
  split
  · exact Trace.safe_nil
  · apply Trace.safe_mk
    · exact back_access_in_bounds _ (by omega) (by omega)
    · intro k hk
      simp only [List.mem_cons, List.mem_singleton, List.not_mem_nil, or_false] at hk
      omega

theorem apply_boolean_op_safe (mode : MixedWidthMode) (b other : Bitset) (h : Inv b)
    (ho : Inv other) : (Bitset.apply_boolean_op_trace mode b other).safe := by
  have hlen := h.length_eq
  have hnb := h.bits_lt
  have holen := ho.length_eq
  have honb := ho.bits_lt
  unfold Bitset.apply_boolean_op_trace
  cases mode with
  | UNSIGNED_PROMOTION =>
    simp only [Bitset.num_words]
    rw [Trace.safe_append]
    constructor
    · apply Trace.safe_accesses
      apply mem_pair
      · apply mem_pair
        · exact loop_accesses_in_bounds _ _ _ (by omega)
        · exact loop_accesses_in_bounds _ _ _ (by omega)
      · split
        · exact loop_accesses_in_bounds _ _ _ (by omega)
        · split
          · exact loop_accesses_in_bounds _ _ _ (by omega)
          · exact fun _ hm => absurd hm (List.not_mem_nil _)
    · apply zero_unused_safe
      · split <;> omega
      · omega
  | SAME_SIZE_ONLY =>
    simp only [Bitset.num_words, Bitset.num_bits]
    split
    · exact Trace.safe_nil
    · rename_i he
      have he' : b.m_num_bits = other.m_num_bits := not_not.mp he
      rw [Trace.safe_append]
      constructor
      · apply Trace.safe_accesses
        apply mem_pair
        · exact loop_accesses_in_bounds _ _ _ (by omega)
        · exact loop_accesses_in_bounds _ _ _ (by omega)
      · exact zero_unused_safe _ _ hlen hnb

theorem op_ne_safe (mode : MixedWidthMode) (b other : Bitset) (h : Inv b) (ho : Inv other) :
    (Bitset.op_ne_trace mode b other).safe := by
  have hlen := h.length_eq
  have holen := ho.length_eq
  unfold Bitset.op_ne_trace
  cases mode with
  | UNSIGNED_PROMOTION =>
    dsimp only
    split
    · exact Trace.safe_nil
    · unfold Bitset.is_narrower_than Bitset.num_words
      by_cases hlt : b.m_num_bits < other.m_num_bits
      · simp only [hlt, decide_True, if_true]
        apply Trace.safe_accesses
        apply mem_pair
        · apply mem_pair
          · exact loop_accesses_in_bounds _ _ _ (by omega)
          · exact loop_accesses_in_bounds _ _ _ (by omega)
        · exact loop_accesses_in_bounds _ _ _ (by omega)
      · simp only [hlt, decide_False, Bool.false_eq_true, if_false]
        apply Trace.safe_accesses
        apply mem_pair
        · apply mem_pair
          · exact loop_accesses_in_bounds _ _ _ (by omega)
          · exact loop_accesses_in_bounds _ _ _ (by omega)
        · exact loop_accesses_in_bounds _ _ _ (by omega)
  | SAME_SIZE_ONLY =>
    simp only [Bitset.num_words, Bitset.num_bits]
    split
    · exact Trace.safe_nil
    · rename_i he
      have he' : b.m_num_bits = other.m_num_bits := not_not.mp he
      apply Trace.safe_accesses
      apply mem_pair
      · exact loop_accesses_in_bounds _ _ _ (by omega)
      · exact loop_accesses_in_bounds _ _ _ (by omega)

theorem inplace_set_difference_safe (b other : Bitset) :
    (b.inplace_set_difference_trace other).safe := by
  unfold Bitset.inplace_set_difference_trace
  simp only [Bitset.num_words]
  apply Trace.safe_accesses
  apply mem_pair
  · exact loop_accesses_in_bounds _ _ _ (by omega)
  · exact loop_accesses_in_bounds _ _ _ (by omega)

/-- A bitset that breaks the word-count invariant is flagged: on the state a move
leaves its source in, `test(0)` indexes an empty vector. -/
theorem stale_length_access_out_of_bounds :
    ¬ ((Bitset.move_construct (Bitset.sized 5 7)).2.single_bit_trace 0).safe := by
  decide

/-- C35. No out-of-bounds word access: for bitsets `b` and `other` satisfying the
storage invariants, either width policy and arguments of their C++ types, every
element access made by `test`, the single-bit and the ranged `set`/`reset`/`flip`
(with `start + len` not wrapping), `resize` (its `at(old_num_words - 1)` included),
`pop_msb` on a non-empty bitset, `extend_msb_with_word`,
`zero_unused_bits_in_msw`, the boolean combinators, equality and
`inplace_set_difference` has an index strictly below the size of the vector at
that moment, and every shift amount is strictly below `BITS_PER_WORD`. -/
theorem accesses_in_bounds (mode : MixedWidthMode) (b other : Bitset) (hb : Inv b)
    (ho : Inv other) (n len num_bits : Nat) (value : Bool) (hwrap : n + len < SIZE_MOD)
    (hnum : num_bits < SIZE_MOD) :
    (b.single_bit_trace n).safe ∧
    (b.modify_range_trace n len).safe ∧
    (b.resize_trace num_bits value).safe ∧
    (0 < b.num_bits → b.pop_msb_trace.safe) ∧
    b.extend_msb_with_word_trace.safe ∧
    (Bitset.zero_unused_bits_in_msw_trace b.num_bits b.num_words).safe ∧
    (Bitset.apply_boolean_op_trace mode b other).safe ∧
    (Bitset.op_ne_trace mode b other).safe ∧
    (b.inplace_set_difference_trace other).safe :=
  ⟨single_bit_safe b hb n, modify_range_safe b hb n len hwrap,
    resize_safe b hb num_bits hnum value, fun hpos => pop_msb_safe b hb hpos,
    extend_safe b hb, zero_unused_safe _ _ hb.length_eq hb.bits_lt,
    apply_boolean_op_safe mode b other hb ho, op_ne_safe mode b other hb ho,
    inplace_set_difference_safe b other⟩

theorem accesses_in_bounds_witness :
    Inv (Bitset.sized 130 5) ∧ Inv (Bitset.sized 70 7) ∧ 4 + 64 < SIZE_MOD ∧ 200 < SIZE_MOD ∧
    (((Bitset.sized 130 5).single_bit_trace 4).safe ∧
    ((Bitset.sized 130 5).modify_range_trace 4 64).safe ∧
    ((Bitset.sized 130 5).resize_trace 200 true).safe ∧
    (0 < (Bitset.sized 130 5).num_bits → (Bitset.sized 130 5).pop_msb_trace.safe) ∧
    (Bitset.sized 130 5).extend_msb_with_word_trace.safe ∧
    (Bitset.zero_unused_bits_in_msw_trace (Bitset.sized 130 5).num_bits
      (Bitset.sized 130 5).num_words).safe ∧
    (Bitset.apply_boolean_op_trace .UNSIGNED_PROMOTION (Bitset.sized 130 5)
      (Bitset.sized 70 7)).safe ∧
    (Bitset.op_ne_trace .UNSIGNED_PROMOTION (Bitset.sized 130 5) (Bitset.sized 70 7)).safe ∧
    ((Bitset.sized 130 5).inplace_set_difference_trace (Bitset.sized 70 7)).safe) :=
  ⟨by decide, by decide, by decide, by decide,
    accesses_in_bounds .UNSIGNED_PROMOTION (Bitset.sized 130 5) (Bitset.sized 70 7)
      (by decide) (by decide) 4 64 200 true (by decide) (by decide)⟩

end Macchiato


namespace Macchiato

namespace xoshiro

/-! ## xoshiro256++: the state is never everywhere zero -/

theorem u64_mod_eq : U64_MOD = 2 ^ 64 := rfl

theorem or_eq_zero {a b : Nat} (h : a ||| b = 0) : a = 0 ∧ b = 0 := by
  constructor
  · apply Nat.eq_of_testBit_eq
    intro i
    have := congrArg (fun x => Nat.testBit x i) h
    simp only [Nat.testBit_or, Nat.zero_testBit, Bool.or_eq_false_iff] at this
    rw [this.1, Nat.zero_testBit]
  · apply Nat.eq_of_testBit_eq
    intro i
    have := congrArg (fun x => Nat.testBit x i) h
    simp only [Nat.testBit_or, Nat.zero_testBit, Bool.or_eq_false_iff] at this
    rw [this.2, Nat.zero_testBit]

theorem rotl_lt (x s : Nat) (hx : x < 2 ^ 64) : rotl x s < 2 ^ 64 := by
  unfold rotl
  dsimp only
  split
  · exact hx
  · apply Nat.or_lt_two_pow
    · rw [u64_mod_eq]; exact Nat.mod_lt _ (by decide)
    · rw [Nat.shiftRight_eq_div_pow]
      exact lt_of_le_of_lt (Nat.div_le_self _ _) hx

/-- A rotation by 45 maps only zero to zero. -/
theorem rotl_eq_zero (x : Nat) (h : rotl x 45 = 0) : x = 0 := by
  unfold rotl at h
  simp only [u64_mod_eq] at h
  rw [if_neg (by decide)] at h
  obtain ⟨h1, h2⟩ := or_eq_zero h
  have e1 : 45 % 64 = 45 := by decide
  rw [e1] at h1 h2
  rw [Nat.shiftRight_eq_div_pow] at h2
  rw [Nat.shiftLeft_eq] at h1
  have p19 : (2 : Nat) ^ (64 - 45) = 524288 := by norm_num
  have p45 : (2 : Nat) ^ 45 = 35184372088832 := by norm_num
  have p64 : (2 : Nat) ^ 64 = 18446744073709551616 := by norm_num
  rw [p19] at h2
  rw [p45, p64] at h1
  omega

/-- Only zero equals its own left shift by 17. -/
theorem shl17_fixed (x : Nat) (h : x = (x <<< 17) % U64_MOD) : x = 0 := by
  apply Nat.eq_of_testBit_eq
  intro i
  rw [Nat.zero_testBit]
  induction i using Nat.strong_induction_on with
  | _ i ih =>
    rw [h, u64_mod_eq, Nat.testBit_mod_two_pow, Nat.testBit_shiftLeft]
    by_cases h17 : 17 ≤ i
    · rw [ih (i - 17) (by omega)]
      simp
    · simp [h17]

theorem is_zero_iff (s : state_type) :
    s.is_zero = true ↔ s.s0 = 0 ∧ s.s1 = 0 ∧ s.s2 = 0 ∧ s.s3 = 0 := by
  unfold state_type.is_zero
  simp [List.any_cons, and_assoc]

theorem next_typed (g : Xoshiro256PlusPlus) (h : g.s.typed) : g.next.2.s.typed := by
  obtain ⟨h0, h1, h2, h3⟩ := h
  rw [u64_mod_eq] at h0 h1 h2 h3
  unfold Xoshiro256PlusPlus.next state_type.typed
  simp only [u64_mod_eq]
  refine ⟨?_, ?_, ?_, ?_⟩
  · exact Nat.xor_lt_two_pow h0 (Nat.xor_lt_two_pow h3 h1)
  · exact Nat.xor_lt_two_pow h1 (Nat.xor_lt_two_pow h2 h0)
  · exact Nat.xor_lt_two_pow (Nat.xor_lt_two_pow h2 h0) (Nat.mod_lt _ (by decide))
  · exact rotl_lt _ _ (Nat.xor_lt_two_pow h3 h1)

/-- The member `next()` maps no other state to the everywhere-zero state. -/
theorem next_is_zero (g : Xoshiro256PlusPlus) (h : g.s.typed)
    (hz : g.next.2.s.is_zero = true) : g.s.is_zero = true := by
  obtain ⟨h0, h1, h2, h3⟩ := h
  rw [u64_mod_eq] at h0 h1 h2 h3
  rw [is_zero_iff] at hz ⊢
  unfold Xoshiro256PlusPlus.next at hz
  simp only at hz
  obtain ⟨z0, z1, z2, z3⟩ := hz
  have e31 : g.s.s3 ^^^ g.s.s1 = 0 := rotl_eq_zero _ z3
  rw [e31, Nat.xor_zero] at z0
  rw [z0, Nat.xor_zero] at z1 z2
  have e12 : g.s.s1 = g.s.s2 := Nat.xor_eq_zero.mp z1
  have e2t : g.s.s2 = (g.s.s1 <<< 17) % U64_MOD := Nat.xor_eq_zero.mp z2
  have s1z : g.s.s1 = 0 := shl17_fixed _ (e12.trans e2t)
  have e31' : g.s.s3 = g.s.s1 := Nat.xor_eq_zero.mp e31
  exact ⟨z0, s1z, by rw [← e12, s1z], by rw [e31', s1z]⟩

theorem advance_never_zero (n : Nat) (g : Xoshiro256PlusPlus) (h : g.s.typed)
    (hz : g.s.is_zero = false) :
    (Xoshiro256PlusPlus.advance n g).s.typed ∧
      (Xoshiro256PlusPlus.advance n g).s.is_zero = false := by
  induction n generalizing g with
  | zero => exact ⟨h, hz⟩
  | succ n ih =>
    unfold Xoshiro256PlusPlus.advance
    apply ih _ (next_typed g h)
    cases hn : g.next.2.s.is_zero
    · rfl
    · rw [next_is_zero g h hn] at hz
      exact absurd hz (by decide)

/-- C33. The generator state is never everywhere zero: the constructor from a state
throws `std::invalid_argument` exactly for the state whose four words are 0 and
otherwise yields a generator holding that state; `next()` maps every state that
is not everywhere zero to such a state (arithmetic on `std::uint64_t`); so after
any number of `next()` calls on a constructed generator the state is not
everywhere zero. -/
theorem state_never_zero (state : state_type) (ht : state.typed) :
    (Xoshiro256PlusPlus.from_state state = .error .invalid_argument ↔
      state = ⟨0, 0, 0, 0⟩) ∧
    (state ≠ ⟨0, 0, 0, 0⟩ → Xoshiro256PlusPlus.from_state state = .ok ⟨state⟩) ∧
    (∀ g : Xoshiro256PlusPlus, g.s.typed → g.s.is_zero = false →
      g.next.2.s.typed ∧ g.next.2.s.is_zero = false) ∧
    (∀ g, Xoshiro256PlusPlus.from_state state = .ok g →
      ∀ n, (Xoshiro256PlusPlus.advance n g).s.typed ∧
        (Xoshiro256PlusPlus.advance n g).s.is_zero = false) := by
  have hzero : state.is_zero = true ↔ state = ⟨0, 0, 0, 0⟩ := by
    rw [is_zero_iff]
    cases state
    simp
  refine ⟨?_, ?_, ?_, ?_⟩
  · unfold Xoshiro256PlusPlus.from_state
    rw [← hzero]
    split
    · rename_i h; simp [h]
    · rename_i h; simp [h]
  · intro hne
    unfold Xoshiro256PlusPlus.from_state
    rw [if_neg (fun h => hne (hzero.mp h))]
  · intro g hg hz
    have := advance_never_zero 1 g hg hz
    exact this
  · intro g hg n
    unfold Xoshiro256PlusPlus.from_state at hg
    split at hg
    · cases hg
    · rename_i hz
      have hgs : g = ⟨state⟩ := (Except.ok.inj hg).symm
      subst hgs
      apply advance_never_zero n _ ht
      cases hs : state.is_zero
      · rfl
      · exact absurd hs hz

theorem state_never_zero_witness :
    (state_type.mk 1 0 0 0).typed ∧
    ((Xoshiro256PlusPlus.from_state ⟨1, 0, 0, 0⟩ = .error .invalid_argument ↔
      (state_type.mk 1 0 0 0) = ⟨0, 0, 0, 0⟩) ∧
    ((state_type.mk 1 0 0 0) ≠ ⟨0, 0, 0, 0⟩ →
      Xoshiro256PlusPlus.from_state ⟨1, 0, 0, 0⟩ = .ok ⟨⟨1, 0, 0, 0⟩⟩) ∧
    (∀ g : Xoshiro256PlusPlus, g.s.typed → g.s.is_zero = false →
      g.next.2.s.typed ∧ g.next.2.s.is_zero = false) ∧
    (∀ g, Xoshiro256PlusPlus.from_state ⟨1, 0, 0, 0⟩ = .ok g →
      ∀ n, (Xoshiro256PlusPlus.advance n g).s.typed ∧
        (Xoshiro256PlusPlus.advance n g).s.is_zero = false)) :=
  ⟨by decide, state_never_zero ⟨1, 0, 0, 0⟩ (by decide)⟩

end xoshiro

end Macchiato

